import Mathlib

/-!
# Verification of the temporal-graph label-minimization engine

A shallow embedding of the Rust sources `src/lib.rs` and `src/minimization.rs`
of the `temporal_graph` repository, together with proofs about the embedded
functions.

Modelling conventions:

* `Nat = usize` is modelled as `Nat`; `Int = i64` is modelled as
  `Int` (no arithmetic beyond comparisons is performed on timestamps, so no
  wrap-around behaviour is observable).
* Rust's `HashMap<(Nat, Nat), TemporalEdge>` is modelled as an
  association list `List ((Nat × Nat) × List Int)`, kept sorted by key
  (lexicographically), and each `HashSet<Int>` is modelled as a strictly
  sorted `List Int`.  A `HashMap`/`HashSet` has no observable iteration
  order; the sorted representation fixes one concrete order.  The
  well-formedness predicate `TemporalGraph.WF` states the representation
  invariants that every graph reachable through the Rust API satisfies:
  normalized keys, no duplicate keys, set semantics for the timestamp sets,
  and the auto-cleanup invariant (no stored edge with an empty label set).
* The Rust struct `TemporalEdge` stores `u`, `v` and the timestamp set; by
  construction `u` and `v` always equal the components of the normalized
  key under which the edge is stored, so the embedding stores only the key
  and the timestamp list.  The unused `vertex_labels` field is omitted.
* Functions that mutate `&mut self` become functions returning the new
  graph (paired with the Rust return value where there is one).
-/

/-- `TemporalEdge::normalize_pair`: smaller vertex id first. -/
def normalize_pair (a b : Nat) : Nat × Nat :=
  if a ≤ b then (a, b) else (b, a)

/-- Strict lexicographic order on edge keys (the order in which the sorted
association list modelling the edge `HashMap` is kept). -/
def keyLt (a b : Nat × Nat) : Prop :=
  a.1 < b.1 ∨ (a.1 = b.1 ∧ a.2 < b.2)

instance (a b : Nat × Nat) : Decidable (keyLt a b) := by
  unfold keyLt; infer_instance

/-- Reflexive lexicographic order on edge keys, used as the comparator when
sorting edge lists (`sort_by_key` in `to_state`). -/
def keyLe (a b : (Nat × Nat)) : Prop :=
  a.1 < b.1 ∨ (a.1 = b.1 ∧ a.2 ≤ b.2)

instance (a b : (Nat × Nat)) : Decidable (keyLe a b) := by
  unfold keyLe; infer_instance

/-- Ordered duplicate-free insertion into a sorted list; models `HashSet`
insertion (for vertex sets and timestamp sets). -/
def insOrd {α : Type} [LinearOrder α] (x : α) : List α → List α
  | [] => [x]
  | y :: l => if x < y then x :: y :: l else if x = y then y :: l else y :: insOrd x l

/-- Insert timestamp `t` under key `k` in the sorted association list,
creating the entry when the key is absent; models
`edges.entry(k).or_insert_with(..).timestamps.insert(t)`. -/
def insertEdgeTime (k : (Nat × Nat)) (t : Int) :
    List ((Nat × Nat) × List Int) → List ((Nat × Nat) × List Int)
  | [] => [(k, [t])]
  | (k', ts) :: rest =>
    if keyLt k k' then (k, [t]) :: (k', ts) :: rest
    else if k = k' then (k', insOrd t ts) :: rest
    else (k', ts) :: insertEdgeTime k t rest

/-- Key lookup in the association list; models `edges.get(&k)`. -/
def lookupEdge : List ((Nat × Nat) × List Int) → (Nat × Nat) → Option (List Int)
  | [], _ => none
  | (k', ts) :: rest, k => if k = k' then some ts else lookupEdge rest k

/-- Remove timestamp `t` from the entry with key `k`; when the timestamp was
present and the remaining set is empty, the entry is deleted (the
auto-cleanup branch of `remove_edge_timestamp`).  Returns the new list and
whether a removal occurred. -/
def removeEdgeTime (k : (Nat × Nat)) (t : Int) :
    List ((Nat × Nat) × List Int) → List ((Nat × Nat) × List Int) × Bool
  | [] => ([], false)
  | (k', ts) :: rest =>
    if k = k' then
      let removed := decide (t ∈ ts)
      let ts' := ts.filter (fun s => s ≠ t)
      if removed && ts'.isEmpty then (rest, removed)
      else ((k', ts') :: rest, removed)
    else
      let r := removeEdgeTime k t rest
      ((k', ts) :: r.1, r.2)

/-- Delete the entry with key `k` outright (`remove_edge`). -/
def eraseEdgeKey (k : (Nat × Nat)) :
    List ((Nat × Nat) × List Int) → List ((Nat × Nat) × List Int) × Bool
  | [] => ([], false)
  | (k', ts) :: rest =>
    if k = k' then (rest, true)
    else
      let r := eraseEdgeKey k rest
      ((k', ts) :: r.1, r.2)

/-- `struct TemporalGraph` (the `vertex_labels` field, which no operation in
scope reads, is omitted). -/
structure TemporalGraph where
  vertices : List Nat
  edges : List ((Nat × Nat) × List Int)
  deriving DecidableEq, Repr

/-- `struct GraphState`: canonical sorted snapshot of the edge/label data. -/
structure GraphState where
  edge_labels : List ((Nat × Nat) × List Int)
  deriving DecidableEq, Repr

namespace TemporalGraph

/-- `TemporalGraph::new()`. -/
def new : TemporalGraph := ⟨[], []⟩

/-- `add_vertex`: inserts the id, returns whether it was newly inserted. -/
def add_vertex (g : TemporalGraph) (id : Nat) : TemporalGraph × Bool :=
  (⟨insOrd id g.vertices, g.edges⟩, decide (id ∉ g.vertices))

/-- `add_edge`: ensures both endpoints exist, normalizes the pair, inserts
the timestamp into the edge's label set. -/
def add_edge (g : TemporalGraph) (u v : Nat) (t : Int) : TemporalGraph :=
  let g₁ := (g.add_vertex u).1
  let g₂ := (g₁.add_vertex v).1
  ⟨g₂.vertices, insertEdgeTime (normalize_pair u v) t g₂.edges⟩

/-- `has_edge_at_time`. -/
def has_edge_at_time (g : TemporalGraph) (u v : Nat) (t : Int) : Bool :=
  match lookupEdge g.edges (normalize_pair u v) with
  | some ts => decide (t ∈ ts)
  | none => false

/-- Sorting a timestamp list (`times.sort_unstable()`). -/
def sortTimes (ts : List Int) : List Int :=
  ts.insertionSort (· ≤ ·)

/-- `edge_times`: the sorted timestamp list of the edge, if it exists. -/
def edge_times (g : TemporalGraph) (u v : Nat) : Option (List Int) :=
  (lookupEdge g.edges (normalize_pair u v)).map sortTimes

/-- `vertex_count`. -/
def vertex_count (g : TemporalGraph) : Nat := g.vertices.length

/-- `edge_count`. -/
def edge_count (g : TemporalGraph) : Nat := g.edges.length

/-- `has_vertex`. -/
def has_vertex (g : TemporalGraph) (v : Nat) : Bool := decide (v ∈ g.vertices)

/-- `remove_edge_timestamp`: removes `t` from the edge's label set if
present; deletes the edge record when the set becomes empty.  Returns the
new graph and whether a removal occurred. -/
def remove_edge_timestamp (g : TemporalGraph) (u v : Nat) (t : Int) :
    TemporalGraph × Bool :=
  let r := removeEdgeTime (normalize_pair u v) t g.edges
  (⟨g.vertices, r.1⟩, r.2)

/-- `remove_edge`: unconditional full removal. -/
def remove_edge (g : TemporalGraph) (u v : Nat) : TemporalGraph × Bool :=
  let r := eraseEdgeKey (normalize_pair u v) g.edges
  (⟨g.vertices, r.1⟩, r.2)

/-- `to_state`: the canonical snapshot — per-edge sorted timestamp lists,
sorted by edge key. -/
def to_state (g : TemporalGraph) : GraphState :=
  ⟨(g.edges.map (fun p => (p.1, sortTimes p.2))).insertionSort (fun a b => keyLe a.1 b.1)⟩

end TemporalGraph

namespace TemporalGraph

/-! ## Embedding of `src/minimization.rs` -/

/-- Minimum and maximum of a nonempty list (`iter().min()` / `iter().max()`
over the timestamp set). -/
def listMinMax : List Int → Option (Int × Int)
  | [] => none
  | t :: rest => some (rest.foldl min t, rest.foldl max t)

/-- `get_edge_time_range`: `(tmin, tmax)` of the edge's label set. -/
def get_edge_time_range (g : TemporalGraph) (u v : Nat) :
    Option (Int × Int) :=
  match lookupEdge g.edges (normalize_pair u v) with
  | none => none
  | some ts => listMinMax ts

/-- `get_all_neighbors`: vertices reachable from `vertex` by an edge at any
time (built as a set — modelled with ordered duplicate-free insertion). -/
def get_all_neighbors (g : TemporalGraph) (vertex : Nat) : List Nat :=
  g.edges.foldl
    (fun acc p =>
      if p.1.1 = vertex then insOrd p.1.2 acc
      else if p.1.2 = vertex then insOrd p.1.1 acc
      else acc) []

/-- `get_edge_timestamps_in_range`: timestamps of edge `{u,v}` strictly
inside `(tmin, tmax)`. -/
def get_edge_timestamps_in_range (g : TemporalGraph) (u v : Nat)
    (tmin tmax : Int) : List Int :=
  match lookupEdge g.edges (normalize_pair u v) with
  | none => []
  | some ts => ts.filter (fun t => tmin < t ∧ t < tmax)

/-- `transfer_labels_through_edge(u, v)` (`u` = anchor, `v` = pivot): for
every neighbor `w` of `v` except `u`, move the labels of `{v,w}` strictly
inside the time range of `{u,v}` onto `{w,u}`.  Returns the new graph and
the count of labels moved. -/
def transfer_labels_through_edge (g : TemporalGraph) (u v : Nat) :
    TemporalGraph × Nat :=
  match g.get_edge_time_range u v with
  | none => (g, 0)
  | some (tmin, tmax) =>
    let neighbors_of_v := g.get_all_neighbors v
    neighbors_of_v.foldl
      (fun (acc : TemporalGraph × Nat) w =>
        if w = u then acc
        else
          let ts := acc.1.get_edge_timestamps_in_range v w tmin tmax
          if ts.isEmpty then acc
          else
            let g₁ := ts.foldl (fun h t => (h.remove_edge_timestamp v w t).1) acc.1
            let g₂ := ts.foldl (fun h t => h.add_edge w u t) g₁
            (g₂, acc.2 + ts.length))
      (g, 0)

/-- `has_incident_edge_in_range`: is there an edge other than `{u,v}`,
sharing a vertex with `{u,v}`, with a timestamp strictly in
`(tmin, tmax)`? -/
def has_incident_edge_in_range (g : TemporalGraph) (u v : Nat)
    (tmin tmax : Int) : Bool :=
  g.edges.any (fun p =>
    if (p.1.1 = u ∧ p.1.2 = v) ∨ (p.1.1 = v ∧ p.1.2 = u) then false
    else if p.1.1 = u ∨ p.1.1 = v ∨ p.1.2 = u ∨ p.1.2 = v then
      p.2.any (fun t => tmin < t ∧ t < tmax)
    else false)

/-- `find_wrappable_edge`: first edge with at least two labels whose
interior `(tmin, tmax)` contains a label of some incident edge. -/
def find_wrappable_edge (g : TemporalGraph) : Option (Nat × Nat) :=
  g.edges.findSome? (fun p =>
    if p.2.length < 2 then none
    else
      match listMinMax p.2 with
      | none => none
      | some (tmin, tmax) =>
        if tmax ≤ tmin then none
        else if g.has_incident_edge_in_range p.1.1 p.1.2 tmin tmax then
          some (p.1.1, p.1.2)
        else none)

/-- First minimum by timestamp (`Iterator::min_by_key`, which keeps the
first of several equally minimal elements). -/
def minByTime : List (Nat × Nat × Int) →
    Option (Nat × Nat × Int)
  | [] => none
  | c :: rest => some (rest.foldl (fun best x => if x.2.2 < best.2.2 then x else best) c)

/-- `find_min_incident_in_range`: all `(neighbor, common-vertex, t)` triples
of edges incident to `{u,v}` with `tmin < t < tmax`, reduced to the candidate
with minimal `t`. -/
def find_min_incident_in_range (g : TemporalGraph) (u v : Nat) :
    Option (Nat × Nat × Int) :=
  match lookupEdge g.edges (normalize_pair u v) with
  | none => none
  | some ts =>
    if ts.length < 2 then none
    else
      match listMinMax ts with
      | none => none
      | some (tmin, tmax) =>
        if tmax ≤ tmin then none
        else
          let candidates := g.edges.foldl
            (fun (acc : List (Nat × Nat × Int)) p =>
              if p.1 = normalize_pair u v then acc
              else
                match (if p.1.1 = u ∨ p.1.1 = v then some (p.1.1, p.1.2)
                       else if p.1.2 = u ∨ p.1.2 = v then some (p.1.2, p.1.1)
                       else none) with
                | none => acc
                | some (c, n) =>
                  acc ++ (p.2.filter (fun t => tmin < t ∧ t < tmax)).map
                    (fun t => (n, c, t)))
            []
          minByTime candidates

end TemporalGraph

/-- `struct MinimizationConfig` (the `verbose` flag only produces diagnostic
output and has no functional effect). -/
structure MinimizationConfig where
  max_iterations : Option Nat
  track_statistics : Bool
  verbose : Bool
  deriving DecidableEq, Repr

/-- `struct MinimizationStats`. -/
structure MinimizationStats where
  iterations : Nat
  transfers_attempted : Nat
  transfers_successful : Nat
  useless_labels_found : Nat
  states_visited : Nat
  deriving DecidableEq, Repr

/-- `enum TerminationReason`. -/
inductive TerminationReason where
  | CycleDetected
  | UselessLabelFound
  | MaxIterationsReached
  deriving DecidableEq, Repr

/-- `struct MinimizationResult`. -/
structure MinimizationResult where
  is_minimal : Bool
  stats : Option MinimizationStats
  termination_reason : TerminationReason
  deriving DecidableEq, Repr

/-- The mutable state of a `LabelMinimizer` during `run`. -/
structure RunState where
  graph : TemporalGraph
  stats : MinimizationStats
  seen_states : Finset GraphState

/-- `should_terminate_iterations`. -/
def should_terminate_iterations (cfg : MinimizationConfig)
    (stats : MinimizationStats) : Bool :=
  match cfg.max_iterations with
  | some max => decide (max ≤ stats.iterations)
  | none => false

/-- Package a result, attaching statistics only when tracking is on. -/
def mkResult (cfg : MinimizationConfig) (stats : MinimizationStats)
    (minimal : Bool) (reason : TerminationReason) : MinimizationResult :=
  ⟨minimal, if cfg.track_statistics then some stats else none, reason⟩

/-- The graph-mutation portion of one iteration of `LabelMinimizer::run`
(steps 4–8): determine the far endpoint, transfer, re-read `tmin` (the
`unwrap`, whose failure is modelled by `none`), wrap, and remove `tmin`.
Returns the mutated graph, the transfer count, and the result of
`remove_edge_timestamp`. -/
def iterMutation (g : TemporalGraph) (u v w x : Nat) :
    Option (TemporalGraph × Nat × Bool) :=
  let other := if x = u then v else u
  let tr := g.transfer_labels_through_edge x other
  match tr.1.get_edge_time_range u v with
  | none => none
  | some (tmin, _tmax) =>
    let g₂ := tr.1.add_edge w other tmin
    let rm := g₂.remove_edge_timestamp u v tmin
    some (rm.1, tr.2, rm.2)

/-- Outcome of one iteration of the `loop` in `LabelMinimizer::run`. -/
inductive IterOutcome where
  | terminal (r : MinimizationResult)
  | next (s : RunState)
  | panicked

/-- One iteration of the `loop` in `LabelMinimizer::run`. -/
def runIter (cfg : MinimizationConfig) (s : RunState) : IterOutcome :=
  let stats := { s.stats with iterations := s.stats.iterations + 1 }
  if should_terminate_iterations cfg stats then
    .terminal (mkResult cfg stats false .MaxIterationsReached)
  else
    match s.graph.find_wrappable_edge with
    | none => .terminal (mkResult cfg stats false .UselessLabelFound)
    | some (u, v) =>
      match s.graph.find_min_incident_in_range u v with
      | none => .terminal (mkResult cfg stats false .UselessLabelFound)
      | some (w, x, _t) =>
        match iterMutation s.graph u v w x with
        | none => .panicked
        | some (g₃, transferred, removed) =>
          let stats₂ :=
            if cfg.track_statistics then
              { stats with
                transfers_attempted := stats.transfers_attempted + 1
                transfers_successful :=
                  stats.transfers_successful + (if 0 < transferred then 1 else 0) }
            else stats
          if removed = false then
            .terminal (mkResult cfg stats₂ false .UselessLabelFound)
          else if g₃.to_state ∈ s.seen_states then
            .terminal (mkResult cfg stats₂ true .CycleDetected)
          else
            .next ⟨g₃,
              { stats₂ with states_visited := stats₂.states_visited + 1 },
              insert g₃.to_state s.seen_states⟩

/-- Result of `run`, with the fuel-exhaustion artifact of the embedding
(`fuelOut`) kept distinct from the code's own outcomes. -/
inductive RunOutcome where
  | done (r : MinimizationResult)
  | panicked
  | fuelOut
  deriving DecidableEq, Repr

/-- The `loop` of `LabelMinimizer::run`, driven by explicit fuel. -/
def runAux (cfg : MinimizationConfig) : Nat → RunState → RunOutcome
  | 0, _ => .fuelOut
  | fuel + 1, s =>
    match runIter cfg s with
    | .terminal r => .done r
    | .panicked => .panicked
    | .next s' => runAux cfg fuel s'

/-- The statistics value at the start of `run` (initial state recorded,
`states_visited = 1`). -/
def initStats : MinimizationStats := ⟨0, 0, 0, 0, 1⟩

/-- `LabelMinimizer::run`: record the initial canonical state, then loop. -/
def run (cfg : MinimizationConfig) (fuel : Nat) (g : TemporalGraph) : RunOutcome :=
  runAux cfg fuel ⟨g, initStats, {g.to_state}⟩

/-- Build a graph from a list of `add_edge` insertions (starting from
`TemporalGraph::new()`); used to express the specification scenarios. -/
def buildGraph (l : List (Nat × Nat × Int)) : TemporalGraph :=
  l.foldl (fun g e => g.add_edge e.1 e.2.1 e.2.2) TemporalGraph.new

example : (buildGraph [(0,1,5), (1,0,10)]).edge_times 0 1 = some [5, 10] := by decide

example : (buildGraph [(0,1,5)]).remove_edge_timestamp 0 1 5 =
    (⟨[0,1], []⟩, true) := by decide

-- Scenario 1: wrappable edge and min-incident search.
example : (buildGraph [(0,1,0), (0,1,10), (1,2,5)]).find_wrappable_edge = some (0, 1) := by
  decide

example : (buildGraph [(0,1,0), (0,1,10), (1,2,5)]).find_min_incident_in_range 0 1 =
    some (2, 1, 5) := by decide

-- Scenario 2: labels only at the boundaries — nothing is wrappable.
example : (buildGraph [(0,1,0), (0,1,10), (1,2,0), (0,3,10)]).find_wrappable_edge =
    none := by decide

-- Scenario 3: transfer through (1, 0).
example :
    ((buildGraph [(0,1,0), (0,1,20), (0,2,5), (0,3,10), (0,4,15)]).transfer_labels_through_edge
        1 0).2 = 3 := by decide

example :
    (((buildGraph [(0,1,0), (0,1,20), (0,2,5), (0,3,10), (0,4,15)]).transfer_labels_through_edge
        1 0).1).edge_times 2 1 = some [5] := by decide

example :
    (((buildGraph [(0,1,0), (0,1,20), (0,2,5), (0,3,10), (0,4,15)]).transfer_labels_through_edge
        1 0).1).edge_times 0 2 = none := by decide

-- The self-loop interaction behind claim C3.
example :
    (((buildGraph [(0,1,0), (0,1,10), (1,1,5)]).transfer_labels_through_edge
        0 1).1).edge_times 0 1 = some [0, 5, 10] := by decide

-- Scenario 4: iteration cap 0.
example : run ⟨some 0, false, false⟩ 5 (buildGraph [(0,1,0), (0,1,10), (1,2,5)]) =
    .done ⟨false, none, .MaxIterationsReached⟩ := by
  decide

/-! ## Basic lemmas about the ordered set-insertions -/

theorem insOrd_ne_nil {α : Type} [LinearOrder α] (x : α) (l : List α) :
    insOrd x l ≠ [] := by
  cases l with
  | nil => simp [insOrd]
  | cons y l =>
    simp only [insOrd]
    split
    · simp
    · split <;> simp

theorem mem_insOrd {α : Type} [LinearOrder α] (x : α) (l : List α) (a : α) :
    a ∈ insOrd x l ↔ a = x ∨ a ∈ l := by
  induction l with
  | nil => simp [insOrd]
  | cons y l ih =>
    simp only [insOrd]
    split
    · simp [or_comm, or_assoc, List.mem_cons]
    · rename_i hlt
      split
      · rename_i heq
        subst heq
        simp only [List.mem_cons]
        constructor
        · intro h; exact Or.inr h
        · rintro (h | h)
          · exact Or.inl h
          · exact h
      · simp only [List.mem_cons, ih]
        tauto

theorem insOrd_comm_of_lt {α : Type} [LinearOrder α] {x y : α} (h : x < y) :
    ∀ l : List α, insOrd x (insOrd y l) = insOrd y (insOrd x l) := by
  intro l
  induction l with
  | nil => simp [insOrd, h, lt_asymm h, h.ne, h.ne']
  | cons a l ih =>
    rcases lt_trichotomy y a with hya | hya | hya
    · simp [insOrd, hya, lt_trans h hya, h, lt_asymm h, h.ne, h.ne']
    · subst hya
      simp [insOrd, h, lt_asymm h, h.ne, h.ne', lt_irrefl]
    · rcases lt_trichotomy x a with hxa | hxa | hxa
      · simp [insOrd, hxa, hya, lt_asymm hya, hya.ne', h, lt_asymm h, h.ne, h.ne']
      · subst hxa
        simp [insOrd, hya, lt_asymm hya, hya.ne', lt_irrefl]
      · simp [insOrd, lt_asymm hxa, hxa.ne', lt_asymm hya, hya.ne', hxa, hya, ih]

theorem insOrd_comm {α : Type} [LinearOrder α] (x y : α) (l : List α) :
    insOrd x (insOrd y l) = insOrd y (insOrd x l) := by
  rcases lt_trichotomy x y with h | h | h
  · exact insOrd_comm_of_lt h l
  · subst h; rfl
  · exact (insOrd_comm_of_lt h l).symm

/-! ## Basic lemmas about the key order -/

theorem keyLt_irrefl (a : Nat × Nat) : ¬ keyLt a a := by
  simp [keyLt]

theorem keyLt_asymm {a b : Nat × Nat} (h : keyLt a b) : ¬ keyLt b a := by
  obtain ⟨a1, a2⟩ := a
  obtain ⟨b1, b2⟩ := b
  simp only [keyLt] at *
  omega

theorem keyLt_trans {a b c : Nat × Nat} (h₁ : keyLt a b) (h₂ : keyLt b c) : keyLt a c := by
  obtain ⟨a1, a2⟩ := a
  obtain ⟨b1, b2⟩ := b
  obtain ⟨c1, c2⟩ := c
  simp only [keyLt] at *
  omega

theorem keyLt_ne {a b : Nat × Nat} (h : keyLt a b) : a ≠ b := by
  rintro rfl
  exact keyLt_irrefl a h

theorem insOrd_pair {α : Type} [LinearOrder α] (t t' : α) :
    insOrd t [t'] = insOrd t' [t] := by
  simpa [insOrd] using insOrd_comm t t' []

theorem keyLt_ne' {a b : Nat × Nat} (h : keyLt a b) : b ≠ a := (keyLt_ne h).symm

theorem keyLt_trichotomy (a b : Nat × Nat) : keyLt a b ∨ a = b ∨ keyLt b a := by
  obtain ⟨a1, a2⟩ := a
  obtain ⟨b1, b2⟩ := b
  simp only [keyLt, Prod.mk.injEq]
  omega

/-! ## Commutation of edge-time insertions -/

theorem insertEdgeTime_comm_of_lt {k k' : (Nat × Nat)} (t t' : Int)
    (h : keyLt k k') :
    ∀ es, insertEdgeTime k t (insertEdgeTime k' t' es) =
      insertEdgeTime k' t' (insertEdgeTime k t es) := by
  intro es
  induction es with
  | nil => simp [insertEdgeTime, h, keyLt_asymm h, keyLt_ne h, keyLt_ne' h]
  | cons p es ih =>
    obtain ⟨a, ts⟩ := p
    rcases keyLt_trichotomy k' a with hka | hka | hka
    · simp [insertEdgeTime, hka, keyLt_trans h hka, h, keyLt_asymm h, keyLt_ne h,
        keyLt_ne' h]
    · subst hka
      simp [insertEdgeTime, h, keyLt_asymm h, keyLt_ne h, keyLt_ne' h, keyLt_irrefl]
    · rcases keyLt_trichotomy k a with hk | hk | hk
      · simp [insertEdgeTime, hk, hka, keyLt_asymm hka, keyLt_ne' hka, h,
          keyLt_asymm h, keyLt_ne h, keyLt_ne' h]
      · subst hk
        simp [insertEdgeTime, hka, keyLt_asymm hka, keyLt_ne' hka, keyLt_irrefl]
      · simp [insertEdgeTime, keyLt_asymm hk, keyLt_ne' hk, keyLt_asymm hka,
          keyLt_ne' hka, hk, hka, ih]

theorem insertEdgeTime_comm_self (k : (Nat × Nat)) (t t' : Int) :
    ∀ es, insertEdgeTime k t (insertEdgeTime k t' es) =
      insertEdgeTime k t' (insertEdgeTime k t es) := by
  intro es
  induction es with
  | nil => simp [insertEdgeTime, keyLt_irrefl, insOrd_pair]
  | cons p es ih =>
    obtain ⟨a, ts⟩ := p
    rcases keyLt_trichotomy k a with hk | hk | hk
    · simp [insertEdgeTime, hk, keyLt_irrefl, insOrd_pair]
    · subst hk
      simp [insertEdgeTime, keyLt_irrefl, insOrd_comm]
    · simp [insertEdgeTime, keyLt_asymm hk, keyLt_ne' hk, hk, ih]

theorem insertEdgeTime_comm (k k' : (Nat × Nat)) (t t' : Int) (es : List ((Nat × Nat) × List Int)) :
    insertEdgeTime k t (insertEdgeTime k' t' es) =
      insertEdgeTime k' t' (insertEdgeTime k t es) := by
  rcases keyLt_trichotomy k k' with h | h | h
  · exact insertEdgeTime_comm_of_lt t t' h es
  · subst h
    exact insertEdgeTime_comm_self k t t' es
  · exact (insertEdgeTime_comm_of_lt t' t h es).symm


/-! ## Claim C5: canonicalization invariance -/

/-- The effect of `add_edge` expressed on the normalized `(key, time)` pair. -/
def stepNorm (g : TemporalGraph) (e : (Nat × Nat) × Int) : TemporalGraph :=
  ⟨insOrd e.1.2 (insOrd e.1.1 g.vertices), insertEdgeTime e.1 e.2 g.edges⟩

/-- The normalized form of one `add_edge` insertion. -/
def normTriple (e : Nat × Nat × Int) : (Nat × Nat) × Int :=
  (normalize_pair e.1 e.2.1, e.2.2)

theorem add_edge_eq_stepNorm (g : TemporalGraph) (u v : Nat) (t : Int) :
    g.add_edge u v t = stepNorm g (normTriple (u, v, t)) := by
  unfold TemporalGraph.add_edge TemporalGraph.add_vertex stepNorm normTriple normalize_pair
  by_cases h : u ≤ v
  · simp [h]
  · simp [h, insOrd_comm]

theorem stepNorm_comm (g : TemporalGraph) (e₁ e₂ : (Nat × Nat) × Int) :
    stepNorm (stepNorm g e₁) e₂ = stepNorm (stepNorm g e₂) e₁ := by
  unfold stepNorm
  refine congrArg₂ TemporalGraph.mk ?_ ?_
  · dsimp only
    rw [insOrd_comm e₁.1.1 e₂.1.2, insOrd_comm e₁.1.1 e₂.1.1,
      insOrd_comm e₁.1.2 e₂.1.2]
    rw [insOrd_comm e₁.1.2 e₂.1.1]
  · exact insertEdgeTime_comm _ _ _ _ _

theorem buildGraph_eq_foldl_stepNorm (l : List (Nat × Nat × Int)) :
    buildGraph l = (l.map normTriple).foldl stepNorm TemporalGraph.new := by
  rw [List.foldl_map]
  unfold buildGraph
  congr 1
  funext g e
  exact add_edge_eq_stepNorm g e.1 e.2.1 e.2.2

/-- C5: for all graphs built by any two permutations of the same multiset of
(u,v,t) `add_edge` insertions — where swapping the endpoint order of an
insertion keeps the multiset the same, expressed by comparing the lists of
normalized insertions up to permutation — `to_state` gives identical
results. -/
theorem to_state_perm_invariant (l₁ l₂ : List (Nat × Nat × Int))
    (h : (l₁.map normTriple).Perm (l₂.map normTriple)) :
    (buildGraph l₁).to_state = (buildGraph l₂).to_state := by
  have hg : buildGraph l₁ = buildGraph l₂ := by
    rw [buildGraph_eq_foldl_stepNorm, buildGraph_eq_foldl_stepNorm]
    exact h.foldl_eq' (fun x _ y _ z => stepNorm_comm z x y) TemporalGraph.new
  rw [hg]

/-- Witness for C5 at a concrete pair of insertion sequences (reversed order
and swapped endpoints). -/
theorem to_state_perm_invariant_witness :
    (buildGraph [(0, 1, 5), (2, 0, 7), (0, 1, 3)]).to_state =
      (buildGraph [(1, 0, 3), (0, 2, 7), (0, 1, 5)]).to_state :=
  to_state_perm_invariant _ _ (by decide)

/-! ## Well-formedness: the representation invariant of reachable graphs -/

/-- Keys strictly sorted (hence no duplicate keys). -/
def SKeys (es : List ((Nat × Nat) × List Int)) : Prop :=
  es.Pairwise (fun a b => keyLt a.1 b.1)

/-- Well-formedness of the edge map: sorted distinct normalized keys, and
strictly sorted (duplicate-free) nonempty timestamp lists. -/
def WFedges (es : List ((Nat × Nat) × List Int)) : Prop :=
  SKeys es ∧ ∀ p ∈ es, p.1.1 ≤ p.1.2 ∧ p.2 ≠ [] ∧ p.2.Pairwise (fun a b : Int => a < b)

/-- Representation invariant of a graph reachable through the Rust API. -/
def TemporalGraph.WF (g : TemporalGraph) : Prop := WFedges g.edges

instance (es : List ((Nat × Nat) × List Int)) : Decidable (WFedges es) := by
  unfold WFedges SKeys; infer_instance

instance (g : TemporalGraph) : Decidable g.WF := by
  unfold TemporalGraph.WF; infer_instance

theorem normalize_pair_fst_le_snd (u v : Nat) :
    (normalize_pair u v).1 ≤ (normalize_pair u v).2 := by
  unfold normalize_pair
  by_cases h : u ≤ v
  · rw [if_pos h]; exact h
  · rw [if_neg h]; exact Nat.le_of_not_le h

theorem normalize_pair_symm (u v : Nat) :
    normalize_pair u v = normalize_pair v u := by
  unfold normalize_pair
  rcases Nat.le_total u v with h | h
  · by_cases h' : v ≤ u
    · have heq : u = v := Nat.le_antisymm h h'
      subst heq; rfl
    · rw [if_pos h, if_neg h']
  · by_cases h' : u ≤ v
    · have heq : u = v := Nat.le_antisymm h' h
      subst heq; rfl
    · rw [if_neg h', if_pos h]

theorem normalize_pair_eq_self {u v : Nat} (h : u ≤ v) :
    normalize_pair u v = (u, v) := by
  simp [normalize_pair, h]

/-! ## Lookup lemmas -/

theorem lookupEdge_eq_none_iff (es : List ((Nat × Nat) × List Int)) (k : (Nat × Nat)) :
    lookupEdge es k = none ↔ ∀ p ∈ es, p.1 ≠ k := by
  induction es with
  | nil => simp [lookupEdge]
  | cons p es ih =>
    obtain ⟨k', ts⟩ := p
    by_cases h : k = k'
    · subst h
      simp [lookupEdge]
    · simp only [lookupEdge, if_neg h, ih, List.mem_cons]
      constructor
      · rintro hall q (rfl | hq)
        · simpa using Ne.symm h
        · exact hall q hq
      · intro hall q hq
        exact hall q (Or.inr hq)

theorem lookupEdge_mem {es : List ((Nat × Nat) × List Int)} {k : (Nat × Nat)}
    {ts : List Int} (h : lookupEdge es k = some ts) : (k, ts) ∈ es := by
  induction es with
  | nil => simp [lookupEdge] at h
  | cons p es ih =>
    obtain ⟨k', ts'⟩ := p
    by_cases hk : k = k'
    · subst hk
      rw [lookupEdge, if_pos rfl] at h
      obtain rfl : ts' = ts := Option.some.inj h
      exact List.mem_cons_self _ _
    · rw [lookupEdge, if_neg hk] at h
      exact List.mem_cons_of_mem _ (ih h)

theorem lookupEdge_eq_some_of_mem {es : List ((Nat × Nat) × List Int)}
    (hs : SKeys es) {k : (Nat × Nat)} {ts : List Int} (h : (k, ts) ∈ es) :
    lookupEdge es k = some ts := by
  induction es with
  | nil => simp at h
  | cons p es ih =>
    obtain ⟨k', ts'⟩ := p
    rcases List.mem_cons.mp h with heq | hmem
    · obtain ⟨h1, h2⟩ := Prod.mk.injEq .. ▸ heq
      subst h1; subst h2
      rw [lookupEdge, if_pos rfl]
    · have hk : k ≠ k' := by
        intro hcontra
        subst hcontra
        have := (List.pairwise_cons.mp hs).1 _ hmem
        exact keyLt_irrefl k this
      rw [lookupEdge, if_neg hk]
      exact ih (List.pairwise_cons.mp hs).2 hmem

theorem lookupEdge_eq_none_of_forall_keyLt {es : List ((Nat × Nat) × List Int)}
    {k : (Nat × Nat)} (h : ∀ p ∈ es, keyLt k p.1) : lookupEdge es k = none :=
  (lookupEdge_eq_none_iff es k).mpr (fun p hp => (keyLt_ne (h p hp)).symm)

/-! ## Lemmas about `insertEdgeTime` -/

theorem lookupEdge_insertEdgeTime_ne {k k' : (Nat × Nat)} (t : Int)
    (hne : k' ≠ k) (es : List ((Nat × Nat) × List Int)) :
    lookupEdge (insertEdgeTime k t es) k' = lookupEdge es k' := by
  induction es with
  | nil => simp [insertEdgeTime, lookupEdge, hne]
  | cons p es ih =>
    obtain ⟨a, ts⟩ := p
    rw [insertEdgeTime]
    by_cases h1 : keyLt k a
    · rw [if_pos h1, lookupEdge, if_neg hne]
    · rw [if_neg h1]
      by_cases h2 : k = a
      · subst h2
        rw [if_pos rfl, lookupEdge, if_neg hne, lookupEdge, if_neg hne]
      · rw [if_neg h2]
        by_cases h3 : k' = a
        · subst h3
          rw [lookupEdge, if_pos rfl, lookupEdge, if_pos rfl]
        · rw [lookupEdge, if_neg h3, lookupEdge, if_neg h3, ih]

theorem lookupEdge_insertEdgeTime_self {es : List ((Nat × Nat) × List Int)}
    (hs : SKeys es) (k : (Nat × Nat)) (t : Int) :
    lookupEdge (insertEdgeTime k t es) k =
      some (insOrd t ((lookupEdge es k).getD [])) := by
  induction es with
  | nil => simp [insertEdgeTime, lookupEdge, insOrd]
  | cons p es ih =>
    obtain ⟨a, ts⟩ := p
    rw [insertEdgeTime]
    by_cases h1 : keyLt k a
    · rw [if_pos h1, lookupEdge, if_pos rfl]
      have hnone : lookupEdge ((a, ts) :: es) k = none := by
        apply lookupEdge_eq_none_of_forall_keyLt
        intro p hp
        rcases List.mem_cons.mp hp with rfl | hmem
        · exact h1
        · exact keyLt_trans h1 ((List.pairwise_cons.mp hs).1 p hmem)
      rw [hnone]
      rfl
    · rw [if_neg h1]
      by_cases h2 : k = a
      · subst h2
        rw [if_pos rfl, lookupEdge, if_pos rfl, lookupEdge, if_pos rfl]
        rfl
      · rw [if_neg h2, lookupEdge, if_neg h2, lookupEdge, if_neg h2]
        exact ih (List.pairwise_cons.mp hs).2

theorem mem_insertEdgeTime {k : (Nat × Nat)} {t : Int}
    {es : List ((Nat × Nat) × List Int)} {q : (Nat × Nat) × List Int}
    (h : q ∈ insertEdgeTime k t es) :
    (∃ ts₀, (ts₀ = [] ∨ (k, ts₀) ∈ es) ∧ q = (k, insOrd t ts₀)) ∨ q ∈ es := by
  induction es with
  | nil =>
    simp only [insertEdgeTime, List.mem_singleton] at h
    exact Or.inl ⟨[], Or.inl rfl, h⟩
  | cons p es ih =>
    obtain ⟨a, ts⟩ := p
    rw [insertEdgeTime] at h
    by_cases h1 : keyLt k a
    · rw [if_pos h1] at h
      rcases List.mem_cons.mp h with rfl | hmem
      · exact Or.inl ⟨[], Or.inl rfl, rfl⟩
      · exact Or.inr hmem
    · rw [if_neg h1] at h
      by_cases h2 : k = a
      · subst h2
        rw [if_pos rfl] at h
        rcases List.mem_cons.mp h with rfl | hmem
        · exact Or.inl ⟨ts, Or.inr (List.mem_cons_self _ _), rfl⟩
        · exact Or.inr (List.mem_cons_of_mem _ hmem)
      · rw [if_neg h2] at h
        rcases List.mem_cons.mp h with rfl | hmem
        · exact Or.inr (List.mem_cons_self _ _)
        · rcases ih hmem with ⟨ts₀, hts₀, rfl⟩ | hq
          · exact Or.inl ⟨ts₀, by
              rcases hts₀ with hnil | hm
              · exact Or.inl hnil
              · exact Or.inr (List.mem_cons_of_mem _ hm), rfl⟩
          · exact Or.inr (List.mem_cons_of_mem _ hq)

theorem SKeys_insertEdgeTime {es : List ((Nat × Nat) × List Int)}
    (hs : SKeys es) (k : (Nat × Nat)) (t : Int) :
    SKeys (insertEdgeTime k t es) := by
  induction es with
  | nil => simp [insertEdgeTime, SKeys]
  | cons p es ih =>
    obtain ⟨a, ts⟩ := p
    rw [insertEdgeTime]
    obtain ⟨hhead, htail⟩ := List.pairwise_cons.mp hs
    by_cases h1 : keyLt k a
    · rw [if_pos h1]
      refine List.pairwise_cons.mpr ⟨?_, hs⟩
      intro p hp
      rcases List.mem_cons.mp hp with rfl | hmem
      · exact h1
      · exact keyLt_trans h1 (hhead p hmem)
    · rw [if_neg h1]
      by_cases h2 : k = a
      · subst h2
        rw [if_pos rfl]
        exact List.pairwise_cons.mpr ⟨hhead, htail⟩
      · rw [if_neg h2]
        refine List.pairwise_cons.mpr ⟨?_, ih htail⟩
        intro p hp
        rcases mem_insertEdgeTime hp with ⟨ts₀, _, rfl⟩ | hq
        · rcases keyLt_trichotomy a k with hlt | heq | hgt
          · exact hlt
          · exact absurd heq.symm h2
          · exact absurd hgt h1
        · exact hhead p hq

theorem pairwise_lt_insOrd {α : Type} [LinearOrder α] {l : List α}
    (hl : l.Pairwise (· < ·)) (x : α) : (insOrd x l).Pairwise (· < ·) := by
  induction l with
  | nil => simp [insOrd]
  | cons y l ih =>
    obtain ⟨hhead, htail⟩ := List.pairwise_cons.mp hl
    rw [insOrd]
    by_cases h1 : x < y
    · rw [if_pos h1]
      refine List.pairwise_cons.mpr ⟨?_, hl⟩
      intro a ha
      rcases List.mem_cons.mp ha with rfl | hmem
      · exact h1
      · exact lt_trans h1 (hhead a hmem)
    · rw [if_neg h1]
      by_cases h2 : x = y
      · rw [if_pos h2]
        exact hl
      · rw [if_neg h2]
        refine List.pairwise_cons.mpr ⟨?_, ih htail⟩
        intro a ha
        rcases (mem_insOrd x l a).mp ha with rfl | hmem
        · rcases lt_trichotomy y a with hlt | heq | hgt
          · exact hlt
          · exact absurd heq.symm h2
          · exact absurd hgt h1
        · exact hhead a hmem

theorem WFedges_insertEdgeTime {es : List ((Nat × Nat) × List Int)}
    (hw : WFedges es) {k : (Nat × Nat)} (hk : k.1 ≤ k.2) (t : Int) :
    WFedges (insertEdgeTime k t es) := by
  obtain ⟨hs, hv⟩ := hw
  refine ⟨SKeys_insertEdgeTime hs k t, ?_⟩
  intro p hp
  rcases mem_insertEdgeTime hp with ⟨ts₀, hts₀, rfl⟩ | hq
  · refine ⟨hk, insOrd_ne_nil t ts₀, ?_⟩
    rcases hts₀ with rfl | hm
    · simp [insOrd]
    · exact pairwise_lt_insOrd (hv _ hm).2.2 t
  · exact hv p hq

/-! ## Lemmas about `removeEdgeTime` -/

theorem removeEdgeTime_of_lookup_none {k : (Nat × Nat)} {es : List ((Nat × Nat) × List Int)}
    (h : lookupEdge es k = none) (t : Int) : removeEdgeTime k t es = (es, false) := by
  induction es with
  | nil => rfl
  | cons p es ih =>
    obtain ⟨a, ts⟩ := p
    rw [lookupEdge] at h
    by_cases hk : k = a
    · rw [if_pos hk] at h
      exact absurd h (by simp)
    · rw [if_neg hk] at h
      rw [removeEdgeTime, if_neg hk, ih h]

theorem snd_removeEdgeTime (k : (Nat × Nat)) (t : Int)
    (es : List ((Nat × Nat) × List Int)) :
    (removeEdgeTime k t es).2 = decide (t ∈ (lookupEdge es k).getD []) := by
  induction es with
  | nil => simp [removeEdgeTime, lookupEdge]
  | cons p es ih =>
    obtain ⟨a, ts⟩ := p
    rw [removeEdgeTime, lookupEdge]
    by_cases hk : k = a
    · rw [if_pos hk, if_pos hk]
      dsimp only
      split <;> rfl
    · rw [if_neg hk, if_neg hk]
      exact ih

theorem lookupEdge_removeEdgeTime_ne {k k' : (Nat × Nat)} (t : Int)
    (hne : k' ≠ k) (es : List ((Nat × Nat) × List Int)) :
    lookupEdge (removeEdgeTime k t es).1 k' = lookupEdge es k' := by
  induction es with
  | nil => rfl
  | cons p es ih =>
    obtain ⟨a, ts⟩ := p
    rw [removeEdgeTime]
    by_cases hk : k = a
    · subst hk
      rw [if_pos rfl]
      dsimp only
      split
      · rw [lookupEdge, if_neg hne]
      · rw [lookupEdge, if_neg hne, lookupEdge, if_neg hne]
    · rw [if_neg hk]
      by_cases h3 : k' = a
      · subst h3
        rw [lookupEdge, if_pos rfl, lookupEdge, if_pos rfl]
      · rw [lookupEdge, if_neg h3, lookupEdge, if_neg h3, ih]

theorem lookupEdge_removeEdgeTime_self {k : (Nat × Nat)} {es : List ((Nat × Nat) × List Int)}
    (hs : SKeys es) {ts : List Int} (h : lookupEdge es k = some ts) (t : Int) :
    lookupEdge (removeEdgeTime k t es).1 k =
      (if t ∈ ts ∧ ts.filter (fun s => s ≠ t) = [] then none
       else some (ts.filter (fun s => s ≠ t))) := by
  induction es with
  | nil => simp [lookupEdge] at h
  | cons p es ih =>
    obtain ⟨a, ts'⟩ := p
    rw [lookupEdge] at h
    rw [removeEdgeTime]
    by_cases hk : k = a
    · subst hk
      rw [if_pos rfl] at h
      have hts : ts = ts' := (Option.some.inj h).symm
      subst hts
      rw [if_pos rfl]
      dsimp only
      by_cases hc : (decide (t ∈ ts) && (ts.filter (fun s => s ≠ t)).isEmpty) = true
      · rw [if_pos hc]
        have hc' : t ∈ ts ∧ ts.filter (fun s => s ≠ t) = [] := by
          simpa [List.isEmpty_iff] using hc
        rw [if_pos hc']
        apply lookupEdge_eq_none_of_forall_keyLt
        intro p hp
        exact (List.pairwise_cons.mp hs).1 p hp
      · rw [if_neg hc]
        have hc' : ¬ (t ∈ ts ∧ ts.filter (fun s => s ≠ t) = []) := by
          intro hcontra
          exact hc (by rw [hcontra.2]; simp [hcontra.1])
        rw [if_neg hc', lookupEdge, if_pos rfl]
    · rw [if_neg hk] at h
      rw [if_neg hk]
      rw [lookupEdge, if_neg hk]
      exact ih (List.pairwise_cons.mp hs).2 h

theorem mem_removeEdgeTime {k : (Nat × Nat)} {t : Int}
    {es : List ((Nat × Nat) × List Int)} {q : (Nat × Nat) × List Int}
    (h : q ∈ (removeEdgeTime k t es).1) :
    (∃ ts₀, (k, ts₀) ∈ es ∧ q = (k, ts₀.filter (fun s => s ≠ t))) ∨ q ∈ es := by
  induction es with
  | nil => simp [removeEdgeTime] at h
  | cons p es ih =>
    obtain ⟨a, ts⟩ := p
    rw [removeEdgeTime] at h
    by_cases hk : k = a
    · subst hk
      rw [if_pos rfl] at h
      dsimp only at h
      by_cases hc : (decide (t ∈ ts) && (ts.filter (fun s => s ≠ t)).isEmpty) = true
      · rw [if_pos hc] at h
        exact Or.inr (List.mem_cons_of_mem _ h)
      · rw [if_neg hc] at h
        rcases List.mem_cons.mp h with rfl | hmem
        · exact Or.inl ⟨ts, List.mem_cons_self _ _, rfl⟩
        · exact Or.inr (List.mem_cons_of_mem _ hmem)
    · rw [if_neg hk] at h
      rcases List.mem_cons.mp h with rfl | hmem
      · exact Or.inr (List.mem_cons_self _ _)
      · rcases ih hmem with ⟨ts₀, hts₀, rfl⟩ | hq
        · exact Or.inl ⟨ts₀, List.mem_cons_of_mem _ hts₀, rfl⟩
        · exact Or.inr (List.mem_cons_of_mem _ hq)

theorem SKeys_removeEdgeTime {es : List ((Nat × Nat) × List Int)}
    (hs : SKeys es) (k : (Nat × Nat)) (t : Int) :
    SKeys (removeEdgeTime k t es).1 := by
  induction es with
  | nil => exact hs
  | cons p es ih =>
    obtain ⟨a, ts⟩ := p
    obtain ⟨hhead, htail⟩ := List.pairwise_cons.mp hs
    rw [removeEdgeTime]
    by_cases hk : k = a
    · subst hk
      rw [if_pos rfl]
      dsimp only
      split
      · exact htail
      · exact List.pairwise_cons.mpr ⟨hhead, htail⟩
    · rw [if_neg hk]
      refine List.pairwise_cons.mpr ⟨?_, ih htail⟩
      intro p hp
      rcases mem_removeEdgeTime hp with ⟨ts₀, hts₀, rfl⟩ | hq
      · exact hhead (k, ts₀) hts₀
      · exact hhead p hq

theorem filter_ne_of_not_mem {ts : List Int} {t : Int} (h : t ∉ ts) :
    ts.filter (fun s => s ≠ t) = ts := by
  rw [List.filter_eq_self]
  intro a ha
  have hne : a ≠ t := fun hc => h (hc ▸ ha)
  simpa using hne

theorem pairwise_lt_filter {ts : List Int} (h : ts.Pairwise (fun a b : Int => a < b))
    (p : Int → Bool) : (ts.filter p).Pairwise (fun a b : Int => a < b) :=
  h.filter p

theorem WFedges_removeEdgeTime {es : List ((Nat × Nat) × List Int)}
    (hw : WFedges es) (k : (Nat × Nat)) (t : Int) :
    WFedges (removeEdgeTime k t es).1 := by
  obtain ⟨hs, hv⟩ := hw
  refine ⟨SKeys_removeEdgeTime hs k t, ?_⟩
  induction es with
  | nil => intro p hp; simp [removeEdgeTime] at hp
  | cons q es ih =>
    obtain ⟨a, ts⟩ := q
    obtain ⟨hhead, htail⟩ := List.pairwise_cons.mp hs
    intro p hp
    rw [removeEdgeTime] at hp
    by_cases hk : k = a
    · subst hk
      rw [if_pos rfl] at hp
      dsimp only at hp
      by_cases hc : (decide (t ∈ ts) && (ts.filter (fun s => s ≠ t)).isEmpty) = true
      · rw [if_pos hc] at hp
        exact hv p (List.mem_cons_of_mem _ hp)
      · rw [if_neg hc] at hp
        rcases List.mem_cons.mp hp with rfl | hmem
        · obtain ⟨hle, hne, hpw⟩ := hv _ (List.mem_cons_self _ _)
          refine ⟨hle, ?_, pairwise_lt_filter hpw _⟩
          by_cases hm : t ∈ ts
          · intro hcontra
            exact hc (by rw [show List.filter (fun s => decide (s ≠ t)) ts = [] from hcontra]; simp [hm])
          · rw [filter_ne_of_not_mem hm]
            exact hne
        · exact hv p (List.mem_cons_of_mem _ hmem)
    · rw [if_neg hk] at hp
      rcases List.mem_cons.mp hp with rfl | hmem
      · exact hv _ (List.mem_cons_self _ _)
      · exact ih htail (fun q hq => hv q (List.mem_cons_of_mem _ hq)) p hmem

theorem length_removeEdgeTime_delete {k : (Nat × Nat)} {es : List ((Nat × Nat) × List Int)}
    {ts : List Int} (hs : SKeys es) (h : lookupEdge es k = some ts)
    {t : Int} (hm : t ∈ ts) (hemp : ts.filter (fun s => s ≠ t) = []) :
    (removeEdgeTime k t es).1.length + 1 = es.length := by
  induction es with
  | nil => simp [lookupEdge] at h
  | cons p es ih =>
    obtain ⟨a, ts'⟩ := p
    rw [lookupEdge] at h
    rw [removeEdgeTime]
    by_cases hk : k = a
    · subst hk
      rw [if_pos rfl] at h
      have hts : ts = ts' := (Option.some.inj h).symm
      subst hts
      rw [if_pos rfl]
      dsimp only
      rw [if_pos (by rw [hemp]; simp [hm])]
      simp
    · rw [if_neg hk] at h
      rw [if_neg hk]
      simpa using ih (List.pairwise_cons.mp hs).2 h

/-! ## Claim C6: `remove_edge_timestamp` and auto-cleanup -/

/-- C6: `remove_edge_timestamp(u,v,t)` returns `true` iff `t` was present in
the label set of edge `{u,v}`, and when `t` was the last remaining label the
edge record is deleted: `edge_count` decreases by exactly one and
`edge_times(u,v)` returns `none` afterwards. -/
theorem remove_edge_timestamp_spec :
    ∀ (g : TemporalGraph), g.WF → ∀ (u v : Nat) (t : Int),
      ((g.remove_edge_timestamp u v t).2 = true ↔
        ∃ ts, lookupEdge g.edges (normalize_pair u v) = some ts ∧ t ∈ ts) ∧
      (∀ ts, lookupEdge g.edges (normalize_pair u v) = some ts → t ∈ ts →
        (∀ s ∈ ts, s = t) →
        (g.remove_edge_timestamp u v t).1.edge_count + 1 = g.edge_count ∧
        (g.remove_edge_timestamp u v t).1.edge_times u v = none) := by
  intro g hw u v t
  constructor
  · show (removeEdgeTime (normalize_pair u v) t g.edges).2 = true ↔ _
    rw [snd_removeEdgeTime]
    cases hlk : lookupEdge g.edges (normalize_pair u v) with
    | none => simp
    | some ts =>
      simp only [Option.getD_some, decide_eq_true_eq]
      constructor
      · intro hm
        exact ⟨ts, rfl, hm⟩
      · rintro ⟨ts', hts', hm⟩
        obtain rfl : ts = ts' := Option.some.inj hts'
        exact hm
  · intro ts hlk hm hall
    have hemp : ts.filter (fun s => s ≠ t) = [] := by
      rw [List.filter_eq_nil_iff]
      intro a ha
      simpa using hall a ha
    constructor
    · exact length_removeEdgeTime_delete hw.1 hlk hm hemp
    · show (lookupEdge (removeEdgeTime (normalize_pair u v) t g.edges).1
        (normalize_pair u v)).map TemporalGraph.sortTimes = none
      rw [lookupEdge_removeEdgeTime_self hw.1 hlk t, if_pos ⟨hm, hemp⟩]
      rfl

/-- Witness for C6 on a one-edge, one-label graph. -/
theorem remove_edge_timestamp_spec_witness :
    ((buildGraph [(0,1,5)]).remove_edge_timestamp 0 1 5).1.edge_count + 1 =
      (buildGraph [(0,1,5)]).edge_count ∧
    ((buildGraph [(0,1,5)]).remove_edge_timestamp 0 1 5).1.edge_times 0 1 = none :=
  (remove_edge_timestamp_spec (buildGraph [(0,1,5)]) (by decide) 0 1 5).2 [5]
    (by decide) (by decide) (by decide)

/-! ## Minimum/maximum folds -/

theorem foldl_min_spec : ∀ (rest : List Int) (t : Int),
    (rest.foldl min t ∈ t :: rest) ∧ ∀ s ∈ t :: rest, rest.foldl min t ≤ s := by
  intro rest
  induction rest with
  | nil => intro t; simp
  | cons s rest ih =>
    intro t
    obtain ⟨ihmem, ihle⟩ := ih (min t s)
    constructor
    · rw [List.foldl_cons]
      rcases List.mem_cons.mp ihmem with heq | hmem
      · rcases min_choice t s with hc | hc
        · rw [heq, hc]
          exact List.mem_cons_self _ _
        · rw [heq, hc]
          exact List.mem_cons_of_mem _ (List.mem_cons_self _ _)
      · exact List.mem_cons_of_mem _ (List.mem_cons_of_mem _ hmem)
    · intro x hx
      rw [List.foldl_cons]
      rcases List.mem_cons.mp hx with h1 | hx'
      · exact le_of_le_of_eq (le_trans (ihle _ (List.mem_cons_self _ _)) (min_le_left t s))
          h1.symm
      · rcases List.mem_cons.mp hx' with h1 | hx'
        · exact le_of_le_of_eq (le_trans (ihle _ (List.mem_cons_self _ _)) (min_le_right t s))
            h1.symm
        · exact ihle x (List.mem_cons_of_mem _ hx')

theorem foldl_max_spec : ∀ (rest : List Int) (t : Int),
    (rest.foldl max t ∈ t :: rest) ∧ ∀ s ∈ t :: rest, s ≤ rest.foldl max t := by
  intro rest
  induction rest with
  | nil => intro t; simp
  | cons s rest ih =>
    intro t
    obtain ⟨ihmem, ihle⟩ := ih (max t s)
    constructor
    · rw [List.foldl_cons]
      rcases List.mem_cons.mp ihmem with heq | hmem
      · rcases max_choice t s with hc | hc
        · rw [heq, hc]
          exact List.mem_cons_self _ _
        · rw [heq, hc]
          exact List.mem_cons_of_mem _ (List.mem_cons_self _ _)
      · exact List.mem_cons_of_mem _ (List.mem_cons_of_mem _ hmem)
    · intro x hx
      rw [List.foldl_cons]
      rcases List.mem_cons.mp hx with h1 | hx'
      · exact le_of_eq_of_le h1 (le_trans (le_max_left t s) (ihle _ (List.mem_cons_self _ _)))
      · rcases List.mem_cons.mp hx' with h1 | hx'
        · exact le_of_eq_of_le h1
            (le_trans (le_max_right t s) (ihle _ (List.mem_cons_self _ _)))
        · exact ihle x (List.mem_cons_of_mem _ hx')

theorem listMinMax_spec {ts : List Int} {tmin tmax : Int}
    (h : TemporalGraph.listMinMax ts = some (tmin, tmax)) :
    tmin ∈ ts ∧ tmax ∈ ts ∧ ∀ s ∈ ts, tmin ≤ s ∧ s ≤ tmax := by
  cases ts with
  | nil => simp [TemporalGraph.listMinMax] at h
  | cons t rest =>
    rw [TemporalGraph.listMinMax] at h
    obtain ⟨h1, h2⟩ := Prod.mk.injEq .. ▸ Option.some.inj h
    subst h1; subst h2
    obtain ⟨hmmem, hmle⟩ := foldl_min_spec rest t
    obtain ⟨hxmem, hxle⟩ := foldl_max_spec rest t
    exact ⟨hmmem, hxmem, fun s hs => ⟨hmle s hs, hxle s hs⟩⟩

theorem listMinMax_eq_some {ts : List Int} (h : ts ≠ []) :
    ∃ tmin tmax, TemporalGraph.listMinMax ts = some (tmin, tmax) := by
  cases ts with
  | nil => exact absurd rfl h
  | cons t rest => exact ⟨_, _, rfl⟩

/-! ## Claim C1: `find_wrappable_edge` -/

/-- For normalized keys, the code's incident-and-not-self test is the same as
"a different edge sharing exactly one endpoint" from the specification. -/
theorem incident_iff_exactly_one {a b c d : Nat} (hab : a ≤ b) (hcd : c ≤ d) :
    (¬ ((c = a ∧ d = b) ∨ (c = b ∧ d = a)) ∧ (c = a ∨ c = b ∨ d = a ∨ d = b)) ↔
    ((c, d) ≠ (a, b) ∧ (({c, d} : Finset Nat) ∩ {a, b}).card = 1) := by
  have hskip : ((c = a ∧ d = b) ∨ (c = b ∧ d = a)) ↔ (c, d) = (a, b) := by
    constructor
    · intro h
      have : c = a ∧ d = b := by omega
      simp [Prod.ext_iff, this.1, this.2]
    · intro h
      obtain ⟨h1, h2⟩ := Prod.mk.injEq .. ▸ h
      exact Or.inl ⟨h1, h2⟩
  rw [hskip]
  constructor
  · rintro ⟨hne, hinc⟩
    refine ⟨hne, ?_⟩
    have hne' : ¬ (c = a ∧ d = b) := by
      intro hcontra
      exact hne (by simp [Prod.ext_iff, hcontra.1, hcontra.2])
    by_cases hc : c = a ∨ c = b
    · have hsing : ({c, d} : Finset Nat) ∩ {a, b} = {c} := by
        ext y
        simp only [Finset.mem_inter, Finset.mem_insert, Finset.mem_singleton]
        omega
      rw [hsing]
      exact Finset.card_singleton c
    · have hsing : ({c, d} : Finset Nat) ∩ {a, b} = {d} := by
        ext y
        simp only [Finset.mem_inter, Finset.mem_insert, Finset.mem_singleton]
        omega
      rw [hsing]
      exact Finset.card_singleton d
  · rintro ⟨hne, hcard⟩
    have hne' : ¬ (c = a ∧ d = b) := by
      intro hcontra
      exact hne (by simp [Prod.ext_iff, hcontra.1, hcontra.2])
    refine ⟨fun hcontra => hne hcontra, ?_⟩
    · have hpos : (({c, d} : Finset Nat) ∩ {a, b}).Nonempty := by
        rw [← Finset.card_pos, hcard]
        omega
      obtain ⟨y, hy⟩ := hpos
      simp only [Finset.mem_inter, Finset.mem_insert, Finset.mem_singleton] at hy
      omega

/-- The wrappable-edge property, written from the specification's words: the
edge has at least two distinct labels, `tmin`/`tmax` are its least and
greatest label with `tmin < tmax`, and some other edge sharing exactly one
endpoint with it carries a label strictly between them. -/
def wrappable_spec (g : TemporalGraph) (e : (Nat × Nat)) : Prop :=
  ∃ ts, (e, ts) ∈ g.edges ∧
    (∃ t₁ ∈ ts, ∃ t₂ ∈ ts, t₁ ≠ t₂) ∧
    ∃ tmin tmax,
      tmin ∈ ts ∧ tmax ∈ ts ∧ (∀ s ∈ ts, tmin ≤ s ∧ s ≤ tmax) ∧ tmin < tmax ∧
      ∃ p, p ∈ g.edges ∧ p.1 ≠ e ∧
        (({p.1.1, p.1.2} : Finset Nat) ∩ {e.1, e.2}).card = 1 ∧
        ∃ t ∈ p.2, tmin < t ∧ t < tmax

theorem two_le_length_of_two_mem {ts : List Int} {t₁ t₂ : Int}
    (h₁ : t₁ ∈ ts) (h₂ : t₂ ∈ ts) (hne : t₁ ≠ t₂) : 2 ≤ ts.length := by
  cases ts with
  | nil => simp at h₁
  | cons a rest =>
    cases rest with
    | nil =>
      simp only [List.mem_singleton] at h₁ h₂
      exact absurd (h₁.trans h₂.symm) hne
    | cons b rest' =>
      simp only [List.length_cons]
      omega

/-- Whenever `find_wrappable_edge` returns an edge, that edge satisfies the
specification's wrappable property. -/
theorem find_wrappable_edge_sound {g : TemporalGraph} (hw : g.WF)
    {u v : Nat} (h : g.find_wrappable_edge = some (u, v)) :
    wrappable_spec g (u, v) := by
  unfold TemporalGraph.find_wrappable_edge at h
  obtain ⟨p, hpmem, hpay⟩ := List.exists_of_findSome?_eq_some h
  by_cases h1 : p.2.length < 2
  · rw [if_pos h1] at hpay
    exact absurd hpay (by simp)
  rw [if_neg h1] at hpay
  cases hmm : TemporalGraph.listMinMax p.2 with
  | none => rw [hmm] at hpay; exact absurd hpay (by simp)
  | some pr =>
    obtain ⟨tmin, tmax⟩ := pr
    rw [hmm] at hpay
    dsimp only at hpay
    by_cases h2 : tmax ≤ tmin
    · rw [if_pos h2] at hpay
      exact absurd hpay (by simp)
    rw [if_neg h2] at hpay
    by_cases h3 : g.has_incident_edge_in_range p.1.1 p.1.2 tmin tmax = true
    · rw [if_pos h3] at hpay
      have hep : (u, v) = p.1 := (Option.some.inj hpay).symm
      obtain ⟨hminm, hmaxm, hbound⟩ := listMinMax_spec hmm
      -- unpack the incident-edge witness
      unfold TemporalGraph.has_incident_edge_in_range at h3
      rw [List.any_eq_true] at h3
      obtain ⟨q, hqmem, hq⟩ := h3
      by_cases hskip : (q.1.1 = p.1.1 ∧ q.1.2 = p.1.2) ∨ (q.1.1 = p.1.2 ∧ q.1.2 = p.1.1)
      · rw [if_pos hskip] at hq
        exact absurd hq (by simp)
      rw [if_neg hskip] at hq
      by_cases hinc : q.1.1 = p.1.1 ∨ q.1.1 = p.1.2 ∨ q.1.2 = p.1.1 ∨ q.1.2 = p.1.2
      · rw [if_pos hinc] at hq
        rw [List.any_eq_true] at hq
        obtain ⟨t, htmem, htr⟩ := hq
        rw [decide_eq_true_eq] at htr
        have hab : p.1.1 ≤ p.1.2 := (hw.2 p hpmem).1
        have hcd : q.1.1 ≤ q.1.2 := (hw.2 q hqmem).1
        have hinc' := (incident_iff_exactly_one hab hcd).mp ⟨hskip, by tauto⟩
        refine ⟨p.2, by rw [hep]; simpa using hpmem, ?_, tmin, tmax, hminm, hmaxm,
          hbound, lt_of_not_le h2, q, hqmem, ?_, ?_, t, htmem, htr.1, htr.2⟩
        · exact ⟨tmin, hminm, tmax, hmaxm, ne_of_lt (lt_of_not_le h2)⟩
        · rw [hep]
          intro hcontra
          exact hinc'.1 (by rw [← hcontra])
        · rw [hep]
          have : (q.1.1, q.1.2) ≠ (p.1.1, p.1.2) ∧
              (({q.1.1, q.1.2} : Finset Nat) ∩ {p.1.1, p.1.2}).card = 1 := hinc'
          exact this.2
      · rw [if_neg hinc] at hq
        exact absurd hq (by simp)
    · rw [if_neg (by simpa using h3)] at hpay
      exact absurd hpay (by simp)

/-- Whenever some edge satisfies the specification's wrappable property,
`find_wrappable_edge` finds an edge. -/
theorem find_wrappable_edge_complete {g : TemporalGraph} (hw : g.WF)
    {e : (Nat × Nat)} (hspec : wrappable_spec g e) :
    ∃ e', g.find_wrappable_edge = some e' := by
  cases hfind : g.find_wrappable_edge with
  | some e' => exact ⟨e', rfl⟩
  | none =>
    exfalso
    unfold TemporalGraph.find_wrappable_edge at hfind
    rw [List.findSome?_eq_none_iff] at hfind
    obtain ⟨ts, htsmem, ⟨t₁, ht₁, t₂, ht₂, hne12⟩, tmin, tmax, hminm, hmaxm, hbound,
      hltmm, q, hqmem, hqne, hqcard, t, htmem, htlo, hthi⟩ := hspec
    have hpay := hfind (e, ts) htsmem
    dsimp only at hpay
    rw [if_neg (by
      have := two_le_length_of_two_mem ht₁ ht₂ hne12
      omega)] at hpay
    obtain ⟨m, M, hmM⟩ := @listMinMax_eq_some ts
      (by intro hcontra; rw [hcontra] at ht₁; simp at ht₁)
    obtain ⟨hmmem, hMmem, hbound'⟩ := listMinMax_spec hmM
    have hm : m = tmin := le_antisymm ((hbound' tmin hminm).1.trans (le_refl tmin))
      ((hbound m hmmem).1)
    have hM : M = tmax := le_antisymm ((hbound M hMmem).2)
      ((hbound' tmax hmaxm).2)
    subst hm; subst hM
    rw [hmM] at hpay
    dsimp only at hpay
    rw [if_neg (not_le_of_lt hltmm)] at hpay
    have hab : e.1 ≤ e.2 := (hw.2 (e, ts) htsmem).1
    have hcd : q.1.1 ≤ q.1.2 := (hw.2 q hqmem).1
    have hcode := (incident_iff_exactly_one hab hcd).mpr
      ⟨by intro hc; exact hqne hc, hqcard⟩
    have hincb : g.has_incident_edge_in_range e.1 e.2 m M = true := by
      unfold TemporalGraph.has_incident_edge_in_range
      rw [List.any_eq_true]
      refine ⟨q, hqmem, ?_⟩
      rw [if_neg hcode.1, if_pos hcode.2, List.any_eq_true]
      exact ⟨t, htmem, by simpa using ⟨htlo, hthi⟩⟩
    rw [if_pos hincb] at hpay
    exact absurd hpay (by simp)

/-- C1: `find_wrappable_edge` returns some edge iff the graph contains an
edge with at least two distinct labels whose strict interior `(tmin, tmax)`
contains a label of some other edge sharing exactly one endpoint with it;
any returned edge satisfies that property; and on the boundary-label graph
`(0,1,0),(0,1,10),(1,2,0),(0,3,10)` it returns none. -/
theorem find_wrappable_edge_spec :
    (∀ g : TemporalGraph, g.WF →
      (((∃ e, g.find_wrappable_edge = some e) ↔ ∃ e, wrappable_spec g e) ∧
        ∀ u v : Nat, g.find_wrappable_edge = some (u, v) →
          wrappable_spec g (u, v))) ∧
    (buildGraph [(0,1,0), (0,1,10), (1,2,0), (0,3,10)]).find_wrappable_edge = none := by
  refine ⟨fun g hw => ⟨⟨?_, ?_⟩, fun u v h => find_wrappable_edge_sound hw h⟩, by decide⟩
  · rintro ⟨e, he⟩
    exact ⟨(e.1, e.2), find_wrappable_edge_sound hw he⟩
  · rintro ⟨e, he⟩
    exact find_wrappable_edge_complete hw he

/-- Witness for C1 on scenario 1: the edge found on
`(0,1,0),(0,1,10),(1,2,5)` satisfies the wrappable property. -/
theorem find_wrappable_edge_spec_witness :
    wrappable_spec (buildGraph [(0,1,0), (0,1,10), (1,2,5)]) (0, 1) :=
  (find_wrappable_edge_spec.1 (buildGraph [(0,1,0), (0,1,10), (1,2,5)])
    (by decide)).2 0 1 (by decide)

/-! ## Claim C7: `find_min_incident_in_range` -/

theorem foldl_minByTime_spec :
    ∀ (rest : List (Nat × Nat × Int)) (c : Nat × Nat × Int),
      (rest.foldl (fun best x => if x.2.2 < best.2.2 then x else best) c ∈ c :: rest) ∧
      ∀ x ∈ c :: rest,
        (rest.foldl (fun best x => if x.2.2 < best.2.2 then x else best) c).2.2 ≤ x.2.2 := by
  intro rest
  induction rest with
  | nil => intro c; simp
  | cons x rest ih =>
    intro c
    obtain ⟨ihmem, ihle⟩ := ih (if x.2.2 < c.2.2 then x else c)
    constructor
    · rw [List.foldl_cons]
      rcases List.mem_cons.mp ihmem with heq | hmem
      · rw [heq]
        split
        · exact List.mem_cons_of_mem _ (List.mem_cons_self _ _)
        · exact List.mem_cons_self _ _
      · exact List.mem_cons_of_mem _ (List.mem_cons_of_mem _ hmem)
    · intro y hy
      rw [List.foldl_cons]
      have hhead := ihle _ (List.mem_cons_self _ _)
      rcases List.mem_cons.mp hy with h1 | hy'
      · rw [h1]
        refine le_trans hhead ?_
        split
        · exact le_of_lt (by assumption)
        · exact le_refl _
      · rcases List.mem_cons.mp hy' with h1 | hy'
        · rw [h1]
          refine le_trans hhead ?_
          split
          · exact le_refl _
          · exact not_lt.mp (by assumption)
        · exact ihle y (List.mem_cons_of_mem _ hy')

theorem minByTime_eq_none_iff (l : List (Nat × Nat × Int)) :
    TemporalGraph.minByTime l = none ↔ l = [] := by
  cases l with
  | nil => simp [TemporalGraph.minByTime]
  | cons c rest => simp [TemporalGraph.minByTime]

theorem minByTime_eq_some {l : List (Nat × Nat × Int)}
    {c : Nat × Nat × Int} (h : TemporalGraph.minByTime l = some c) :
    c ∈ l ∧ ∀ x ∈ l, c.2.2 ≤ x.2.2 := by
  cases l with
  | nil => simp [TemporalGraph.minByTime] at h
  | cons a rest =>
    rw [TemporalGraph.minByTime] at h
    obtain ⟨hmem, hle⟩ := foldl_minByTime_spec rest a
    obtain rfl := Option.some.inj h
    exact ⟨hmem, hle⟩

/-- The candidate list collected by `find_min_incident_in_range`, as a
`flatMap` over the edge list. -/
def minIncidentCands (g : TemporalGraph) (u v : Nat) (tmin tmax : Int) :
    List (Nat × Nat × Int) :=
  g.edges.flatMap (fun p =>
    if p.1 = normalize_pair u v then []
    else
      match (if p.1.1 = u ∨ p.1.1 = v then some (p.1.1, p.1.2)
             else if p.1.2 = u ∨ p.1.2 = v then some (p.1.2, p.1.1)
             else none) with
      | none => []
      | some (c, n) =>
        (p.2.filter (fun t => tmin < t ∧ t < tmax)).map (fun t => (n, c, t)))

theorem foldl_append_eq_flatMap {α β : Type} (G : α → List β) :
    ∀ (l : List α) (init : List β),
      l.foldl (fun acc p => acc ++ G p) init = init ++ l.flatMap G := by
  intro l
  induction l with
  | nil => intro init; simp
  | cons a l ih =>
    intro init
    rw [List.foldl_cons, ih, List.flatMap_cons, List.append_assoc]

theorem find_min_incident_eq_minByTime {g : TemporalGraph} {u v : Nat}
    {ts : List Int} (hlk : lookupEdge g.edges (normalize_pair u v) = some ts)
    (hlen : 2 ≤ ts.length) {tmin tmax : Int}
    (hmm : TemporalGraph.listMinMax ts = some (tmin, tmax)) (hlt : tmin < tmax) :
    g.find_min_incident_in_range u v =
      TemporalGraph.minByTime (minIncidentCands g u v tmin tmax) := by
  unfold TemporalGraph.find_min_incident_in_range
  rw [hlk]
  dsimp only
  rw [if_neg (by omega), hmm]
  dsimp only
  rw [if_neg (not_le_of_lt hlt)]
  congr 1
  have hstep :
      (fun (acc : List (Nat × Nat × Int)) (p : (Nat × Nat) × List Int) =>
        if p.1 = normalize_pair u v then acc
        else
          match (if p.1.1 = u ∨ p.1.1 = v then some (p.1.1, p.1.2)
                 else if p.1.2 = u ∨ p.1.2 = v then some (p.1.2, p.1.1)
                 else none) with
          | none => acc
          | some (c, n) =>
            acc ++ (p.2.filter (fun t => tmin < t ∧ t < tmax)).map (fun t => (n, c, t))) =
      (fun acc p =>
        acc ++ (if p.1 = normalize_pair u v then []
          else
            match (if p.1.1 = u ∨ p.1.1 = v then some (p.1.1, p.1.2)
                   else if p.1.2 = u ∨ p.1.2 = v then some (p.1.2, p.1.1)
                   else none) with
            | none => []
            | some (c, n) =>
              (p.2.filter (fun t => tmin < t ∧ t < tmax)).map (fun t => (n, c, t)))) := by
    funext acc p
    by_cases h1 : p.1 = normalize_pair u v
    · rw [if_pos h1, if_pos h1, List.append_nil]
    · rw [if_neg h1, if_neg h1]
      by_cases h2 : p.1.1 = u ∨ p.1.1 = v
      · rw [if_pos h2]
      · rw [if_neg h2]
        by_cases h3 : p.1.2 = u ∨ p.1.2 = v
        · rw [if_pos h3]
        · rw [if_neg h3]
          simp
  rw [hstep, foldl_append_eq_flatMap]
  rfl

/-- A different normalized key with both endpoints in `{u,v}` must be a
self-loop. -/
theorem eq_of_both_endpoints {u v a b : Nat} (hab : a ≤ b)
    (hne : (a, b) ≠ normalize_pair u v) (ha : a = u ∨ a = v) (hb : b = u ∨ b = v) :
    a = b := by
  unfold normalize_pair at hne
  by_cases huv : u ≤ v
  · rw [if_pos huv] at hne
    have hne' : ¬(a = u ∧ b = v) := fun hc => hne (by simp [Prod.ext_iff, hc.1, hc.2])
    omega
  · rw [if_neg huv] at hne
    have hne' : ¬(a = v ∧ b = u) := fun hc => hne (by simp [Prod.ext_iff, hc.1, hc.2])
    omega

/-- An in-range incident candidate, written from the specification's words:
an edge other than `{u,v}`, with common vertex `x ∈ {u,v}` and neighbor `w`
its other endpoint, carrying a label `t` strictly inside `(tmin, tmax)`. -/
def incident_candidate (g : TemporalGraph) (u v : Nat) (tmin tmax : Int)
    (w x : Nat) (t : Int) : Prop :=
  ∃ p, p ∈ g.edges ∧ p.1 ≠ normalize_pair u v ∧
    ((x = p.1.1 ∧ w = p.1.2) ∨ (x = p.1.2 ∧ w = p.1.1)) ∧ (x = u ∨ x = v) ∧
    t ∈ p.2 ∧ tmin < t ∧ t < tmax

theorem mem_minIncidentCands_iff {g : TemporalGraph} (hw : g.WF)
    (u v : Nat) (tmin tmax : Int) (w x : Nat) (t : Int) :
    (w, x, t) ∈ minIncidentCands g u v tmin tmax ↔
      incident_candidate g u v tmin tmax w x t := by
  unfold minIncidentCands incident_candidate
  rw [List.mem_flatMap]
  constructor
  · rintro ⟨p, hpmem, hin⟩
    by_cases h1 : p.1 = normalize_pair u v
    · rw [if_pos h1] at hin
      simp at hin
    rw [if_neg h1] at hin
    by_cases h2 : p.1.1 = u ∨ p.1.1 = v
    · rw [if_pos h2] at hin
      dsimp only at hin
      rw [List.mem_map] at hin
      obtain ⟨t', ht', heq⟩ := hin
      obtain ⟨he1, he2, he3⟩ : p.1.2 = w ∧ p.1.1 = x ∧ t' = t := by
        simpa [Prod.ext_iff] using heq
      rw [List.mem_filter, decide_eq_true_eq] at ht'
      exact ⟨p, hpmem, h1, Or.inl ⟨he2.symm, he1.symm⟩,
        he2 ▸ h2, he3 ▸ ht'.1, he3 ▸ ht'.2.1, he3 ▸ ht'.2.2⟩
    rw [if_neg h2] at hin
    by_cases h3 : p.1.2 = u ∨ p.1.2 = v
    · rw [if_pos h3] at hin
      dsimp only at hin
      rw [List.mem_map] at hin
      obtain ⟨t', ht', heq⟩ := hin
      obtain ⟨he1, he2, he3⟩ : p.1.1 = w ∧ p.1.2 = x ∧ t' = t := by
        simpa [Prod.ext_iff] using heq
      rw [List.mem_filter, decide_eq_true_eq] at ht'
      exact ⟨p, hpmem, h1, Or.inr ⟨he2.symm, he1.symm⟩,
        he2 ▸ h3, he3 ▸ ht'.1, he3 ▸ ht'.2.1, he3 ▸ ht'.2.2⟩
    · rw [if_neg h3] at hin
      simp at hin
  · rintro ⟨p, hpmem, h1, hwx, hx, htm, htlo, hthi⟩
    refine ⟨p, hpmem, ?_⟩
    rw [if_neg h1]
    have hnorm : p.1.1 ≤ p.1.2 := (hw.2 p hpmem).1
    have hfilter : t ∈ p.2.filter (fun t => decide (tmin < t ∧ t < tmax)) := by
      rw [List.mem_filter, decide_eq_true_eq]
      exact ⟨htm, htlo, hthi⟩
    rcases hwx with ⟨rfl, rfl⟩ | ⟨rfl, rfl⟩
    · rw [if_pos hx]
      dsimp only
      rw [List.mem_map]
      exact ⟨t, hfilter, rfl⟩
    · by_cases h2 : p.1.1 = u ∨ p.1.1 = v
      · have hloop : p.1.1 = p.1.2 :=
          eq_of_both_endpoints hnorm (by
            intro hc
            exact h1 (by rw [← hc])) h2 hx
        rw [if_pos h2]
        dsimp only
        rw [List.mem_map]
        refine ⟨t, hfilter, ?_⟩
        rw [hloop]
      · rw [if_neg h2, if_pos hx]
        dsimp only
        rw [List.mem_map]
        exact ⟨t, hfilter, rfl⟩

theorem tmin_lt_tmax_of_sorted {ts : List Int}
    (hp : ts.Pairwise (fun a b : Int => a < b)) (hlen : 2 ≤ ts.length)
    {tmin tmax : Int} (hmm : TemporalGraph.listMinMax ts = some (tmin, tmax)) :
    tmin < tmax := by
  obtain ⟨hminm, hmaxm, hbound⟩ := listMinMax_spec hmm
  cases ts with
  | nil => simp at hlen
  | cons a rest =>
    cases rest with
    | nil => simp at hlen
    | cons b rest' =>
      have hab : a < b := (List.pairwise_cons.mp hp).1 b (List.mem_cons_self _ _)
      have h1 := (hbound a (List.mem_cons_self _ _)).1
      have h2 := (hbound b (List.mem_cons_of_mem _ (List.mem_cons_self _ _))).2
      omega

/-- C7: for an edge `{u,v}` present with at least two (distinct) labels with
range `(tmin, tmax)`, `find_min_incident_in_range` returns none exactly when
no in-range incident candidate exists, and otherwise returns a candidate
whose label is the least among all in-range incident candidates; on scenario
1 it returns `(neighbor 2, common 1, t 5)`. -/
theorem find_min_incident_in_range_spec :
    (∀ (g : TemporalGraph), g.WF → ∀ (u v : Nat) (ts : List Int),
      lookupEdge g.edges (normalize_pair u v) = some ts → 2 ≤ ts.length →
      ∀ tmin tmax, TemporalGraph.listMinMax ts = some (tmin, tmax) →
      ((g.find_min_incident_in_range u v = none ↔
          ¬ ∃ w x t, incident_candidate g u v tmin tmax w x t) ∧
        ∀ w x t, g.find_min_incident_in_range u v = some (w, x, t) →
          incident_candidate g u v tmin tmax w x t ∧
          ∀ w' x' t', incident_candidate g u v tmin tmax w' x' t' → t ≤ t')) ∧
    (buildGraph [(0,1,0), (0,1,10), (1,2,5)]).find_wrappable_edge = some (0, 1) ∧
    (buildGraph [(0,1,0), (0,1,10), (1,2,5)]).find_min_incident_in_range 0 1 =
      some (2, 1, 5) := by
  refine ⟨?_, by decide, by decide⟩
  intro g hw u v ts hlk hlen tmin tmax hmm
  have hpw : ts.Pairwise (fun a b : Int => a < b) := (hw.2 _ (lookupEdge_mem hlk)).2.2
  have hlt : tmin < tmax := tmin_lt_tmax_of_sorted hpw hlen hmm
  rw [find_min_incident_eq_minByTime hlk hlen hmm hlt]
  constructor
  · rw [minByTime_eq_none_iff, List.eq_nil_iff_forall_not_mem]
    constructor
    · rintro hnone ⟨w, x, t, hc⟩
      exact hnone (w, x, t) ((mem_minIncidentCands_iff hw u v tmin tmax w x t).mpr hc)
    · intro hnone c hc
      obtain ⟨w, x, t⟩ := c
      exact hnone ⟨w, x, t, (mem_minIncidentCands_iff hw u v tmin tmax w x t).mp hc⟩
  · intro w x t hsome
    obtain ⟨hmem, hle⟩ := minByTime_eq_some hsome
    refine ⟨(mem_minIncidentCands_iff hw u v tmin tmax w x t).mp hmem, ?_⟩
    intro w' x' t' hc'
    exact hle (w', x', t')
      ((mem_minIncidentCands_iff hw u v tmin tmax w' x' t').mpr hc')

/-- Witness for C7 on scenario 1. -/
theorem find_min_incident_in_range_spec_witness :
    incident_candidate (buildGraph [(0,1,0), (0,1,10), (1,2,5)]) 0 1 0 10 2 1 5 :=
  ((find_min_incident_in_range_spec.1 (buildGraph [(0,1,0), (0,1,10), (1,2,5)])
    (by decide) 0 1 [0, 10] (by decide) (by decide) 0 10 (by decide)).2 2 1 5
    (by decide)).1

/-! ## Claim C8: iteration cap -/

/-- C8: with a bounded cap, any iteration whose incremented counter has
reached the cap terminates with `MaxIterationsReached` and
`is_minimal = false`; in particular with `max_iterations = bounded 0` the
run returns immediately so, for any fuel, `run` on a non-empty graph yields
`MaxIterationsReached` with `is_minimal = false`. -/
theorem max_iterations_spec :
    (∀ (cfg : MinimizationConfig) (s : RunState) (m : Nat),
      cfg.max_iterations = some m → m ≤ s.stats.iterations + 1 →
      ∃ r, runIter cfg s = .terminal r ∧
        r.termination_reason = .MaxIterationsReached ∧ r.is_minimal = false) ∧
    (∀ (g : TemporalGraph) (cfg : MinimizationConfig) (fuel : Nat),
      cfg.max_iterations = some 0 → g.vertices ≠ [] →
      ∃ r, run cfg (fuel + 1) g = .done r ∧
        r.termination_reason = .MaxIterationsReached ∧ r.is_minimal = false) := by
  have hiter : ∀ (cfg : MinimizationConfig) (s : RunState) (m : Nat),
      cfg.max_iterations = some m → m ≤ s.stats.iterations + 1 →
      ∃ r, runIter cfg s = .terminal r ∧
        r.termination_reason = .MaxIterationsReached ∧ r.is_minimal = false := by
    intro cfg s m hm hle
    have hterm : should_terminate_iterations cfg
        { s.stats with iterations := s.stats.iterations + 1 } = true := by
      unfold should_terminate_iterations
      rw [hm]
      simpa using hle
    refine ⟨mkResult cfg { s.stats with iterations := s.stats.iterations + 1 }
      false .MaxIterationsReached, ?_, rfl, rfl⟩
    unfold runIter
    rw [if_pos hterm]
  refine ⟨hiter, ?_⟩
  intro g cfg fuel h0 _hne
  obtain ⟨r, hr, hreason, hmin⟩ :=
    hiter cfg ⟨g, initStats, {g.to_state}⟩ 0 h0 (by omega)
  refine ⟨r, ?_, hreason, hmin⟩
  unfold run runAux
  rw [hr]

/-- Witness for C8 at cap 0 on a one-edge graph. -/
theorem max_iterations_spec_witness :
    ∃ r, run ⟨some 0, false, false⟩ 3 (buildGraph [(0,1,5)]) = .done r ∧
      r.termination_reason = .MaxIterationsReached ∧ r.is_minimal = false :=
  max_iterations_spec.2 (buildGraph [(0,1,5)]) ⟨some 0, false, false⟩ 2 rfl (by decide)

/-! ## Neighbors and frame lemmas for the transfer operation -/

theorem normalize_pair_eq_iff {a b c d : Nat} :
    normalize_pair a b = normalize_pair c d ↔ ((a = c ∧ b = d) ∨ (a = d ∧ b = c)) := by
  unfold normalize_pair
  by_cases h1 : a ≤ b <;> by_cases h2 : c ≤ d
  · rw [if_pos h1, if_pos h2, Prod.ext_iff]; dsimp only; omega
  · rw [if_pos h1, if_neg h2, Prod.ext_iff]; dsimp only; omega
  · rw [if_neg h1, if_pos h2, Prod.ext_iff]; dsimp only; omega
  · rw [if_neg h1, if_neg h2, Prod.ext_iff]; dsimp only; omega

theorem mem_get_all_neighbors_foldl (x : Nat) :
    ∀ (es : List ((Nat × Nat) × List Int)) (acc : List Nat) (w : Nat),
      (w ∈ es.foldl (fun acc p =>
        if p.1.1 = x then insOrd p.1.2 acc
        else if p.1.2 = x then insOrd p.1.1 acc
        else acc) acc) ↔
      (w ∈ acc ∨ ∃ p ∈ es,
        (p.1.1 = x ∧ w = p.1.2) ∨ (p.1.1 ≠ x ∧ p.1.2 = x ∧ w = p.1.1)) := by
  intro es
  induction es with
  | nil => intro acc w; simp
  | cons p es ih =>
    intro acc w
    rw [List.foldl_cons]
    by_cases h1 : p.1.1 = x
    · rw [if_pos h1, ih, mem_insOrd]
      constructor
      · rintro ((h | h) | ⟨q, hq, hcase⟩)
        · exact Or.inr ⟨p, List.mem_cons_self _ _, Or.inl ⟨h1, h⟩⟩
        · exact Or.inl h
        · exact Or.inr ⟨q, List.mem_cons_of_mem _ hq, hcase⟩
      · rintro (h | ⟨q, hq, hcase⟩)
        · exact Or.inl (Or.inr h)
        · rcases List.mem_cons.mp hq with rfl | hq'
          · rcases hcase with ⟨_, hw⟩ | ⟨hne, _, _⟩
            · exact Or.inl (Or.inl hw)
            · exact absurd h1 hne
          · exact Or.inr ⟨q, hq', hcase⟩
    · rw [if_neg h1]
      by_cases h2 : p.1.2 = x
      · rw [if_pos h2, ih, mem_insOrd]
        constructor
        · rintro ((h | h) | ⟨q, hq, hcase⟩)
          · exact Or.inr ⟨p, List.mem_cons_self _ _, Or.inr ⟨h1, h2, h⟩⟩
          · exact Or.inl h
          · exact Or.inr ⟨q, List.mem_cons_of_mem _ hq, hcase⟩
        · rintro (h | ⟨q, hq, hcase⟩)
          · exact Or.inl (Or.inr h)
          · rcases List.mem_cons.mp hq with rfl | hq'
            · rcases hcase with ⟨ha, _⟩ | ⟨_, _, hw⟩
              · exact absurd ha h1
              · exact Or.inl (Or.inl hw)
            · exact Or.inr ⟨q, hq', hcase⟩
      · rw [if_neg h2, ih]
        constructor
        · rintro (h | ⟨q, hq, hcase⟩)
          · exact Or.inl h
          · exact Or.inr ⟨q, List.mem_cons_of_mem _ hq, hcase⟩
        · rintro (h | ⟨q, hq, hcase⟩)
          · exact Or.inl h
          · rcases List.mem_cons.mp hq with rfl | hq'
            · rcases hcase with ⟨ha, _⟩ | ⟨_, hb, _⟩
              · exact absurd ha h1
              · exact absurd hb h2
            · exact Or.inr ⟨q, hq', hcase⟩

theorem mem_get_all_neighbors_iff (g : TemporalGraph) (x w : Nat) :
    w ∈ g.get_all_neighbors x ↔
      ∃ p ∈ g.edges, (p.1.1 = x ∧ w = p.1.2) ∨ (p.1.1 ≠ x ∧ p.1.2 = x ∧ w = p.1.1) := by
  unfold TemporalGraph.get_all_neighbors
  rw [mem_get_all_neighbors_foldl]
  simp

theorem self_mem_get_all_neighbors_iff (g : TemporalGraph) (x : Nat) :
    x ∈ g.get_all_neighbors x ↔ ∃ ts, ((x, x), ts) ∈ g.edges := by
  rw [mem_get_all_neighbors_iff]
  constructor
  · rintro ⟨p, hp, ⟨h1, h2⟩ | ⟨h1, _, h3⟩⟩
    · refine ⟨p.2, ?_⟩
      have : p.1 = (x, x) := by
        obtain ⟨k, ts⟩ := p
        obtain ⟨k1, k2⟩ := k
        simp only [Prod.ext_iff]
        exact ⟨h1, h2.symm⟩
      rw [← this]
      exact hp
    · exact absurd h3.symm h1
  · rintro ⟨ts, hts⟩
    exact ⟨((x, x), ts), hts, Or.inl ⟨rfl, rfl⟩⟩

theorem lookup_remove_fold_ne (a b : Nat) {k : (Nat × Nat)}
    (h : k ≠ normalize_pair a b) :
    ∀ (l : List Int) (g : TemporalGraph),
      lookupEdge ((l.foldl (fun h' t => (h'.remove_edge_timestamp a b t).1) g).edges) k =
        lookupEdge g.edges k := by
  intro l
  induction l with
  | nil => intro g; rfl
  | cons t l ih =>
    intro g
    rw [List.foldl_cons, ih]
    exact lookupEdge_removeEdgeTime_ne t h g.edges

theorem lookup_add_fold_ne (a b : Nat) {k : (Nat × Nat)}
    (h : k ≠ normalize_pair a b) :
    ∀ (l : List Int) (g : TemporalGraph),
      lookupEdge ((l.foldl (fun h' t => h'.add_edge a b t) g).edges) k =
        lookupEdge g.edges k := by
  intro l
  induction l with
  | nil => intro g; rfl
  | cons t l ih =>
    intro g
    rw [List.foldl_cons, ih]
    exact lookupEdge_insertEdgeTime_ne t h g.edges

/-- A key that is neither a `{pivot,w}` source nor a `{w,anchor}` target of
any processed neighbor is untouched by the transfer fold. -/
theorem transfer_fold_frame (u v : Nat) {k : (Nat × Nat)} (tmin tmax : Int) :
    ∀ (ws : List Nat),
      (∀ w ∈ ws, w ≠ u → k ≠ normalize_pair v w ∧ k ≠ normalize_pair w u) →
      ∀ (start : TemporalGraph × Nat),
        lookupEdge ((ws.foldl (fun (acc : TemporalGraph × Nat) w =>
          if w = u then acc
          else
            let ts := acc.1.get_edge_timestamps_in_range v w tmin tmax
            if ts.isEmpty then acc
            else
              let g₁ := ts.foldl (fun h t => (h.remove_edge_timestamp v w t).1) acc.1
              let g₂ := ts.foldl (fun h t => h.add_edge w u t) g₁
              (g₂, acc.2 + ts.length)) start).1.edges) k =
        lookupEdge start.1.edges k := by
  intro ws
  induction ws with
  | nil => intro _ start; rfl
  | cons w ws ih =>
    intro hcond start
    rw [List.foldl_cons]
    by_cases hwu : w = u
    · rw [if_pos hwu]
      exact ih (fun w' hw' => hcond w' (List.mem_cons_of_mem _ hw')) start
    · rw [if_neg hwu]
      obtain ⟨hks, hkt⟩ := hcond w (List.mem_cons_self _ _) hwu
      dsimp only
      split
      · exact ih (fun w' hw' => hcond w' (List.mem_cons_of_mem _ hw')) start
      · rw [ih (fun w' hw' => hcond w' (List.mem_cons_of_mem _ hw'))]
        dsimp only
        rw [lookup_add_fold_ne w u hkt, lookup_remove_fold_ne v w hks]

/-! ## Claim C3: the transfer exclusion of the anchor–pivot edge -/

/-- Counterexample to C3 as stated: with a self-loop at the pivot carrying
an in-range label, `transfer_labels_through_edge(0, 1)` moves that label
onto edge `{0,1}` itself, changing its label set from `{0,10}` to
`{0,5,10}`. -/
theorem transfer_anchor_pivot_counterexample :
    (buildGraph [(0,1,0), (0,1,10), (1,1,5)]).edge_times 0 1 = some [0, 10] ∧
    ((buildGraph [(0,1,0), (0,1,10), (1,1,5)]).transfer_labels_through_edge
        0 1).1.edge_times 0 1 = some [0, 5, 10] ∧
    ¬ (((buildGraph [(0,1,0), (0,1,10), (1,1,5)]).transfer_labels_through_edge
        0 1).1.edge_times 0 1 =
      (buildGraph [(0,1,0), (0,1,10), (1,1,5)]).edge_times 0 1) := by
  refine ⟨by decide, by decide, by decide⟩

/-- C3 (amended): provided the graph has no self-loop at the pivot vertex,
`transfer_labels_through_edge(anchor, pivot)` leaves the stored label set of
edge `{anchor, pivot}` (and its existence) unchanged. -/
theorem transfer_preserves_anchor_pivot (g : TemporalGraph) (u v : Nat)
    (hloop : lookupEdge g.edges (v, v) = none) :
    lookupEdge (g.transfer_labels_through_edge u v).1.edges (normalize_pair u v) =
      lookupEdge g.edges (normalize_pair u v) ∧
    (g.transfer_labels_through_edge u v).1.edge_times u v = g.edge_times u v := by
  have hnoloop : ∀ ts, ((v, v), ts) ∉ g.edges := by
    intro ts hmem
    have := (lookupEdge_eq_none_iff g.edges (v, v)).mp hloop ((v, v), ts) hmem
    exact this rfl
  have hframe :
      lookupEdge (g.transfer_labels_through_edge u v).1.edges (normalize_pair u v) =
        lookupEdge g.edges (normalize_pair u v) := by
    unfold TemporalGraph.transfer_labels_through_edge
    cases hrange : g.get_edge_time_range u v with
    | none => rfl
    | some pr =>
      obtain ⟨tmin, tmax⟩ := pr
      dsimp only
      refine transfer_fold_frame u v tmin tmax (g.get_all_neighbors v) ?_ (g, 0)
      intro w hw hwu
      constructor
      · intro hcontra
        rw [normalize_pair_eq_iff] at hcontra
        omega
      · intro hcontra
        rw [normalize_pair_eq_iff] at hcontra
        have hwv : w = v := by omega
        subst hwv
        obtain ⟨ts, hts⟩ := (self_mem_get_all_neighbors_iff g w).mp hw
        exact hnoloop ts hts
  exact ⟨hframe, by unfold TemporalGraph.edge_times; rw [hframe]⟩

/-- Witness for the amended C3 on the scenario-3 graph (no self-loops). -/
theorem transfer_preserves_anchor_pivot_witness :
    ((buildGraph [(0,1,0), (0,1,20), (0,2,5)]).transfer_labels_through_edge
        1 0).1.edge_times 1 0 =
      (buildGraph [(0,1,0), (0,1,20), (0,2,5)]).edge_times 1 0 :=
  (transfer_preserves_anchor_pivot (buildGraph [(0,1,0), (0,1,20), (0,2,5)])
    1 0 (by decide)).2

/-! ## The effect of the per-neighbor removal and addition loops -/

theorem WFedges_remove_fold (a b : Nat) :
    ∀ (l : List Int) (g : TemporalGraph), WFedges g.edges →
      WFedges ((l.foldl (fun h t => (h.remove_edge_timestamp a b t).1) g).edges) := by
  intro l
  induction l with
  | nil => intro g hw; exact hw
  | cons t l ih =>
    intro g hw
    rw [List.foldl_cons]
    exact ih _ (WFedges_removeEdgeTime hw _ t)

theorem WFedges_add_fold (a b : Nat) :
    ∀ (l : List Int) (g : TemporalGraph), WFedges g.edges →
      WFedges ((l.foldl (fun h t => h.add_edge a b t) g).edges) := by
  intro l
  induction l with
  | nil => intro g hw; exact hw
  | cons t l ih =>
    intro g hw
    rw [List.foldl_cons]
    exact ih _ (WFedges_insertEdgeTime hw (normalize_pair_fst_le_snd a b) t)

/-- Iterated removal of a duplicate-free sublist of the stored labels:
what remains is exactly the labels outside the removed list, with the edge
record deleted when nothing remains. -/
theorem lookup_remove_fold_self (a b : Nat) :
    ∀ (l : List Int) (g : TemporalGraph), WFedges g.edges → l.Nodup →
      ∀ ts₀, lookupEdge g.edges (normalize_pair a b) = some ts₀ →
      (∀ t ∈ l, t ∈ ts₀) →
      lookupEdge ((l.foldl (fun h t => (h.remove_edge_timestamp a b t).1) g).edges)
          (normalize_pair a b) =
        (if ts₀.filter (fun t => t ∉ l) = [] then none
         else some (ts₀.filter (fun t => t ∉ l))) := by
  intro l
  induction l with
  | nil =>
    intro g hw _ ts₀ hlk _
    have hne : ts₀ ≠ [] := (hw.2 _ (lookupEdge_mem hlk)).2.1
    have hfilter : ts₀.filter (fun t => (t ∉ ([] : List Int) : Bool)) = ts₀ := by
      rw [List.filter_eq_self]
      intro t _
      simp
    rw [List.foldl_nil, hlk, hfilter, if_neg hne]
  | cons t₀ l ih =>
    intro g hw hnd ts₀ hlk hsub
    obtain ⟨hnd0, hndl⟩ := List.pairwise_cons.mp hnd
    rw [List.foldl_cons]
    have hrem : lookupEdge (g.remove_edge_timestamp a b t₀).1.edges (normalize_pair a b) =
        (if t₀ ∈ ts₀ ∧ ts₀.filter (fun s => s ≠ t₀) = [] then none
         else some (ts₀.filter (fun s => s ≠ t₀))) :=
      lookupEdge_removeEdgeTime_self hw.1 hlk t₀
    have hfcongr : ∀ (ts : List Int),
        ts.filter (fun t => (t ∉ (t₀ :: l) : Bool)) =
          (ts.filter (fun s => s ≠ t₀)).filter (fun t => (t ∉ l : Bool)) := by
      intro ts
      rw [List.filter_filter]
      apply List.filter_congr
      intro t _
      by_cases h1 : t = t₀ <;> by_cases h2 : t ∈ l <;> simp [h1, h2]
    by_cases hdel : ts₀.filter (fun s => s ≠ t₀) = []
    · -- the first removal empties the edge; the remaining removals are no-ops
      have hl : l = [] := by
        rw [List.eq_nil_iff_forall_not_mem]
        intro t ht
        have htts : t ∈ ts₀ := hsub t (List.mem_cons_of_mem _ ht)
        have htne : t ≠ t₀ := fun hc => (hnd0 t₀ (hc ▸ ht)) rfl
        have : t ∈ ts₀.filter (fun s => s ≠ t₀) := by
          rw [List.mem_filter]
          exact ⟨htts, by simpa using htne⟩
        rw [hdel] at this
        simp at this
      subst hl
      rw [List.foldl_nil, hrem, if_pos ⟨hsub t₀ (List.mem_cons_self _ _), hdel⟩,
        hfcongr, hdel]
      simp
    · have hlk₁ : lookupEdge (g.remove_edge_timestamp a b t₀).1.edges
          (normalize_pair a b) = some (ts₀.filter (fun s => s ≠ t₀)) := by
        rw [hrem, if_neg (fun hc => hdel hc.2)]
      have hw₁ : WFedges (g.remove_edge_timestamp a b t₀).1.edges :=
        WFedges_removeEdgeTime hw _ t₀
      have hsub₁ : ∀ t ∈ l, t ∈ ts₀.filter (fun s => s ≠ t₀) := by
        intro t ht
        rw [List.mem_filter]
        refine ⟨hsub t (List.mem_cons_of_mem _ ht), ?_⟩
        have : t ≠ t₀ := fun hc => (hnd0 t₀ (hc ▸ ht)) rfl
        simpa using this
      rw [ih _ hw₁ hndl _ hlk₁ hsub₁, hfcongr ts₀]

/-- Iterated insertion at one key: the final label set is the union, and an
existing record never disappears. -/
theorem lookup_add_fold_self (a b : Nat) :
    ∀ (l : List Int) (g : TemporalGraph), WFedges g.edges →
      ((∀ t', t' ∈ (lookupEdge ((l.foldl (fun h t => h.add_edge a b t) g).edges)
            (normalize_pair a b)).getD [] ↔
          t' ∈ (lookupEdge g.edges (normalize_pair a b)).getD [] ∨ t' ∈ l) ∧
        ((lookupEdge g.edges (normalize_pair a b)).isSome →
          (lookupEdge ((l.foldl (fun h t => h.add_edge a b t) g).edges)
            (normalize_pair a b)).isSome)) := by
  intro l
  induction l with
  | nil =>
    intro g _
    refine ⟨fun t' => ?_, fun h => h⟩
    simp
  | cons t₀ l ih =>
    intro g hw
    have hlk₁ : lookupEdge (g.add_edge a b t₀).edges (normalize_pair a b) =
        some (insOrd t₀ ((lookupEdge g.edges (normalize_pair a b)).getD [])) :=
      lookupEdge_insertEdgeTime_self hw.1 _ t₀
    have hw₁ : WFedges (g.add_edge a b t₀).edges :=
      WFedges_insertEdgeTime hw (normalize_pair_fst_le_snd a b) t₀
    obtain ⟨ihmem, ihsome⟩ := ih (g.add_edge a b t₀) hw₁
    constructor
    · intro t'
      rw [List.foldl_cons] at *
      rw [ihmem t', hlk₁]
      simp only [Option.getD_some, mem_insOrd]
      constructor
      · rintro ((h | h) | h)
        · exact Or.inr (by rw [h]; exact List.mem_cons_self _ _)
        · exact Or.inl h
        · exact Or.inr (List.mem_cons_of_mem _ h)
      · rintro (h | h)
        · exact Or.inl (Or.inr h)
        · rcases List.mem_cons.mp h with rfl | h'
          · exact Or.inl (Or.inl rfl)
          · exact Or.inr h'
    · intro _
      rw [List.foldl_cons]
      exact ihsome (by rw [hlk₁]; rfl)

theorem get_all_neighbors_pairwise (g : TemporalGraph) (x : Nat) :
    (g.get_all_neighbors x).Pairwise (· < ·) := by
  unfold TemporalGraph.get_all_neighbors
  have haux : ∀ (es : List ((Nat × Nat) × List Int)) (acc : List Nat),
      acc.Pairwise (· < ·) →
      (es.foldl (fun acc p =>
        if p.1.1 = x then insOrd p.1.2 acc
        else if p.1.2 = x then insOrd p.1.1 acc
        else acc) acc).Pairwise (· < ·) := by
    intro es
    induction es with
    | nil => intro acc h; exact h
    | cons p es ih =>
      intro acc h
      rw [List.foldl_cons]
      by_cases h1 : p.1.1 = x
      · rw [if_pos h1]
        exact ih _ (pairwise_lt_insOrd h _)
      · rw [if_neg h1]
        by_cases h2 : p.1.2 = x
        · rw [if_pos h2]
          exact ih _ (pairwise_lt_insOrd h _)
        · rw [if_neg h2]
          exact ih _ h
  exact haux g.edges [] (by simp)

theorem get_all_neighbors_nodup (g : TemporalGraph) (x : Nat) :
    (g.get_all_neighbors x).Nodup :=
  (get_all_neighbors_pairwise g x).imp (fun h => ne_of_lt h)

/-- Along the transfer fold, well-formedness is preserved, and any key that
is not a removal source only accumulates labels (membership and existence
are monotone). -/
theorem transfer_fold_mono (u v : Nat) (tmin tmax : Int) :
    ∀ (ws : List Nat) (start : TemporalGraph × Nat), WFedges start.1.edges →
      WFedges ((ws.foldl (fun (acc : TemporalGraph × Nat) w =>
          if w = u then acc
          else
            let ts := acc.1.get_edge_timestamps_in_range v w tmin tmax
            if ts.isEmpty then acc
            else
              let g₁ := ts.foldl (fun h t => (h.remove_edge_timestamp v w t).1) acc.1
              let g₂ := ts.foldl (fun h t => h.add_edge w u t) g₁
              (g₂, acc.2 + ts.length)) start).1.edges) ∧
      ∀ (k : Nat × Nat), (∀ w ∈ ws, w ≠ u → k ≠ normalize_pair v w) →
        (∀ t, t ∈ (lookupEdge start.1.edges k).getD [] →
          t ∈ (lookupEdge ((ws.foldl (fun (acc : TemporalGraph × Nat) w =>
            if w = u then acc
            else
              let ts := acc.1.get_edge_timestamps_in_range v w tmin tmax
              if ts.isEmpty then acc
              else
                let g₁ := ts.foldl (fun h t => (h.remove_edge_timestamp v w t).1) acc.1
                let g₂ := ts.foldl (fun h t => h.add_edge w u t) g₁
                (g₂, acc.2 + ts.length)) start).1.edges) k).getD []) ∧
        ((lookupEdge start.1.edges k).isSome →
          (lookupEdge ((ws.foldl (fun (acc : TemporalGraph × Nat) w =>
            if w = u then acc
            else
              let ts := acc.1.get_edge_timestamps_in_range v w tmin tmax
              if ts.isEmpty then acc
              else
                let g₁ := ts.foldl (fun h t => (h.remove_edge_timestamp v w t).1) acc.1
                let g₂ := ts.foldl (fun h t => h.add_edge w u t) g₁
                (g₂, acc.2 + ts.length)) start).1.edges) k).isSome) := by
  intro ws
  induction ws with
  | nil => intro start hw; exact ⟨hw, fun k _ => ⟨fun t h => h, fun h => h⟩⟩
  | cons w ws ih =>
    intro start hw
    rw [List.foldl_cons]
    by_cases hwu : w = u
    · rw [if_pos hwu]
      obtain ⟨ihwf, ihk⟩ := ih start hw
      exact ⟨ihwf, fun k hk =>
        ihk k (fun w' hw' => hk w' (List.mem_cons_of_mem _ hw'))⟩
    · rw [if_neg hwu]
      dsimp only
      by_cases hemp :
          (start.1.get_edge_timestamps_in_range v w tmin tmax).isEmpty = true
      · rw [if_pos hemp]
        obtain ⟨ihwf, ihk⟩ := ih start hw
        exact ⟨ihwf, fun k hk =>
          ihk k (fun w' hw' => hk w' (List.mem_cons_of_mem _ hw'))⟩
      · rw [if_neg hemp]
        set ts := start.1.get_edge_timestamps_in_range v w tmin tmax with hts
        set g₁ := ts.foldl (fun h t => (h.remove_edge_timestamp v w t).1) start.1
          with hg₁
        set g₂ := ts.foldl (fun h t => h.add_edge w u t) g₁ with hg₂
        have hw₁ : WFedges g₁.edges := WFedges_remove_fold v w ts start.1 hw
        have hw₂ : WFedges g₂.edges := WFedges_add_fold w u ts g₁ hw₁
        obtain ⟨ihwf, ihk⟩ := ih (g₂, start.2 + ts.length) hw₂
        refine ⟨ihwf, ?_⟩
        intro k hk
        have hksrc : k ≠ normalize_pair v w :=
          hk w (List.mem_cons_self _ _) hwu
        have hstep_mem : ∀ t, t ∈ (lookupEdge start.1.edges k).getD [] →
            t ∈ (lookupEdge g₂.edges k).getD [] := by
          intro t ht
          have h₁ : lookupEdge g₁.edges k = lookupEdge start.1.edges k :=
            lookup_remove_fold_ne v w hksrc ts start.1
          by_cases hktar : k = normalize_pair w u
          · subst hktar
            have := ((lookup_add_fold_self w u ts g₁ hw₁).1 t).mpr
              (Or.inl (by rw [h₁]; exact ht))
            exact this
          · have h₂ : lookupEdge g₂.edges k = lookupEdge g₁.edges k :=
              lookup_add_fold_ne w u hktar ts g₁
            rw [h₂, h₁]
            exact ht
        have hstep_some : (lookupEdge start.1.edges k).isSome →
            (lookupEdge g₂.edges k).isSome := by
          intro hs
          have h₁ : lookupEdge g₁.edges k = lookupEdge start.1.edges k :=
            lookup_remove_fold_ne v w hksrc ts start.1
          by_cases hktar : k = normalize_pair w u
          · subst hktar
            exact (lookup_add_fold_self w u ts g₁ hw₁).2 (by rw [h₁]; exact hs)
          · have h₂ : lookupEdge g₂.edges k = lookupEdge g₁.edges k :=
              lookup_add_fold_ne w u hktar ts g₁
            rw [h₂, h₁]
            exact hs
        obtain ⟨ihmem, ihsome⟩ :=
          ihk k (fun w' hw' => hk w' (List.mem_cons_of_mem _ hw'))
        exact ⟨fun t ht => ihmem t (hstep_mem t ht),
          fun hs => ihsome (hstep_some hs)⟩

/-! ## Claim C9: the run never panics -/

theorem transfer_WF (g : TemporalGraph) (hw : g.WF) (x other : Nat) :
    (g.transfer_labels_through_edge x other).1.WF := by
  unfold TemporalGraph.transfer_labels_through_edge
  cases hrange : g.get_edge_time_range x other with
  | none => exact hw
  | some pr =>
    obtain ⟨tmin, tmax⟩ := pr
    exact (transfer_fold_mono x other tmin tmax (g.get_all_neighbors other)
      (g, 0) hw).1

theorem transfer_mono_anchor_edge (g : TemporalGraph) (hw : g.WF) (x other : Nat) :
    (∀ t, t ∈ (lookupEdge g.edges (normalize_pair x other)).getD [] →
      t ∈ (lookupEdge (g.transfer_labels_through_edge x other).1.edges
        (normalize_pair x other)).getD []) ∧
    ((lookupEdge g.edges (normalize_pair x other)).isSome →
      (lookupEdge (g.transfer_labels_through_edge x other).1.edges
        (normalize_pair x other)).isSome) := by
  unfold TemporalGraph.transfer_labels_through_edge
  cases hrange : g.get_edge_time_range x other with
  | none => exact ⟨fun t h => h, fun h => h⟩
  | some pr =>
    obtain ⟨tmin, tmax⟩ := pr
    refine (transfer_fold_mono x other tmin tmax (g.get_all_neighbors other)
      (g, 0) hw).2 (normalize_pair x other) ?_
    intro w _ hwx hcontra
    rw [normalize_pair_eq_iff] at hcontra
    omega

theorem find_wrappable_edge_entry {g : TemporalGraph} (hw : g.WF) {u v : Nat}
    (h : g.find_wrappable_edge = some (u, v)) :
    u ≤ v ∧ ∃ ts, lookupEdge g.edges (u, v) = some ts ∧ 2 ≤ ts.length := by
  obtain ⟨ts, hmem, ⟨t₁, ht₁, t₂, ht₂, hne⟩, _⟩ := find_wrappable_edge_sound hw h
  exact ⟨(hw.2 _ hmem).1, ts, lookupEdge_eq_some_of_mem hw.1 hmem,
    two_le_length_of_two_mem ht₁ ht₂ hne⟩

theorem find_min_common_vertex {g : TemporalGraph} (hw : g.WF) {u v w x : Nat}
    {t : Int} (hfind : g.find_wrappable_edge = some (u, v))
    (hmin : g.find_min_incident_in_range u v = some (w, x, t)) :
    x = u ∨ x = v := by
  obtain ⟨huv, ts, hlk, hlen⟩ := find_wrappable_edge_entry hw hfind
  have hnorm : normalize_pair u v = (u, v) := normalize_pair_eq_self huv
  have hlk' : lookupEdge g.edges (normalize_pair u v) = some ts := by
    rw [hnorm]; exact hlk
  obtain ⟨tmin, tmax, hmm⟩ := @listMinMax_eq_some ts
    (by intro hc; rw [hc] at hlen; simp at hlen)
  have hpw : ts.Pairwise (fun a b : Int => a < b) := (hw.2 _ (lookupEdge_mem hlk')).2.2
  have hlt : tmin < tmax := tmin_lt_tmax_of_sorted hpw hlen hmm
  rw [find_min_incident_eq_minByTime hlk' hlen hmm hlt] at hmin
  obtain ⟨hmem, _⟩ := minByTime_eq_some hmin
  obtain ⟨_, _, _, _, hx, _⟩ :=
    (mem_minIncidentCands_iff hw u v tmin tmax w x t).mp hmem
  exact hx

theorem iterMutation_WF {g : TemporalGraph} (hw : g.WF) (u v w x : Nat)
    {g₃ : TemporalGraph} {n : Nat} {rm : Bool}
    (h : iterMutation g u v w x = some (g₃, n, rm)) : g₃.WF := by
  unfold iterMutation at h
  dsimp only at h
  cases hrange : ((g.transfer_labels_through_edge x (if x = u then v else u)).1.get_edge_time_range u v) with
  | none => rw [hrange] at h; simp at h
  | some pr =>
    obtain ⟨tmin, tmax⟩ := pr
    rw [hrange] at h
    dsimp only at h
    obtain ⟨h1, h2, h3⟩ :
        (((g.transfer_labels_through_edge x (if x = u then v else u)).1.add_edge
            w (if x = u then v else u) tmin).remove_edge_timestamp u v tmin).1 = g₃ ∧
          (g.transfer_labels_through_edge x (if x = u then v else u)).2 = n ∧
          (((g.transfer_labels_through_edge x (if x = u then v else u)).1.add_edge
            w (if x = u then v else u) tmin).remove_edge_timestamp u v tmin).2 = rm := by
      simpa [Prod.ext_iff] using Option.some.inj h
    have hwt : (g.transfer_labels_through_edge x (if x = u then v else u)).1.WF :=
      transfer_WF g hw x _
    have hwa : ((g.transfer_labels_through_edge x (if x = u then v else u)).1.add_edge
        w (if x = u then v else u) tmin).WF :=
      WFedges_insertEdgeTime hwt (normalize_pair_fst_le_snd _ _) tmin
    have : g₃ = (((g.transfer_labels_through_edge x (if x = u then v else u)).1.add_edge
        w (if x = u then v else u) tmin).remove_edge_timestamp u v tmin).1 := h1.symm
    rw [this]
    exact WFedges_removeEdgeTime hwa _ tmin

theorem iterMutation_safe {g : TemporalGraph} (hw : g.WF) {u v w x : Nat} {t : Int}
    (hfind : g.find_wrappable_edge = some (u, v))
    (hmin : g.find_min_incident_in_range u v = some (w, x, t)) :
    ∃ g₃ n, iterMutation g u v w x = some (g₃, n, true) := by
  obtain ⟨huv, ts, hlk, hlen⟩ := find_wrappable_edge_entry hw hfind
  have hnorm : normalize_pair u v = (u, v) := normalize_pair_eq_self huv
  have hx := find_min_common_vertex hw hfind hmin
  have hxo : normalize_pair x (if x = u then v else u) = normalize_pair u v := by
    by_cases hxu : x = u
    · rw [if_pos hxu, hxu]
    · rw [if_neg hxu]
      have hxv : x = v := by omega
      rw [hxv, normalize_pair_symm]
  set other := if x = u then v else u with hother
  set tr := g.transfer_labels_through_edge x other with htr
  have hmono := transfer_mono_anchor_edge g hw x other
  have hsome : (lookupEdge tr.1.edges (normalize_pair u v)).isSome := by
    rw [← hxo]
    exact hmono.2 (by rw [hxo, hnorm, hlk]; rfl)
  have hwt : tr.1.WF := transfer_WF g hw x other
  obtain ⟨ts₁, hts₁⟩ : ∃ ts₁, lookupEdge tr.1.edges (normalize_pair u v) = some ts₁ := by
    cases hc : lookupEdge tr.1.edges (normalize_pair u v) with
    | none => rw [hc] at hsome; simp at hsome
    | some ts₁ => exact ⟨ts₁, rfl⟩
  have hne₁ : ts₁ ≠ [] := (hwt.2 _ (lookupEdge_mem hts₁)).2.1
  obtain ⟨tmin₁, tmax₁, hmm₁⟩ := listMinMax_eq_some hne₁
  have hrange : tr.1.get_edge_time_range u v = some (tmin₁, tmax₁) := by
    unfold TemporalGraph.get_edge_time_range
    rw [hts₁]
    exact hmm₁
  have htmin₁ : tmin₁ ∈ ts₁ := (listMinMax_spec hmm₁).1
  set g₂ := tr.1.add_edge w other tmin₁ with hg₂
  have hmem₂ : tmin₁ ∈ (lookupEdge g₂.edges (normalize_pair u v)).getD [] := by
    by_cases hk : normalize_pair u v = normalize_pair w other
    · show tmin₁ ∈ (lookupEdge (insertEdgeTime (normalize_pair w other) tmin₁
        tr.1.edges) (normalize_pair u v)).getD []
      rw [hk, lookupEdge_insertEdgeTime_self hwt.1]
      simp only [Option.getD_some]
      rw [mem_insOrd]
      exact Or.inl rfl
    · show tmin₁ ∈ (lookupEdge (insertEdgeTime (normalize_pair w other) tmin₁
        tr.1.edges) (normalize_pair u v)).getD []
      rw [lookupEdge_insertEdgeTime_ne tmin₁ hk, hts₁]
      exact htmin₁
  have hrm : (g₂.remove_edge_timestamp u v tmin₁).2 = true := by
    show (removeEdgeTime (normalize_pair u v) tmin₁ g₂.edges).2 = true
    rw [snd_removeEdgeTime]
    simpa using hmem₂
  refine ⟨(g₂.remove_edge_timestamp u v tmin₁).1, tr.2, ?_⟩
  unfold iterMutation
  dsimp only
  rw [← hother, ← htr, hrange]
  dsimp only
  rw [← hg₂, hrm]

theorem runIter_panicked {cfg : MinimizationConfig} {s : RunState}
    (h : runIter cfg s = .panicked) :
    ∃ u v w x t, s.graph.find_wrappable_edge = some (u, v) ∧
      s.graph.find_min_incident_in_range u v = some (w, x, t) ∧
      iterMutation s.graph u v w x = none := by
  unfold runIter at h
  dsimp only at h
  by_cases hcap : should_terminate_iterations cfg
      { s.stats with iterations := s.stats.iterations + 1 } = true
  · rw [if_pos hcap] at h
    simp at h
  · rw [if_neg hcap] at h
    cases hfw : s.graph.find_wrappable_edge with
    | none => rw [hfw] at h; simp at h
    | some pr =>
      obtain ⟨u, v⟩ := pr
      rw [hfw] at h
      dsimp only at h
      cases hfm : s.graph.find_min_incident_in_range u v with
      | none => rw [hfm] at h; simp at h
      | some pr2 =>
        obtain ⟨w, x, t⟩ := pr2
        rw [hfm] at h
        dsimp only at h
        cases hmut : iterMutation s.graph u v w x with
        | none => exact ⟨u, v, w, x, t, rfl, hfm, hmut⟩
        | some trip =>
          obtain ⟨g₃, n, rm⟩ := trip
          rw [hmut] at h
          dsimp only at h
          split at h
          · simp at h
          · split at h
            · simp at h
            · simp at h

theorem runIter_next_WF {cfg : MinimizationConfig} {s s' : RunState}
    (h : runIter cfg s = .next s') (hw : s.graph.WF) : s'.graph.WF := by
  unfold runIter at h
  dsimp only at h
  by_cases hcap : should_terminate_iterations cfg
      { s.stats with iterations := s.stats.iterations + 1 } = true
  · rw [if_pos hcap] at h
    simp at h
  · rw [if_neg hcap] at h
    cases hfw : s.graph.find_wrappable_edge with
    | none => rw [hfw] at h; simp at h
    | some pr =>
      obtain ⟨u, v⟩ := pr
      rw [hfw] at h
      dsimp only at h
      cases hfm : s.graph.find_min_incident_in_range u v with
      | none => rw [hfm] at h; simp at h
      | some pr2 =>
        obtain ⟨w, x, t⟩ := pr2
        rw [hfm] at h
        dsimp only at h
        cases hmut : iterMutation s.graph u v w x with
        | none => rw [hmut] at h; simp at h
        | some trip =>
          obtain ⟨g₃, n, rm⟩ := trip
          rw [hmut] at h
          dsimp only at h
          split at h
          · simp at h
          · split at h
            · simp at h
            · have hg : s'.graph = g₃ := by
                have := IterOutcome.next.inj h
                rw [← this]
              rw [hg]
              exact iterMutation_WF hw u v w x hmut

theorem runAux_no_panic :
    ∀ (fuel : Nat) (cfg : MinimizationConfig) (s : RunState), s.graph.WF →
      runAux cfg fuel s ≠ .panicked := by
  intro fuel
  induction fuel with
  | zero => intro cfg s _; simp [runAux]
  | succ fuel ih =>
    intro cfg s hw
    rw [runAux]
    cases hiter : runIter cfg s with
    | terminal r => simp
    | panicked =>
      exfalso
      obtain ⟨u, v, w, x, t, hfw, hfm, hmut⟩ := runIter_panicked hiter
      obtain ⟨g₃, n, hsome⟩ := iterMutation_safe hw hfw hfm
      rw [hmut] at hsome
      simp at hsome
    | next s' => exact ih cfg s' (runIter_next_WF hiter hw)

/-- C9: for every well-formed input graph the run never panics — after the
transfer step the wrappable edge still exists with a non-empty label set, so
the re-read of its time range succeeds and the removal of `tmin` reports
success, making the defensive abort branch unreachable. -/
theorem run_never_panics :
    (∀ (cfg : MinimizationConfig) (fuel : Nat) (g : TemporalGraph), g.WF →
      run cfg fuel g ≠ .panicked) ∧
    (∀ (g : TemporalGraph), g.WF → ∀ (u v w x : Nat) (t : Int),
      g.find_wrappable_edge = some (u, v) →
      g.find_min_incident_in_range u v = some (w, x, t) →
      ∃ g₃ n, iterMutation g u v w x = some (g₃, n, true)) := by
  constructor
  · intro cfg fuel g hw
    exact runAux_no_panic fuel cfg ⟨g, initStats, {g.to_state}⟩ hw
  · intro g hw u v w x t hfw hfm
    exact iterMutation_safe hw hfw hfm

/-- Witness for C9 on scenario 1: the run completes without panicking and
the mutation step reports a successful removal. -/
theorem run_never_panics_witness :
    run ⟨some 5, false, false⟩ 7 (buildGraph [(0,1,0), (0,1,10), (1,2,5)]) ≠
      .panicked ∧
    ∃ g₃ n, iterMutation (buildGraph [(0,1,0), (0,1,10), (1,2,5)]) 0 1 2 1 =
      some (g₃, n, true) :=
  ⟨run_never_panics.1 ⟨some 5, false, false⟩ 7
      (buildGraph [(0,1,0), (0,1,10), (1,2,5)]) (by decide),
    run_never_panics.2 (buildGraph [(0,1,0), (0,1,10), (1,2,5)]) (by decide)
      0 1 2 1 5 (by decide) (by decide)⟩

/-! ## Claim C4: termination verdicts -/

theorem runIter_terminal_minimal {cfg : MinimizationConfig} {s : RunState}
    {r : MinimizationResult} (h : runIter cfg s = .terminal r) :
    r.is_minimal = true ↔ r.termination_reason = .CycleDetected := by
  unfold runIter at h
  dsimp only at h
  by_cases hcap : should_terminate_iterations cfg
      { s.stats with iterations := s.stats.iterations + 1 } = true
  · rw [if_pos hcap] at h
    obtain rfl := (IterOutcome.terminal.inj h).symm
    simp [mkResult]
  · rw [if_neg hcap] at h
    cases hfw : s.graph.find_wrappable_edge with
    | none =>
      rw [hfw] at h
      obtain rfl := (IterOutcome.terminal.inj h).symm
      simp [mkResult]
    | some pr =>
      obtain ⟨u, v⟩ := pr
      rw [hfw] at h
      dsimp only at h
      cases hfm : s.graph.find_min_incident_in_range u v with
      | none =>
        rw [hfm] at h
        obtain rfl := (IterOutcome.terminal.inj h).symm
        simp [mkResult]
      | some pr2 =>
        obtain ⟨w, x, t⟩ := pr2
        rw [hfm] at h
        dsimp only at h
        cases hmut : iterMutation s.graph u v w x with
        | none => rw [hmut] at h; simp at h
        | some trip =>
          obtain ⟨g₃, n, rm⟩ := trip
          rw [hmut] at h
          dsimp only at h
          split at h
          · obtain rfl := (IterOutcome.terminal.inj h).symm
            simp [mkResult]
          · split at h
            · obtain rfl := (IterOutcome.terminal.inj h).symm
              simp [mkResult]
            · simp at h

theorem runAux_done_minimal :
    ∀ (fuel : Nat) (cfg : MinimizationConfig) (s : RunState) (r : MinimizationResult),
      runAux cfg fuel s = .done r →
      (r.is_minimal = true ↔ r.termination_reason = .CycleDetected) := by
  intro fuel
  induction fuel with
  | zero => intro cfg s r h; simp [runAux] at h
  | succ fuel ih =>
    intro cfg s r h
    rw [runAux] at h
    cases hiter : runIter cfg s with
    | terminal r' =>
      rw [hiter] at h
      obtain rfl := (RunOutcome.done.inj h)
      exact runIter_terminal_minimal hiter
    | panicked => rw [hiter] at h; simp at h
    | next s' =>
      rw [hiter] at h
      exact ih cfg s' r h

theorem runIter_cycle_iff (cfg : MinimizationConfig) (s : RunState) :
    (∃ r, runIter cfg s = .terminal r ∧
      r.termination_reason = .CycleDetected) ↔
    (should_terminate_iterations cfg
        { s.stats with iterations := s.stats.iterations + 1 } = false ∧
      ∃ u v w x t g₃ n, s.graph.find_wrappable_edge = some (u, v) ∧
        s.graph.find_min_incident_in_range u v = some (w, x, t) ∧
        iterMutation s.graph u v w x = some (g₃, n, true) ∧
        g₃.to_state ∈ s.seen_states) := by
  constructor
  · rintro ⟨r, h, hreason⟩
    unfold runIter at h
    dsimp only at h
    by_cases hcap : should_terminate_iterations cfg
        { s.stats with iterations := s.stats.iterations + 1 } = true
    · rw [if_pos hcap] at h
      obtain rfl := (IterOutcome.terminal.inj h).symm
      simp [mkResult] at hreason
    · rw [if_neg hcap] at h
      refine ⟨by simpa using hcap, ?_⟩
      cases hfw : s.graph.find_wrappable_edge with
      | none =>
        rw [hfw] at h
        obtain rfl := (IterOutcome.terminal.inj h).symm
        simp [mkResult] at hreason
      | some pr =>
        obtain ⟨u, v⟩ := pr
        rw [hfw] at h
        dsimp only at h
        cases hfm : s.graph.find_min_incident_in_range u v with
        | none =>
          rw [hfm] at h
          obtain rfl := (IterOutcome.terminal.inj h).symm
          simp [mkResult] at hreason
        | some pr2 =>
          obtain ⟨w, x, t⟩ := pr2
          rw [hfm] at h
          dsimp only at h
          cases hmut : iterMutation s.graph u v w x with
          | none => rw [hmut] at h; simp at h
          | some trip =>
            obtain ⟨g₃, n, rm⟩ := trip
            rw [hmut] at h
            dsimp only at h
            by_cases hrm : rm = false
            · rw [if_pos hrm] at h
              obtain rfl := (IterOutcome.terminal.inj h).symm
              simp [mkResult] at hreason
            · rw [if_neg hrm] at h
              have hrmtrue : rm = true := by
                cases rm
                · exact absurd rfl hrm
                · rfl
              by_cases hseen : g₃.to_state ∈ s.seen_states
              · exact ⟨u, v, w, x, t, g₃, n, rfl, hfm, by rw [hrmtrue] at hmut; exact hmut,
                  hseen⟩
              · rw [if_neg hseen] at h
                simp at h
  · rintro ⟨hcap, u, v, w, x, t, g₃, n, hfw, hfm, hmut, hseen⟩
    refine ⟨mkResult cfg
      (if cfg.track_statistics then
        { s.stats with
          iterations := s.stats.iterations + 1
          transfers_attempted := s.stats.transfers_attempted + 1
          transfers_successful :=
            s.stats.transfers_successful + (if 0 < n then 1 else 0) }
      else { s.stats with iterations := s.stats.iterations + 1 })
      true .CycleDetected, ?_, rfl⟩
    unfold runIter
    dsimp only
    rw [if_neg (by simp [hcap]), hfw]
    dsimp only
    rw [hfm]
    dsimp only
    rw [hmut]
    dsimp only
    rw [if_neg (by simp), if_pos hseen]

/-- C4: a finished run is reported minimal exactly when it terminated with
`CycleDetected`; one iteration terminates with `CycleDetected` exactly when,
the cap not being hit, a wrap/transfer step succeeds and the mutated graph's
canonical state is already in the seen-set; and the run starts with the
initial canonical state in the seen-set. -/
theorem minimality_verdict_spec :
    (∀ (cfg : MinimizationConfig) (fuel : Nat) (g : TemporalGraph)
        (r : MinimizationResult), run cfg fuel g = .done r →
      (r.is_minimal = true ↔ r.termination_reason = .CycleDetected)) ∧
    (∀ (cfg : MinimizationConfig) (s : RunState),
      (∃ r, runIter cfg s = .terminal r ∧
        r.termination_reason = .CycleDetected) ↔
      (should_terminate_iterations cfg
          { s.stats with iterations := s.stats.iterations + 1 } = false ∧
        ∃ u v w x t g₃ n, s.graph.find_wrappable_edge = some (u, v) ∧
          s.graph.find_min_incident_in_range u v = some (w, x, t) ∧
          iterMutation s.graph u v w x = some (g₃, n, true) ∧
          g₃.to_state ∈ s.seen_states)) ∧
    (∀ (cfg : MinimizationConfig) (fuel : Nat) (g : TemporalGraph),
      run cfg fuel g = runAux cfg fuel ⟨g, initStats, {g.to_state}⟩) :=
  ⟨fun cfg fuel g r h => runAux_done_minimal fuel cfg ⟨g, initStats, {g.to_state}⟩ r h,
    runIter_cycle_iff,
    fun _ _ _ => rfl⟩

/-- Witness for C4 at a concrete finished run (cap 0 on a one-edge graph). -/
theorem minimality_verdict_spec_witness :
    (MinimizationResult.mk false none .MaxIterationsReached).is_minimal = true ↔
      (MinimizationResult.mk false none .MaxIterationsReached).termination_reason =
        .CycleDetected :=
  minimality_verdict_spec.1 ⟨some 0, false, false⟩ 3 (buildGraph [(0,1,5)])
    ⟨false, none, .MaxIterationsReached⟩ (by decide)

/-! ## Claim C2: the full effect of `transfer_labels_through_edge` -/

/-- The per-neighbor body of the transfer loop. -/
def transferStep (u v : Nat) (tmin tmax : Int) (acc : TemporalGraph × Nat)
    (w : Nat) : TemporalGraph × Nat :=
  if w = u then acc
  else
    let ts := acc.1.get_edge_timestamps_in_range v w tmin tmax
    if ts.isEmpty then acc
    else
      let g₁ := ts.foldl (fun h t => (h.remove_edge_timestamp v w t).1) acc.1
      let g₂ := ts.foldl (fun h t => h.add_edge w u t) g₁
      (g₂, acc.2 + ts.length)

theorem transfer_eq_foldl_transferStep (g : TemporalGraph) (u v : Nat) :
    g.transfer_labels_through_edge u v =
      match g.get_edge_time_range u v with
      | none => (g, 0)
      | some (tmin, tmax) =>
        (g.get_all_neighbors v).foldl (transferStep u v tmin tmax) (g, 0) := rfl

theorem transferStep_fold_frame (u v : Nat) (tmin tmax : Int) {k : Nat × Nat}
    (ws : List Nat)
    (hcond : ∀ w ∈ ws, w ≠ u → k ≠ normalize_pair v w ∧ k ≠ normalize_pair w u)
    (start : TemporalGraph × Nat) :
    lookupEdge ((ws.foldl (transferStep u v tmin tmax) start).1.edges) k =
      lookupEdge start.1.edges k :=
  transfer_fold_frame u v tmin tmax ws hcond start

theorem mem_get_edge_timestamps_in_range (g : TemporalGraph) (a b : Nat)
    (tmin tmax t : Int) :
    t ∈ g.get_edge_timestamps_in_range a b tmin tmax ↔
      (t ∈ (lookupEdge g.edges (normalize_pair a b)).getD [] ∧ tmin < t ∧ t < tmax) := by
  unfold TemporalGraph.get_edge_timestamps_in_range
  cases hlk : lookupEdge g.edges (normalize_pair a b) with
  | none => simp
  | some ts => simp [List.mem_filter]

theorem transferStep_effect (u v : Nat) (tmin tmax : Int) (huv : u ≠ v) {w : Nat}
    (hwu : w ≠ u) (start : TemporalGraph × Nat) (hw : WFedges start.1.edges) :
    WFedges ((transferStep u v tmin tmax start w).1.edges) ∧
    (lookupEdge ((transferStep u v tmin tmax start w).1.edges) (normalize_pair v w) =
      (if ((lookupEdge start.1.edges (normalize_pair v w)).getD []).filter
          (fun t => ¬(tmin < t ∧ t < tmax)) = [] then none
       else some (((lookupEdge start.1.edges (normalize_pair v w)).getD []).filter
          (fun t => ¬(tmin < t ∧ t < tmax))))) ∧
    (∀ t, t ∈ (lookupEdge ((transferStep u v tmin tmax start w).1.edges)
        (normalize_pair w u)).getD [] ↔
      (t ∈ (lookupEdge start.1.edges (normalize_pair w u)).getD [] ∨
        (t ∈ (lookupEdge start.1.edges (normalize_pair v w)).getD [] ∧
          tmin < t ∧ t < tmax))) ∧
    (∀ k : Nat × Nat, k ≠ normalize_pair v w → k ≠ normalize_pair w u →
      lookupEdge ((transferStep u v tmin tmax start w).1.edges) k =
        lookupEdge start.1.edges k) ∧
    (transferStep u v tmin tmax start w).2 =
      start.2 + (((lookupEdge start.1.edges (normalize_pair v w)).getD []).filter
        (fun t => tmin < t ∧ t < tmax)).length := by
  have hkey : normalize_pair w u ≠ normalize_pair v w := by
    intro hc
    rw [normalize_pair_eq_iff] at hc
    omega
  unfold transferStep
  rw [if_neg hwu]
  dsimp only
  cases hvw : lookupEdge start.1.edges (normalize_pair v w) with
  | none =>
    have hts : start.1.get_edge_timestamps_in_range v w tmin tmax = [] := by
      unfold TemporalGraph.get_edge_timestamps_in_range
      rw [hvw]
    rw [hts]
    rw [if_pos (by rfl)]
    refine ⟨hw, ?_, ?_, fun k _ _ => rfl, by simp⟩
    · simp only [Option.getD_none, List.filter_nil, if_pos]
      exact hvw
    · intro t
      simp
  | some ts₀ =>
    have hts₀mem : ((normalize_pair v w), ts₀) ∈ start.1.edges := lookupEdge_mem hvw
    have hts₀ne : ts₀ ≠ [] := (hw.2 _ hts₀mem).2.1
    have hts₀pw : ts₀.Pairwise (fun a b : Int => a < b) := (hw.2 _ hts₀mem).2.2
    have hts : start.1.get_edge_timestamps_in_range v w tmin tmax =
        ts₀.filter (fun t => tmin < t ∧ t < tmax) := by
      unfold TemporalGraph.get_edge_timestamps_in_range
      rw [hvw]
    rw [hts]
    by_cases hemp : (ts₀.filter (fun t => tmin < t ∧ t < tmax)).isEmpty = true
    · rw [if_pos hemp]
      have hnil : ts₀.filter (fun t => tmin < t ∧ t < tmax) = [] := by
        simpa [List.isEmpty_iff] using hemp
      have hallout : ∀ t ∈ ts₀, ¬(tmin < t ∧ t < tmax) := by
        intro t ht hcontra
        have : t ∈ ts₀.filter (fun t => tmin < t ∧ t < tmax) := by
          rw [List.mem_filter]
          exact ⟨ht, by simpa using hcontra⟩
        rw [hnil] at this
        simp at this
      have hkept : ts₀.filter (fun t => ¬(tmin < t ∧ t < tmax)) = ts₀ := by
        rw [List.filter_eq_self]
        intro t ht
        exact decide_eq_true (hallout t ht)
      refine ⟨hw, ?_, ?_, fun k _ _ => rfl,
        by simp only [Option.getD_some]; rw [hnil]; simp⟩
      · simp only [Option.getD_some]
        rw [hkept, if_neg hts₀ne]
        exact hvw
      · intro t
        simp only [Option.getD_some]
        constructor
        · intro h
          exact Or.inl h
        · rintro (h | ⟨hmem, hio⟩)
          · exact h
          · exact absurd hio (hallout t hmem)
    · rw [if_neg hemp]
      dsimp only
      set ts := ts₀.filter (fun t => tmin < t ∧ t < tmax) with htsdef
      set g₁ := ts.foldl (fun h t => (h.remove_edge_timestamp v w t).1) start.1
        with hg₁
      set g₂ := ts.foldl (fun h t => h.add_edge w u t) g₁ with hg₂
      have htspw : ts.Pairwise (fun a b : Int => a < b) := hts₀pw.filter _
      have htsnd : ts.Nodup := htspw.imp (fun h => ne_of_lt h)
      have htssub : ∀ t ∈ ts, t ∈ ts₀ := fun t ht => (List.mem_filter.mp ht).1
      have hw₁ : WFedges g₁.edges := WFedges_remove_fold v w ts start.1 hw
      have hw₂ : WFedges g₂.edges := WFedges_add_fold w u ts g₁ hw₁
      have hg₁self : lookupEdge g₁.edges (normalize_pair v w) =
          (if ts₀.filter (fun t => (t ∉ ts : Bool)) = [] then none
           else some (ts₀.filter (fun t => (t ∉ ts : Bool)))) :=
        lookup_remove_fold_self v w ts start.1 hw htsnd ts₀ hvw htssub
      have hkeptcongr : ts₀.filter (fun t => (t ∉ ts : Bool)) =
          ts₀.filter (fun t => ¬(tmin < t ∧ t < tmax)) := by
        apply List.filter_congr
        intro t ht
        by_cases hio : tmin < t ∧ t < tmax
        · have : t ∈ ts := by
            rw [htsdef, List.mem_filter]
            exact ⟨ht, by simpa using hio⟩
          simp [this, hio]
        · have : t ∉ ts := by
            intro hc
            rw [htsdef, List.mem_filter] at hc
            exact hio (by simpa using hc.2)
          simp [this, hio]
      have hg₂src : lookupEdge g₂.edges (normalize_pair v w) =
          lookupEdge g₁.edges (normalize_pair v w) :=
        lookup_add_fold_ne w u (Ne.symm hkey) ts g₁
      have hg₁tar : lookupEdge g₁.edges (normalize_pair w u) =
          lookupEdge start.1.edges (normalize_pair w u) :=
        lookup_remove_fold_ne v w hkey ts start.1
      refine ⟨hw₂, ?_, ?_, ?_, ?_⟩
      · simp only [Option.getD_some]
        rw [hg₂src, hg₁self, hkeptcongr]
      · intro t
        have hmem := (lookup_add_fold_self w u ts g₁ hw₁).1 t
        rw [hg₁tar] at hmem
        rw [hmem]
        simp only [Option.getD_some]
        constructor
        · rintro (h | h)
          · exact Or.inl h
          · rw [htsdef, List.mem_filter] at h
            exact Or.inr ⟨h.1, by simpa using h.2⟩
        · rintro (h | ⟨hmem', hio⟩)
          · exact Or.inl h
          · refine Or.inr ?_
            rw [htsdef, List.mem_filter]
            exact ⟨hmem', by simpa using hio⟩
      · intro k hk1 hk2
        have h₂ : lookupEdge g₂.edges k = lookupEdge g₁.edges k :=
          lookup_add_fold_ne w u hk2 ts g₁
        have h₁ : lookupEdge g₁.edges k = lookupEdge start.1.edges k :=
          lookup_remove_fold_ne v w hk1 ts start.1
        rw [h₂, h₁]
      · simp only [Option.getD_some]

theorem transfer_fold_effect (u v : Nat) (tmin tmax : Int) (huv : u ≠ v) :
    ∀ (ws : List Nat), ws.Nodup → ∀ (start : TemporalGraph × Nat),
      WFedges start.1.edges →
      (∀ w ∈ ws, w ≠ u →
        (lookupEdge ((ws.foldl (transferStep u v tmin tmax) start).1.edges)
            (normalize_pair v w) =
          (if ((lookupEdge start.1.edges (normalize_pair v w)).getD []).filter
              (fun t => ¬(tmin < t ∧ t < tmax)) = [] then none
           else some (((lookupEdge start.1.edges (normalize_pair v w)).getD []).filter
              (fun t => ¬(tmin < t ∧ t < tmax))))) ∧
        (∀ t, t ∈ (lookupEdge ((ws.foldl (transferStep u v tmin tmax) start).1.edges)
            (normalize_pair w u)).getD [] ↔
          (t ∈ (lookupEdge start.1.edges (normalize_pair w u)).getD [] ∨
            (t ∈ (lookupEdge start.1.edges (normalize_pair v w)).getD [] ∧
              tmin < t ∧ t < tmax)))) ∧
      (ws.foldl (transferStep u v tmin tmax) start).2 =
        start.2 + ((ws.filter (fun w => w ≠ u)).map (fun w =>
          (((lookupEdge start.1.edges (normalize_pair v w)).getD []).filter
            (fun t => tmin < t ∧ t < tmax)).length)).sum := by
  intro ws
  induction ws with
  | nil =>
    intro _ start _
    exact ⟨fun w hw => absurd hw (by simp), by simp⟩
  | cons w ws ih =>
    intro hnd start hw
    obtain ⟨hwnotin, hndws⟩ := List.nodup_cons.mp hnd
    rw [List.foldl_cons]
    by_cases hwu : w = u
    · have hstep : transferStep u v tmin tmax start w = start := by
        unfold transferStep
        rw [if_pos hwu]
      rw [hstep]
      obtain ⟨ihb, ihc⟩ := ih hndws start hw
      refine ⟨?_, ?_⟩
      · intro w' hw' hw'u
        rcases List.mem_cons.mp hw' with rfl | hw'mem
        · exact absurd hwu hw'u
        · exact ihb w' hw'mem hw'u
      · rw [ihc]
        congr 2
        rw [List.filter_cons, if_neg (by simpa using hwu)]
    · obtain ⟨hWFs, hsrc, htar, hframe, hcnt⟩ :=
        transferStep_effect u v tmin tmax huv hwu start hw
      obtain ⟨ihb, ihc⟩ := ih hndws (transferStep u v tmin tmax start w) hWFs
      refine ⟨?_, ?_⟩
      · intro w' hw' hw'u
        rcases List.mem_cons.mp hw' with rfl | hw'mem
        · have hcond : ∀ w'' ∈ ws, w'' ≠ u →
              normalize_pair v w' ≠ normalize_pair v w'' ∧
              normalize_pair v w' ≠ normalize_pair w'' u := by
            intro w'' hw'' hw''u
            have hne : w'' ≠ w' := fun h => hwnotin (h ▸ hw'')
            constructor
            · intro hc
              rw [normalize_pair_eq_iff] at hc
              omega
            · intro hc
              rw [normalize_pair_eq_iff] at hc
              omega
          have hcond2 : ∀ w'' ∈ ws, w'' ≠ u →
              normalize_pair w' u ≠ normalize_pair v w'' ∧
              normalize_pair w' u ≠ normalize_pair w'' u := by
            intro w'' hw'' hw''u
            have hne : w'' ≠ w' := fun h => hwnotin (h ▸ hw'')
            constructor
            · intro hc
              rw [normalize_pair_eq_iff] at hc
              omega
            · intro hc
              rw [normalize_pair_eq_iff] at hc
              omega
          constructor
          · rw [transferStep_fold_frame u v tmin tmax ws hcond _]
            exact hsrc
          · intro t
            rw [transferStep_fold_frame u v tmin tmax ws hcond2 _]
            exact htar t
        · have hne : w' ≠ w := fun h => hwnotin (h ▸ hw'mem)
          have h1 : lookupEdge (transferStep u v tmin tmax start w).1.edges
              (normalize_pair v w') = lookupEdge start.1.edges (normalize_pair v w') := by
            refine hframe _ ?_ ?_
            · intro hc
              rw [normalize_pair_eq_iff] at hc
              omega
            · intro hc
              rw [normalize_pair_eq_iff] at hc
              omega
          have h2 : lookupEdge (transferStep u v tmin tmax start w).1.edges
              (normalize_pair w' u) = lookupEdge start.1.edges (normalize_pair w' u) := by
            refine hframe _ ?_ ?_
            · intro hc
              rw [normalize_pair_eq_iff] at hc
              omega
            · intro hc
              rw [normalize_pair_eq_iff] at hc
              omega
          obtain ⟨ib1, ib2⟩ := ihb w' hw'mem hw'u
          rw [h1] at ib1
          rw [h1, h2] at ib2
          exact ⟨ib1, ib2⟩
      · rw [ihc, hcnt]
        have hmapeq : (ws.filter (fun w => w ≠ u)).map (fun w' =>
            (((lookupEdge (transferStep u v tmin tmax start w).1.edges
              (normalize_pair v w')).getD []).filter
              (fun t => tmin < t ∧ t < tmax)).length) =
          (ws.filter (fun w => w ≠ u)).map (fun w' =>
            (((lookupEdge start.1.edges (normalize_pair v w')).getD []).filter
              (fun t => tmin < t ∧ t < tmax)).length) := by
          apply List.map_congr_left
          intro w' hw'
          rw [List.mem_filter] at hw'
          obtain ⟨hw'mem, hw'u⟩ := hw'
          have hw'u' : w' ≠ u := by simpa using hw'u
          have hne : w' ≠ w := fun h => hwnotin (h ▸ hw'mem)
          have h1 : lookupEdge (transferStep u v tmin tmax start w).1.edges
              (normalize_pair v w') = lookupEdge start.1.edges (normalize_pair v w') := by
            refine hframe _ ?_ ?_
            · intro hc
              rw [normalize_pair_eq_iff] at hc
              omega
            · intro hc
              rw [normalize_pair_eq_iff] at hc
              omega
          rw [h1]
        rw [hmapeq, List.filter_cons, if_pos (by simpa using hwu)]
        rw [List.map_cons, List.sum_cons]
        omega

theorem sorted_int_eq_of_mem_iff {l₁ l₂ : List Int}
    (h₁ : l₁.Pairwise (fun a b : Int => a < b))
    (h₂ : l₂.Pairwise (fun a b : Int => a < b))
    (h : ∀ t, t ∈ l₁ ↔ t ∈ l₂) : l₁ = l₂ := by
  haveI : IsAntisymm Int (· < ·) := ⟨fun a b hab hba => absurd hba (lt_asymm hab)⟩
  exact List.eq_of_perm_of_sorted
    ((List.perm_ext_iff_of_nodup (h₁.imp ne_of_lt) (h₂.imp ne_of_lt)).mpr h) h₁ h₂

/-- When anchor and pivot coincide, one neighbor step removes the in-range
labels of `{pivot,w}` and re-adds every one of them to `{w,anchor}` — the
same edge — so the edge map is left unchanged while the step still counts
those labels. -/
theorem transferStep_self_id (u : Nat) (tmin tmax : Int) (w : Nat)
    (start : TemporalGraph × Nat) (hw : WFedges start.1.edges) :
    WFedges ((transferStep u u tmin tmax start w).1.edges) ∧
    (∀ k, lookupEdge ((transferStep u u tmin tmax start w).1.edges) k =
      lookupEdge start.1.edges k) ∧
    (transferStep u u tmin tmax start w).2 =
      start.2 + (if w = u then 0 else
        (((lookupEdge start.1.edges (normalize_pair u w)).getD []).filter
          (fun t => tmin < t ∧ t < tmax)).length) := by
  unfold transferStep
  by_cases hwu : w = u
  · rw [if_pos hwu, if_pos hwu]
    exact ⟨hw, fun k => rfl, by omega⟩
  · rw [if_neg hwu]
    dsimp only
    cases hvw : lookupEdge start.1.edges (normalize_pair u w) with
    | none =>
      have hts : start.1.get_edge_timestamps_in_range u w tmin tmax = [] := by
        unfold TemporalGraph.get_edge_timestamps_in_range
        rw [hvw]
      rw [hts, if_pos (by rfl)]
      refine ⟨hw, fun k => rfl, ?_⟩
      rw [if_neg hwu]
      simp
    | some ts₀ =>
      have hts₀mem : ((normalize_pair u w), ts₀) ∈ start.1.edges := lookupEdge_mem hvw
      have hts₀pw : ts₀.Pairwise (fun a b : Int => a < b) := (hw.2 _ hts₀mem).2.2
      have hts : start.1.get_edge_timestamps_in_range u w tmin tmax =
          ts₀.filter (fun t => tmin < t ∧ t < tmax) := by
        unfold TemporalGraph.get_edge_timestamps_in_range
        rw [hvw]
      rw [hts]
      by_cases hemp : (ts₀.filter (fun t => tmin < t ∧ t < tmax)).isEmpty = true
      · rw [if_pos hemp]
        have hnil : ts₀.filter (fun t => tmin < t ∧ t < tmax) = [] := by
          simpa [List.isEmpty_iff] using hemp
        refine ⟨hw, fun k => rfl, ?_⟩
        rw [if_neg hwu]
        simp only [Option.getD_some]
        rw [hnil]
        simp
      · rw [if_neg hemp]
        dsimp only
        set ts := ts₀.filter (fun t => tmin < t ∧ t < tmax) with htsdef
        set g₁ := ts.foldl (fun h t => (h.remove_edge_timestamp u w t).1) start.1
          with hg₁
        set g₂ := ts.foldl (fun h t => h.add_edge w u t) g₁ with hg₂
        have htspw : ts.Pairwise (fun a b : Int => a < b) := hts₀pw.filter _
        have htsnd : ts.Nodup := htspw.imp (fun h => ne_of_lt h)
        have htssub : ∀ t ∈ ts, t ∈ ts₀ := fun t ht => (List.mem_filter.mp ht).1
        have htsne : ts ≠ [] := by
          intro hc
          rw [hc] at hemp
          simp at hemp
        have hw₁ : WFedges g₁.edges := WFedges_remove_fold u w ts start.1 hw
        have hw₂ : WFedges g₂.edges := WFedges_add_fold w u ts g₁ hw₁
        have hg₁self : lookupEdge g₁.edges (normalize_pair u w) =
            (if ts₀.filter (fun t => (t ∉ ts : Bool)) = [] then none
             else some (ts₀.filter (fun t => (t ∉ ts : Bool)))) :=
          lookup_remove_fold_self u w ts start.1 hw htsnd ts₀ hvw htssub
        have hkey : normalize_pair w u = normalize_pair u w := normalize_pair_symm w u
        have haddmem := (lookup_add_fold_self w u ts g₁ hw₁).1
        have hmem_final : ∀ t,
            t ∈ (lookupEdge g₂.edges (normalize_pair u w)).getD [] ↔ t ∈ ts₀ := by
          intro t
          rw [← hkey, haddmem t, hkey, hg₁self]
          by_cases hdel : ts₀.filter (fun t => (t ∉ ts : Bool)) = []
          · rw [if_pos hdel]
            simp only [Option.getD_none, List.not_mem_nil, false_or]
            constructor
            · intro h
              exact htssub t h
            · intro ht₀
              by_cases htin : t ∈ ts
              · exact htin
              · exfalso
                have hmemf : t ∈ ts₀.filter (fun s => (s ∉ ts : Bool)) := by
                  rw [List.mem_filter]
                  exact ⟨ht₀, by simpa using htin⟩
                rw [hdel] at hmemf
                simp at hmemf
          · rw [if_neg hdel]
            simp only [Option.getD_some]
            constructor
            · rintro (h | h)
              · exact (List.mem_filter.mp h).1
              · exact htssub t h
            · intro ht₀
              by_cases htin : t ∈ ts
              · exact Or.inr htin
              · refine Or.inl ?_
                rw [List.mem_filter]
                exact ⟨ht₀, by simpa using htin⟩
        obtain ⟨fts, hfts⟩ : ∃ fts,
            lookupEdge g₂.edges (normalize_pair u w) = some fts := by
          cases hc : lookupEdge g₂.edges (normalize_pair u w) with
          | none =>
            exfalso
            obtain ⟨t, ht⟩ := List.exists_mem_of_ne_nil ts htsne
            have hmt := (hmem_final t).mpr (htssub t ht)
            rw [hc] at hmt
            simp at hmt
          | some fts => exact ⟨fts, rfl⟩
        have hpwf : fts.Pairwise (fun a b : Int => a < b) :=
          (hw₂.2 _ (lookupEdge_mem hfts)).2.2
        have hfeq : fts = ts₀ := by
          apply sorted_int_eq_of_mem_iff hpwf hts₀pw
          intro t
          have hmt := hmem_final t
          rw [hfts] at hmt
          simpa using hmt
        refine ⟨hw₂, ?_, ?_⟩
        · intro k
          by_cases hk : k = normalize_pair u w
          · rw [hk, hfts, hfeq, hvw]
          · have hk' : k ≠ normalize_pair w u := by rw [hkey]; exact hk
            have h₂ : lookupEdge g₂.edges k = lookupEdge g₁.edges k :=
              lookup_add_fold_ne w u hk' ts g₁
            have h₁ : lookupEdge g₁.edges k = lookupEdge start.1.edges k :=
              lookup_remove_fold_ne u w hk ts start.1
            rw [h₂, h₁]
        · rw [if_neg hwu]
          simp only [Option.getD_some]

/-- With anchor = pivot the whole neighbor fold leaves every edge lookup
unchanged, and the count is the sum of the in-range label counts of the
pivot's neighbor edges. -/
theorem transfer_fold_self_id (u : Nat) (tmin tmax : Int) :
    ∀ (ws : List Nat) (start : TemporalGraph × Nat), WFedges start.1.edges →
      WFedges ((ws.foldl (transferStep u u tmin tmax) start).1.edges) ∧
      (∀ k, lookupEdge ((ws.foldl (transferStep u u tmin tmax) start).1.edges) k =
        lookupEdge start.1.edges k) ∧
      (ws.foldl (transferStep u u tmin tmax) start).2 =
        start.2 + ((ws.filter (fun w => w ≠ u)).map (fun w =>
          (((lookupEdge start.1.edges (normalize_pair u w)).getD []).filter
            (fun t => tmin < t ∧ t < tmax)).length)).sum := by
  intro ws
  induction ws with
  | nil => intro start hw; exact ⟨hw, fun k => rfl, by simp⟩
  | cons w ws ih =>
    intro start hw
    rw [List.foldl_cons]
    obtain ⟨h1, h2, h3⟩ := transferStep_self_id u tmin tmax w start hw
    obtain ⟨ih1, ih2, ih3⟩ := ih (transferStep u u tmin tmax start w) h1
    refine ⟨ih1, ?_, ?_⟩
    · intro k
      rw [ih2 k, h2 k]
    · rw [ih3, h3]
      have hmapeq : (ws.filter (fun w' => w' ≠ u)).map (fun w' =>
          (((lookupEdge (transferStep u u tmin tmax start w).1.edges
            (normalize_pair u w')).getD []).filter
            (fun t => tmin < t ∧ t < tmax)).length) =
        (ws.filter (fun w' => w' ≠ u)).map (fun w' =>
          (((lookupEdge start.1.edges (normalize_pair u w')).getD []).filter
            (fun t => tmin < t ∧ t < tmax)).length) := by
        apply List.map_congr_left
        intro w' _
        rw [h2]
      rw [hmapeq, List.filter_cons]
      by_cases hwu : w = u
      · rw [if_pos hwu, if_neg (by simpa using hwu)]
        omega
      · rw [if_neg hwu, if_pos (by simpa using hwu)]
        simp only [List.map_cons, List.sum_cons]
        omega

/-- C2: `transfer_labels_through_edge(anchor, pivot)` is a no-op returning 0
when edge `{anchor,pivot}` does not exist; otherwise, with `(tmin,tmax)` its
label range: when anchor ≠ pivot, every neighbor `w` of the pivot other than
the anchor loses from `{pivot,w}` exactly the labels strictly inside
`(tmin,tmax)` (the edge being deleted when emptied) and each such label is
added to `{w,anchor}` (created or merged); when anchor = pivot the removal
and the addition hit the same edge, so every edge lookup is unchanged.  In
both cases no other edge changes and the returned count is the total number
of in-range labels processed.  On scenario 3 the call returns 3, edges
`(2,1,5)`, `(3,1,10)`, `(4,1,15)` exist afterwards and `(0,2)`, `(0,3)`,
`(0,4)` are gone. -/
theorem transfer_labels_spec :
    (∀ (g : TemporalGraph) (u v : Nat),
      lookupEdge g.edges (normalize_pair u v) = none →
      g.transfer_labels_through_edge u v = (g, 0)) ∧
    (∀ (g : TemporalGraph), g.WF → ∀ (u v : Nat),
      ∀ (ts : List Int) (tmin tmax : Int),
        lookupEdge g.edges (normalize_pair u v) = some ts →
        TemporalGraph.listMinMax ts = some (tmin, tmax) →
        ((u ≠ v → ∀ w ∈ g.get_all_neighbors v, w ≠ u →
          (lookupEdge (g.transfer_labels_through_edge u v).1.edges
              (normalize_pair v w) =
            (if ((lookupEdge g.edges (normalize_pair v w)).getD []).filter
                (fun t => ¬(tmin < t ∧ t < tmax)) = [] then none
             else some (((lookupEdge g.edges (normalize_pair v w)).getD []).filter
                (fun t => ¬(tmin < t ∧ t < tmax))))) ∧
          (∀ t, t ∈ (lookupEdge (g.transfer_labels_through_edge u v).1.edges
              (normalize_pair w u)).getD [] ↔
            (t ∈ (lookupEdge g.edges (normalize_pair w u)).getD [] ∨
              (t ∈ (lookupEdge g.edges (normalize_pair v w)).getD [] ∧
                tmin < t ∧ t < tmax)))) ∧
        (u = v →
          ∀ k : Nat × Nat, lookupEdge (g.transfer_labels_through_edge u v).1.edges k =
            lookupEdge g.edges k) ∧
        (∀ k : Nat × Nat,
          (∀ w ∈ g.get_all_neighbors v, w ≠ u →
            k ≠ normalize_pair v w ∧ k ≠ normalize_pair w u) →
          lookupEdge (g.transfer_labels_through_edge u v).1.edges k =
            lookupEdge g.edges k) ∧
        (g.transfer_labels_through_edge u v).2 =
          (((g.get_all_neighbors v).filter (fun w => w ≠ u)).map (fun w =>
            (((lookupEdge g.edges (normalize_pair v w)).getD []).filter
              (fun t => tmin < t ∧ t < tmax)).length)).sum)) ∧
    ((buildGraph [(0,1,0), (0,1,20), (0,2,5), (0,3,10), (0,4,15)]).transfer_labels_through_edge
        1 0).2 = 3 ∧
    (((buildGraph [(0,1,0), (0,1,20), (0,2,5), (0,3,10), (0,4,15)]).transfer_labels_through_edge
        1 0).1.has_edge_at_time 2 1 5 = true ∧
     ((buildGraph [(0,1,0), (0,1,20), (0,2,5), (0,3,10), (0,4,15)]).transfer_labels_through_edge
        1 0).1.has_edge_at_time 3 1 10 = true ∧
     ((buildGraph [(0,1,0), (0,1,20), (0,2,5), (0,3,10), (0,4,15)]).transfer_labels_through_edge
        1 0).1.has_edge_at_time 4 1 15 = true) ∧
    (((buildGraph [(0,1,0), (0,1,20), (0,2,5), (0,3,10), (0,4,15)]).transfer_labels_through_edge
        1 0).1.edge_times 0 2 = none ∧
     ((buildGraph [(0,1,0), (0,1,20), (0,2,5), (0,3,10), (0,4,15)]).transfer_labels_through_edge
        1 0).1.edge_times 0 3 = none ∧
     ((buildGraph [(0,1,0), (0,1,20), (0,2,5), (0,3,10), (0,4,15)]).transfer_labels_through_edge
        1 0).1.edge_times 0 4 = none) := by
  refine ⟨?_, ?_, by decide, ⟨by decide, by decide, by decide⟩,
    ⟨by decide, by decide, by decide⟩⟩
  · intro g u v hnone
    unfold TemporalGraph.transfer_labels_through_edge
      TemporalGraph.get_edge_time_range
    rw [hnone]
  · intro g hwf u v ts tmin tmax hlk hmm
    have hrange : g.get_edge_time_range u v = some (tmin, tmax) := by
      unfold TemporalGraph.get_edge_time_range
      rw [hlk]
      exact hmm
    have hrw : g.transfer_labels_through_edge u v =
        (g.get_all_neighbors v).foldl (transferStep u v tmin tmax) (g, 0) := by
      rw [transfer_eq_foldl_transferStep, hrange]
    have hnodup : (g.get_all_neighbors v).Nodup := get_all_neighbors_nodup g v
    refine ⟨?_, ?_, ?_, ?_⟩
    · intro huv w hw hwu
      obtain ⟨hb, _⟩ := transfer_fold_effect u v tmin tmax huv
        (g.get_all_neighbors v) hnodup (g, 0) hwf
      obtain ⟨hb1, hb2⟩ := hb w hw hwu
      rw [hrw]
      exact ⟨hb1, hb2⟩
    · intro huv k
      subst huv
      rw [hrw]
      exact (transfer_fold_self_id u tmin tmax (g.get_all_neighbors u)
        (g, 0) hwf).2.1 k
    · intro k hk
      rw [hrw]
      exact transferStep_fold_frame u v tmin tmax _ hk (g, 0)
    · by_cases huv : u = v
      · subst huv
        rw [hrw]
        have hcount := (transfer_fold_self_id u tmin tmax (g.get_all_neighbors u)
          (g, 0) hwf).2.2
        rw [hcount]
        simp
      · obtain ⟨_, hc⟩ := transfer_fold_effect u v tmin tmax huv
          (g.get_all_neighbors v) hnodup (g, 0) hwf
        rw [hrw, hc]
        simp

/-- Witness for C2: the no-op branch on a missing edge, the moved-label
count on scenario 3, and the unchanged edge map when anchor = pivot on a
graph with a labelled self-loop. -/
theorem transfer_labels_spec_witness :
    (buildGraph [(0,1,5)]).transfer_labels_through_edge 2 3 =
      (buildGraph [(0,1,5)], 0) ∧
    ((buildGraph [(0,1,0), (0,1,20), (0,2,5), (0,3,10), (0,4,15)]).transfer_labels_through_edge
        1 0).2 =
      ((((buildGraph [(0,1,0), (0,1,20), (0,2,5), (0,3,10), (0,4,15)]).get_all_neighbors 0).filter
          (fun w => w ≠ 1)).map (fun w =>
        (((lookupEdge (buildGraph [(0,1,0), (0,1,20), (0,2,5), (0,3,10), (0,4,15)]).edges
            (normalize_pair 0 w)).getD []).filter
          (fun t => (0 : Int) < t ∧ t < 20)).length)).sum ∧
    lookupEdge ((buildGraph [(1,1,0), (1,1,10), (1,2,5)]).transfer_labels_through_edge
        1 1).1.edges (normalize_pair 1 2) =
      lookupEdge (buildGraph [(1,1,0), (1,1,10), (1,2,5)]).edges (normalize_pair 1 2) :=
  ⟨transfer_labels_spec.1 (buildGraph [(0,1,5)]) 2 3 (by decide),
   (transfer_labels_spec.2.1 (buildGraph [(0,1,0), (0,1,20), (0,2,5), (0,3,10), (0,4,15)])
     (by decide) 1 0 [0, 20] 0 20 (by decide) (by decide)).2.2.2,
   (transfer_labels_spec.2.1 (buildGraph [(1,1,0), (1,1,10), (1,2,5)])
     (by decide) 1 1 [0, 10] 0 10 (by decide) (by decide)).2.1 rfl (normalize_pair 1 2)⟩

/-! ## Claim C10: termination of `run` with unbounded iterations -/

/-- The set of `(key, label)` pairs stored in an edge map. -/
def relE (es : List ((Nat × Nat) × List Int)) : Finset ((Nat × Nat) × Int) :=
  (es.flatMap (fun p => p.2.map (fun t => (p.1, t)))).toFinset

/-- All endpoints mentioned by a set of `(key, label)` pairs. -/
def epts (R : Finset ((Nat × Nat) × Int)) : Finset Nat :=
  R.image (fun p => p.1.1) ∪ R.image (fun p => p.1.2)

/-- All label values mentioned by a set of `(key, label)` pairs. -/
def timesOf (R : Finset ((Nat × Nat) × Int)) : Finset Int :=
  R.image Prod.snd

/-- Every `(key, label)` pair over the endpoints and label values of `R`:
the finite space inside which the minimizer's graphs live. -/
def universeOf (R : Finset ((Nat × Nat) × Int)) : Finset ((Nat × Nat) × Int) :=
  (epts R ×ˢ epts R) ×ˢ timesOf R

theorem mem_relE {es : List ((Nat × Nat) × List Int)} {k : Nat × Nat} {t : Int} :
    (k, t) ∈ relE es ↔ ∃ ts, (k, ts) ∈ es ∧ t ∈ ts := by
  unfold relE
  rw [List.mem_toFinset, List.mem_flatMap]
  constructor
  · rintro ⟨p, hp, hmem⟩
    rw [List.mem_map] at hmem
    obtain ⟨t', ht', heq⟩ := hmem
    obtain ⟨h1, h2⟩ : p.1 = k ∧ t' = t := by simpa [Prod.ext_iff] using heq
    refine ⟨p.2, ?_, h2 ▸ ht'⟩
    rw [← h1]
    exact hp
  · rintro ⟨ts, hts, ht⟩
    exact ⟨(k, ts), hts, List.mem_map.mpr ⟨t, ht, rfl⟩⟩

theorem mem_relE_lookup {es : List ((Nat × Nat) × List Int)} (hs : SKeys es)
    (k : Nat × Nat) (t : Int) :
    (k, t) ∈ relE es ↔ t ∈ (lookupEdge es k).getD [] := by
  rw [mem_relE]
  constructor
  · rintro ⟨ts, hts, ht⟩
    rw [lookupEdge_eq_some_of_mem hs hts]
    exact ht
  · intro ht
    cases hc : lookupEdge es k with
    | none => rw [hc] at ht; simp at ht
    | some ts =>
      refine ⟨ts, lookupEdge_mem hc, ?_⟩
      rw [hc] at ht
      exact ht

theorem rel_mem_epts {R : Finset ((Nat × Nat) × Int)} {a b : Nat} {t : Int}
    (h : ((a, b), t) ∈ R) : a ∈ epts R ∧ b ∈ epts R ∧ t ∈ timesOf R :=
  ⟨Finset.mem_union_left _ (Finset.mem_image.mpr ⟨_, h, rfl⟩),
   Finset.mem_union_right _ (Finset.mem_image.mpr ⟨_, h, rfl⟩),
   Finset.mem_image.mpr ⟨_, h, rfl⟩⟩

theorem mem_universeOf {R : Finset ((Nat × Nat) × Int)} {p : (Nat × Nat) × Int} :
    p ∈ universeOf R ↔ p.1.1 ∈ epts R ∧ p.1.2 ∈ epts R ∧ p.2 ∈ timesOf R := by
  unfold universeOf
  rw [Finset.mem_product, Finset.mem_product, and_assoc]

theorem self_subset_universeOf (R : Finset ((Nat × Nat) × Int)) :
    R ⊆ universeOf R := by
  intro p hp
  obtain ⟨⟨a, b⟩, t⟩ := p
  obtain ⟨h1, h2, h3⟩ := rel_mem_epts hp
  exact mem_universeOf.mpr ⟨h1, h2, h3⟩

theorem epts_subset_of_subset_universeOf {A B : Finset ((Nat × Nat) × Int)}
    (h : A ⊆ universeOf B) : epts A ⊆ epts B := by
  intro a ha
  rcases Finset.mem_union.mp ha with h1 | h1
  · obtain ⟨p, hp, rfl⟩ := Finset.mem_image.mp h1
    exact (mem_universeOf.mp (h hp)).1
  · obtain ⟨p, hp, rfl⟩ := Finset.mem_image.mp h1
    exact (mem_universeOf.mp (h hp)).2.1

theorem timesOf_subset_of_subset_universeOf {A B : Finset ((Nat × Nat) × Int)}
    (h : A ⊆ universeOf B) : timesOf A ⊆ timesOf B := by
  intro t ht
  obtain ⟨p, hp, rfl⟩ := Finset.mem_image.mp ht
  exact (mem_universeOf.mp (h hp)).2.2

theorem universeOf_subset_universeOf {A B : Finset ((Nat × Nat) × Int)}
    (h : A ⊆ universeOf B) : universeOf A ⊆ universeOf B := by
  intro p hp
  obtain ⟨h1, h2, h3⟩ := mem_universeOf.mp hp
  exact mem_universeOf.mpr ⟨epts_subset_of_subset_universeOf h h1,
    epts_subset_of_subset_universeOf h h2,
    timesOf_subset_of_subset_universeOf h h3⟩

theorem normalize_pair_cases (u v : Nat) :
    normalize_pair u v = (u, v) ∨ normalize_pair u v = (v, u) := by
  unfold normalize_pair
  by_cases h : u ≤ v
  · rw [if_pos h]; exact Or.inl rfl
  · rw [if_neg h]; exact Or.inr rfl

/-- For a well-formed graph the canonical snapshot is the edge map itself:
both the per-edge label lists and the key list are already sorted. -/
theorem to_state_eq_self {g : TemporalGraph} (h : g.WF) :
    g.to_state = ⟨g.edges⟩ := by
  unfold TemporalGraph.to_state
  congr 1
  have hmap : g.edges.map (fun p => (p.1, TemporalGraph.sortTimes p.2)) = g.edges := by
    have hcongr : ∀ p ∈ g.edges,
        (fun (p : (Nat × Nat) × List Int) => (p.1, TemporalGraph.sortTimes p.2)) p = id p := by
      intro p hp
      have hsorted : p.2.Sorted (· ≤ ·) :=
        ((h.2 p hp).2.2).imp (fun hab => le_of_lt hab)
      show (p.1, TemporalGraph.sortTimes p.2) = p
      rw [TemporalGraph.sortTimes, List.Sorted.insertionSort_eq hsorted]
    rw [List.map_congr_left hcongr, List.map_id]
  rw [hmap]
  have hsorted : g.edges.Sorted (fun a b => keyLe a.1 b.1) := by
    refine h.1.imp ?_
    intro a b hab
    rcases hab with h1 | ⟨h1, h2⟩
    · exact Or.inl h1
    · exact Or.inr ⟨h1, le_of_lt h2⟩
  exact List.Sorted.insertionSort_eq hsorted

theorem lookup_eq_of_relE_eq {es₁ es₂ : List ((Nat × Nat) × List Int)}
    (h₁ : WFedges es₁) (h₂ : WFedges es₂)
    (h : relE es₁ = relE es₂) (k : Nat × Nat) :
    lookupEdge es₁ k = lookupEdge es₂ k := by
  have hmem : ∀ t, t ∈ (lookupEdge es₁ k).getD [] ↔ t ∈ (lookupEdge es₂ k).getD [] := by
    intro t
    rw [← mem_relE_lookup h₁.1, ← mem_relE_lookup h₂.1, h]
  cases hc₁ : lookupEdge es₁ k with
  | none =>
    cases hc₂ : lookupEdge es₂ k with
    | none => rfl
    | some ts₂ =>
      have hne : ts₂ ≠ [] := (h₂.2 _ (lookupEdge_mem hc₂)).2.1
      obtain ⟨t, ht⟩ := List.exists_mem_of_ne_nil ts₂ hne
      have hmt := (hmem t).mpr (by rw [hc₂]; exact ht)
      rw [hc₁] at hmt
      simp at hmt
  | some ts₁ =>
    cases hc₂ : lookupEdge es₂ k with
    | none =>
      have hne : ts₁ ≠ [] := (h₁.2 _ (lookupEdge_mem hc₁)).2.1
      obtain ⟨t, ht⟩ := List.exists_mem_of_ne_nil ts₁ hne
      have hmt := (hmem t).mp (by rw [hc₁]; exact ht)
      rw [hc₂] at hmt
      simp at hmt
    | some ts₂ =>
      congr 1
      have hs₁ : ts₁.Pairwise (fun a b : Int => a < b) := (h₁.2 _ (lookupEdge_mem hc₁)).2.2
      have hs₂ : ts₂.Pairwise (fun a b : Int => a < b) := (h₂.2 _ (lookupEdge_mem hc₂)).2.2
      haveI : IsAntisymm Int (· < ·) := ⟨fun a b hab hba => absurd hba (lt_asymm hab)⟩
      refine List.eq_of_perm_of_sorted ?_ hs₁ hs₂
      refine (List.perm_ext_iff_of_nodup (hs₁.imp ne_of_lt) (hs₂.imp ne_of_lt)).mpr ?_
      intro t
      have hmt := hmem t
      rw [hc₁, hc₂] at hmt
      exact hmt

theorem edges_eq_of_lookup_eq :
    ∀ {es₁ es₂ : List ((Nat × Nat) × List Int)}, SKeys es₁ → SKeys es₂ →
      (∀ k, lookupEdge es₁ k = lookupEdge es₂ k) → es₁ = es₂ := by
  intro es₁ es₂ hs₁ hs₂ h
  have hnd : ∀ {es : List ((Nat × Nat) × List Int)}, SKeys es → es.Nodup := by
    intro es hs
    refine hs.imp ?_
    intro a b hab hc
    exact keyLt_ne hab (congrArg Prod.fst hc)
  have hmemiff : ∀ p, p ∈ es₁ ↔ p ∈ es₂ := by
    intro p
    obtain ⟨k, ts⟩ := p
    constructor
    · intro hp
      have := lookupEdge_eq_some_of_mem hs₁ hp
      rw [h k] at this
      exact lookupEdge_mem this
    · intro hp
      have := lookupEdge_eq_some_of_mem hs₂ hp
      rw [← h k] at this
      exact lookupEdge_mem this
  have hperm : es₁.Perm es₂ :=
    (List.perm_ext_iff_of_nodup (hnd hs₁) (hnd hs₂)).mpr hmemiff
  haveI : IsAntisymm ((Nat × Nat) × List Int) (fun a b => keyLt a.1 b.1) :=
    ⟨fun a b hab hba => absurd hba (keyLt_asymm hab)⟩
  exact List.eq_of_perm_of_sorted hperm hs₁ hs₂

theorem edges_eq_of_relE_eq {es₁ es₂ : List ((Nat × Nat) × List Int)}
    (h₁ : WFedges es₁) (h₂ : WFedges es₂) (h : relE es₁ = relE es₂) :
    es₁ = es₂ :=
  edges_eq_of_lookup_eq h₁.1 h₂.1 (lookup_eq_of_relE_eq h₁ h₂ h)

theorem relE_subset_of_lookup_subset {es₁ es₂ : List ((Nat × Nat) × List Int)}
    (h₁ : SKeys es₁) (h₂ : SKeys es₂)
    (h : ∀ k t, t ∈ (lookupEdge es₁ k).getD [] → t ∈ (lookupEdge es₂ k).getD []) :
    relE es₁ ⊆ relE es₂ := by
  intro p hp
  obtain ⟨k, t⟩ := p
  exact (mem_relE_lookup h₂ k t).mpr (h k t ((mem_relE_lookup h₁ k t).mp hp))

theorem lookup_removeEdgeTime_subset {es : List ((Nat × Nat) × List Int)}
    (hs : SKeys es) (k : Nat × Nat) (t₀ : Int) (k' : Nat × Nat) (t : Int)
    (h : t ∈ (lookupEdge (removeEdgeTime k t₀ es).1 k').getD []) :
    t ∈ (lookupEdge es k').getD [] := by
  by_cases hk : k' = k
  · subst hk
    cases hlk : lookupEdge es k' with
    | none =>
      rw [removeEdgeTime_of_lookup_none hlk t₀] at h
      rw [hlk] at h
      simp at h
    | some ts₀ =>
      rw [lookupEdge_removeEdgeTime_self hs hlk t₀] at h
      by_cases hc : t₀ ∈ ts₀ ∧ ts₀.filter (fun s => s ≠ t₀) = []
      · rw [if_pos hc] at h
        simp at h
      · rw [if_neg hc] at h
        simp only [Option.getD_some] at h
        exact (List.mem_filter.mp h).1
  · rw [lookupEdge_removeEdgeTime_ne t₀ hk es] at h
    exact h

theorem pair_eq_normalize_components {c d a b : Nat}
    (hk : (c, d) = normalize_pair a b) :
    (c = a ∧ d = b) ∨ (c = b ∧ d = a) := by
  rcases normalize_pair_cases a b with hc | hc <;> rw [hc] at hk
  · exact Or.inl (by simpa [Prod.ext_iff] using hk)
  · exact Or.inr (by simpa [Prod.ext_iff] using hk)

theorem lookup_remove_fold_subset (a b : Nat) :
    ∀ (l : List Int) (g : TemporalGraph), WFedges g.edges →
      ∀ k t, t ∈ (lookupEdge ((l.foldl
          (fun h t => (h.remove_edge_timestamp a b t).1) g).edges) k).getD [] →
        t ∈ (lookupEdge g.edges k).getD [] := by
  intro l
  induction l with
  | nil => intro g _ k t ht; exact ht
  | cons t₀ l ih =>
    intro g hw k t ht
    rw [List.foldl_cons] at ht
    have hstep := ih (g.remove_edge_timestamp a b t₀).1
      (WFedges_removeEdgeTime hw _ t₀) k t ht
    exact lookup_removeEdgeTime_subset hw.1 (normalize_pair a b) t₀ k t hstep

theorem relE_remove_edge_timestamp_subset {g : TemporalGraph} (hw : g.WF)
    (a b : Nat) (t₀ : Int) :
    relE (g.remove_edge_timestamp a b t₀).1.edges ⊆ relE g.edges :=
  relE_subset_of_lookup_subset (WFedges_removeEdgeTime hw _ t₀).1 hw.1
    (fun k t ht => lookup_removeEdgeTime_subset hw.1 (normalize_pair a b) t₀ k t ht)

theorem relE_add_edge_subset {g : TemporalGraph} (hw : g.WF) (a b : Nat) (t₀ : Int)
    {R : Finset ((Nat × Nat) × Int)} (hsub : relE g.edges ⊆ universeOf R)
    (ha : a ∈ epts R) (hb : b ∈ epts R) (ht : t₀ ∈ timesOf R) :
    relE (g.add_edge a b t₀).edges ⊆ universeOf R := by
  have hwf' : WFedges (g.add_edge a b t₀).edges :=
    WFedges_insertEdgeTime hw (normalize_pair_fst_le_snd a b) t₀
  intro p hp
  obtain ⟨⟨c, d⟩, t⟩ := p
  have hmem : t ∈ (lookupEdge (g.add_edge a b t₀).edges (c, d)).getD [] :=
    (mem_relE_lookup hwf'.1 _ t).mp hp
  by_cases hk : (c, d) = normalize_pair a b
  · have hself : lookupEdge (g.add_edge a b t₀).edges (normalize_pair a b) =
        some (insOrd t₀ ((lookupEdge g.edges (normalize_pair a b)).getD [])) :=
      lookupEdge_insertEdgeTime_self hw.1 _ t₀
    rw [hk, hself] at hmem
    simp only [Option.getD_some] at hmem
    rcases (mem_insOrd t₀ _ t).mp hmem with rfl | hold
    · rcases pair_eq_normalize_components hk with ⟨rfl, rfl⟩ | ⟨rfl, rfl⟩
      · exact mem_universeOf.mpr ⟨ha, hb, ht⟩
      · exact mem_universeOf.mpr ⟨hb, ha, ht⟩
    · have : ((c, d), t) ∈ relE g.edges := by
        rw [mem_relE_lookup hw.1, hk]
        exact hold
      exact hsub this
  · have hne : lookupEdge (g.add_edge a b t₀).edges (c, d) = lookupEdge g.edges (c, d) :=
      lookupEdge_insertEdgeTime_ne t₀ hk g.edges
    rw [hne] at hmem
    exact hsub ((mem_relE_lookup hw.1 _ t).mpr hmem)

theorem neighbors_subset_epts {g : TemporalGraph} (hw : g.WF) {v w : Nat}
    (h : w ∈ g.get_all_neighbors v) : w ∈ epts (relE g.edges) := by
  obtain ⟨p, hp, hcase⟩ := (mem_get_all_neighbors_iff g v w).mp h
  have hne : p.2 ≠ [] := (hw.2 p hp).2.1
  obtain ⟨t, ht⟩ := List.exists_mem_of_ne_nil p.2 hne
  have hrel : ((p.1.1, p.1.2), t) ∈ relE g.edges := mem_relE.mpr ⟨p.2, hp, ht⟩
  rcases hcase with ⟨_, hw2⟩ | ⟨_, _, hw1⟩
  · rw [hw2]
    exact (rel_mem_epts hrel).2.1
  · rw [hw1]
    exact (rel_mem_epts hrel).1

theorem transferStep_rel_bound (u v : Nat) (tmin tmax : Int)
    {R : Finset ((Nat × Nat) × Int)} (hu : u ∈ epts R) {w : Nat} (hwm : w ∈ epts R)
    (start : TemporalGraph × Nat) (hwf : WFedges start.1.edges)
    (hsub : relE start.1.edges ⊆ universeOf R) :
    WFedges ((transferStep u v tmin tmax start w).1.edges) ∧
    relE ((transferStep u v tmin tmax start w).1.edges) ⊆ universeOf R := by
  unfold transferStep
  by_cases hwu : w = u
  · rw [if_pos hwu]; exact ⟨hwf, hsub⟩
  · rw [if_neg hwu]
    dsimp only
    by_cases hemp : (start.1.get_edge_timestamps_in_range v w tmin tmax).isEmpty = true
    · rw [if_pos hemp]; exact ⟨hwf, hsub⟩
    · rw [if_neg hemp]
      set ts := start.1.get_edge_timestamps_in_range v w tmin tmax with hts
      set g₁ := ts.foldl (fun h t => (h.remove_edge_timestamp v w t).1) start.1 with hg₁
      have hw₁ : WFedges g₁.edges := WFedges_remove_fold v w ts start.1 hwf
      have hw₂ : WFedges ((ts.foldl (fun h t => h.add_edge w u t) g₁).edges) :=
        WFedges_add_fold w u ts g₁ hw₁
      refine ⟨hw₂, ?_⟩
      have hts_times : ∀ t ∈ ts, t ∈ timesOf R := by
        intro t ht
        have hchar := (mem_get_edge_timestamps_in_range start.1 v w tmin tmax t).mp ht
        have hmemrel : ((normalize_pair v w), t) ∈ relE start.1.edges :=
          (mem_relE_lookup hwf.1 (normalize_pair v w) t).mpr hchar.1
        exact (mem_universeOf.mp (hsub hmemrel)).2.2
      have hsub₁ : relE g₁.edges ⊆ relE start.1.edges :=
        relE_subset_of_lookup_subset hw₁.1 hwf.1
          (fun k t ht => lookup_remove_fold_subset v w ts start.1 hwf k t ht)
      intro p hp
      obtain ⟨⟨a, b⟩, t⟩ := p
      have hmem : t ∈ (lookupEdge ((ts.foldl (fun h t => h.add_edge w u t) g₁).edges)
          (a, b)).getD [] :=
        (mem_relE_lookup hw₂.1 _ t).mp hp
      by_cases hk : (a, b) = normalize_pair w u
      · rw [hk] at hmem
        rcases ((lookup_add_fold_self w u ts g₁ hw₁).1 t).mp hmem with hold | hnew
        · have hing : ((a, b), t) ∈ relE g₁.edges := by
            rw [mem_relE_lookup hw₁.1, hk]
            exact hold
          exact hsub (hsub₁ hing)
        · have htR := hts_times t hnew
          rcases pair_eq_normalize_components hk with ⟨rfl, rfl⟩ | ⟨rfl, rfl⟩
          · exact mem_universeOf.mpr ⟨hwm, hu, htR⟩
          · exact mem_universeOf.mpr ⟨hu, hwm, htR⟩
      · rw [lookup_add_fold_ne w u hk ts g₁] at hmem
        exact hsub (hsub₁ ((mem_relE_lookup hw₁.1 _ t).mpr hmem))

theorem transfer_fold_rel_bound (u v : Nat) (tmin tmax : Int)
    {R : Finset ((Nat × Nat) × Int)} (hu : u ∈ epts R) :
    ∀ (ws : List Nat), (∀ w ∈ ws, w ∈ epts R) →
      ∀ (start : TemporalGraph × Nat), WFedges start.1.edges →
        relE start.1.edges ⊆ universeOf R →
        WFedges ((ws.foldl (transferStep u v tmin tmax) start).1.edges) ∧
        relE ((ws.foldl (transferStep u v tmin tmax) start).1.edges) ⊆ universeOf R := by
  intro ws
  induction ws with
  | nil => intro _ start hwf hsub; exact ⟨hwf, hsub⟩
  | cons w ws ih =>
    intro hws start hwf hsub
    rw [List.foldl_cons]
    obtain ⟨h1, h2⟩ := transferStep_rel_bound u v tmin tmax hu
      (hws w (List.mem_cons_self _ _)) start hwf hsub
    exact ih (fun w' hw' => hws w' (List.mem_cons_of_mem _ hw')) _ h1 h2

theorem transfer_rel_bound (g : TemporalGraph) (hw : g.WF) (u v : Nat) :
    relE (g.transfer_labels_through_edge u v).1.edges ⊆ universeOf (relE g.edges) := by
  rw [transfer_eq_foldl_transferStep]
  cases hrange : g.get_edge_time_range u v with
  | none => exact self_subset_universeOf _
  | some pr =>
    obtain ⟨tmin, tmax⟩ := pr
    obtain ⟨ts₀, hts₀⟩ : ∃ ts₀, lookupEdge g.edges (normalize_pair u v) = some ts₀ := by
      unfold TemporalGraph.get_edge_time_range at hrange
      cases hc : lookupEdge g.edges (normalize_pair u v) with
      | none => rw [hc] at hrange; simp at hrange
      | some ts => exact ⟨ts, rfl⟩
    have hne : ts₀ ≠ [] := (hw.2 _ (lookupEdge_mem hts₀)).2.1
    obtain ⟨t₀, ht₀⟩ := List.exists_mem_of_ne_nil ts₀ hne
    have hrel : ((normalize_pair u v), t₀) ∈ relE g.edges := by
      rw [mem_relE_lookup hw.1, hts₀]
      exact ht₀
    have hu : u ∈ epts (relE g.edges) := by
      rcases normalize_pair_cases u v with hc | hc <;> rw [hc] at hrel
      · exact (rel_mem_epts hrel).1
      · exact (rel_mem_epts hrel).2.1
    exact (transfer_fold_rel_bound u v tmin tmax hu (g.get_all_neighbors v)
      (fun w hwm => neighbors_subset_epts hw hwm) (g, 0) hw
      (self_subset_universeOf _)).2

theorem find_min_neighbor_epts {g : TemporalGraph} (hw : g.WF) {u v w x : Nat}
    {t : Int} (hfind : g.find_wrappable_edge = some (u, v))
    (hmin : g.find_min_incident_in_range u v = some (w, x, t)) :
    w ∈ epts (relE g.edges) := by
  obtain ⟨huv, ts, hlk, hlen⟩ := find_wrappable_edge_entry hw hfind
  have hnorm : normalize_pair u v = (u, v) := normalize_pair_eq_self huv
  have hlk' : lookupEdge g.edges (normalize_pair u v) = some ts := by
    rw [hnorm]; exact hlk
  obtain ⟨tmin, tmax, hmm⟩ := @listMinMax_eq_some ts
    (by intro hc; rw [hc] at hlen; simp at hlen)
  have hpw : ts.Pairwise (fun a b : Int => a < b) := (hw.2 _ (lookupEdge_mem hlk')).2.2
  have hlt : tmin < tmax := tmin_lt_tmax_of_sorted hpw hlen hmm
  rw [find_min_incident_eq_minByTime hlk' hlen hmm hlt] at hmin
  obtain ⟨hmem, _⟩ := minByTime_eq_some hmin
  obtain ⟨p, hpmem, _, hwx, _, htm, _, _⟩ :=
    (mem_minIncidentCands_iff hw u v tmin tmax w x t).mp hmem
  have hrel : ((p.1.1, p.1.2), t) ∈ relE g.edges := mem_relE.mpr ⟨p.2, hpmem, htm⟩
  rcases hwx with ⟨_, hw2⟩ | ⟨_, hw1⟩
  · rw [hw2]
    exact (rel_mem_epts hrel).2.1
  · rw [hw1]
    exact (rel_mem_epts hrel).1

/-- One mutation step only rearranges labels among the endpoints and label
values already present: the mutated graph's label relation lives inside the
finite universe of the pre-step graph. -/
theorem iterMutation_rel_bound {g : TemporalGraph} (hw : g.WF) (u v w x : Nat)
    (hwe : w ∈ epts (relE g.edges))
    {g₃ : TemporalGraph} {n : Nat} {rm : Bool}
    (h : iterMutation g u v w x = some (g₃, n, rm)) :
    relE g₃.edges ⊆ universeOf (relE g.edges) := by
  unfold iterMutation at h
  dsimp only at h
  cases hrange : ((g.transfer_labels_through_edge x
      (if x = u then v else u)).1.get_edge_time_range u v) with
  | none => rw [hrange] at h; simp at h
  | some pr =>
    obtain ⟨tmin, tmax⟩ := pr
    rw [hrange] at h
    dsimp only at h
    obtain ⟨h1, h2, h3⟩ :
        (((g.transfer_labels_through_edge x (if x = u then v else u)).1.add_edge
            w (if x = u then v else u) tmin).remove_edge_timestamp u v tmin).1 = g₃ ∧
          (g.transfer_labels_through_edge x (if x = u then v else u)).2 = n ∧
          (((g.transfer_labels_through_edge x (if x = u then v else u)).1.add_edge
            w (if x = u then v else u) tmin).remove_edge_timestamp u v tmin).2 = rm := by
      simpa [Prod.ext_iff] using Option.some.inj h
    have hwt : (g.transfer_labels_through_edge x (if x = u then v else u)).1.WF :=
      transfer_WF g hw x _
    have hsub_tr : relE (g.transfer_labels_through_edge x
        (if x = u then v else u)).1.edges ⊆ universeOf (relE g.edges) :=
      transfer_rel_bound g hw x _
    obtain ⟨ts₁, hts₁⟩ : ∃ ts₁, lookupEdge
        (g.transfer_labels_through_edge x (if x = u then v else u)).1.edges
        (normalize_pair u v) = some ts₁ := by
      unfold TemporalGraph.get_edge_time_range at hrange
      cases hc : lookupEdge (g.transfer_labels_through_edge x
          (if x = u then v else u)).1.edges (normalize_pair u v) with
      | none => rw [hc] at hrange; simp at hrange
      | some ts₁ => exact ⟨ts₁, rfl⟩
    have hmm : TemporalGraph.listMinMax ts₁ = some (tmin, tmax) := by
      unfold TemporalGraph.get_edge_time_range at hrange
      rw [hts₁] at hrange
      exact hrange
    have htmin : tmin ∈ ts₁ := (listMinMax_spec hmm).1
    have hrel₁ : ((normalize_pair u v), tmin) ∈ relE
        (g.transfer_labels_through_edge x (if x = u then v else u)).1.edges :=
      (mem_relE_lookup hwt.1 _ tmin).mpr (by rw [hts₁]; exact htmin)
    have hbound := mem_universeOf.mp (hsub_tr hrel₁)
    have huv_epts : u ∈ epts (relE g.edges) ∧ v ∈ epts (relE g.edges) := by
      rcases normalize_pair_cases u v with hc | hc <;> rw [hc] at hbound
      · exact ⟨hbound.1, hbound.2.1⟩
      · exact ⟨hbound.2.1, hbound.1⟩
    have hother : (if x = u then v else u) ∈ epts (relE g.edges) := by
      by_cases hxu : x = u
      · rw [if_pos hxu]; exact huv_epts.2
      · rw [if_neg hxu]; exact huv_epts.1
    have hsub₂ : relE ((g.transfer_labels_through_edge x
        (if x = u then v else u)).1.add_edge
        w (if x = u then v else u) tmin).edges ⊆ universeOf (relE g.edges) :=
      relE_add_edge_subset hwt w _ tmin hsub_tr hwe hother hbound.2.2
    have hwa : ((g.transfer_labels_through_edge x (if x = u then v else u)).1.add_edge
        w (if x = u then v else u) tmin).WF :=
      WFedges_insertEdgeTime hwt (normalize_pair_fst_le_snd _ _) tmin
    have hsub₃ := relE_remove_edge_timestamp_subset hwa u v tmin
    rw [← h1]
    exact fun p hp => hsub₂ (hsub₃ hp)

/-- Inversion of a non-terminal iteration: the mutated graph comes from a
successful wrap step, its canonical state was not yet in the seen-set, and
the seen-set is extended by exactly that state. -/
theorem runIter_next_inv {cfg : MinimizationConfig} {s s' : RunState}
    (h : runIter cfg s = .next s') :
    ∃ u v w x t g₃ n,
      s.graph.find_wrappable_edge = some (u, v) ∧
      s.graph.find_min_incident_in_range u v = some (w, x, t) ∧
      iterMutation s.graph u v w x = some (g₃, n, true) ∧
      s'.graph = g₃ ∧
      g₃.to_state ∉ s.seen_states ∧
      s'.seen_states = insert g₃.to_state s.seen_states := by
  unfold runIter at h
  dsimp only at h
  by_cases hcap : should_terminate_iterations cfg
      { s.stats with iterations := s.stats.iterations + 1 } = true
  · rw [if_pos hcap] at h; simp at h
  · rw [if_neg hcap] at h
    cases hfw : s.graph.find_wrappable_edge with
    | none => rw [hfw] at h; simp at h
    | some pr =>
      obtain ⟨u, v⟩ := pr
      rw [hfw] at h
      dsimp only at h
      cases hfm : s.graph.find_min_incident_in_range u v with
      | none => rw [hfm] at h; simp at h
      | some pr2 =>
        obtain ⟨w, x, t⟩ := pr2
        rw [hfm] at h
        dsimp only at h
        cases hmut : iterMutation s.graph u v w x with
        | none => rw [hmut] at h; simp at h
        | some trip =>
          obtain ⟨g₃, n, rm⟩ := trip
          rw [hmut] at h
          dsimp only at h
          by_cases hrm : rm = false
          · rw [if_pos hrm] at h; simp at h
          · rw [if_neg hrm] at h
            by_cases hseen : g₃.to_state ∈ s.seen_states
            · rw [if_pos hseen] at h; simp at h
            · rw [if_neg hseen] at h
              have hs' := IterOutcome.next.inj h
              have hrmt : rm = true := by
                cases rm
                · exact absurd rfl hrm
                · rfl
              refine ⟨u, v, w, x, t, g₃, n, rfl, hfm, ?_, ?_, hseen, ?_⟩
              · rw [← hrmt]; exact hmut
              · rw [← hs']
              · rw [← hs']

/-- The invariant carried by `run`: the current graph is well-formed and
bounded by the universe of the initial graph, and so is every recorded
canonical state. -/
def GoodState (R : Finset ((Nat × Nat) × Int)) (st : RunState) : Prop :=
  WFedges st.graph.edges ∧
  relE st.graph.edges ⊆ universeOf R ∧
  ∀ s ∈ st.seen_states, WFedges s.edge_labels ∧ relE s.edge_labels ⊆ universeOf R

theorem runIter_next_good {cfg : MinimizationConfig} {R : Finset ((Nat × Nat) × Int)}
    {s s' : RunState} (h : runIter cfg s = .next s') (hg : GoodState R s) :
    GoodState R s' ∧ s'.seen_states.card = s.seen_states.card + 1 := by
  obtain ⟨u, v, w, x, t, g₃, n, hfw, hfm, hmut, hgraph, hseen, hins⟩ := runIter_next_inv h
  obtain ⟨hwf, hsub, hall⟩ := hg
  have hwf₃ : g₃.WF := iterMutation_WF hwf u v w x hmut
  have hwe : w ∈ epts (relE s.graph.edges) := find_min_neighbor_epts hwf hfw hfm
  have hsub₃ : relE g₃.edges ⊆ universeOf (relE s.graph.edges) :=
    iterMutation_rel_bound hwf u v w x hwe hmut
  have hsub₃' : relE g₃.edges ⊆ universeOf R :=
    fun p hp => universeOf_subset_universeOf hsub (hsub₃ hp)
  have hstate : WFedges g₃.to_state.edge_labels ∧
      relE g₃.to_state.edge_labels ⊆ universeOf R := by
    rw [to_state_eq_self hwf₃]
    exact ⟨hwf₃, hsub₃'⟩
  refine ⟨⟨?_, ?_, ?_⟩, ?_⟩
  · rw [hgraph]; exact hwf₃
  · rw [hgraph]; exact hsub₃'
  · intro st hst
    rw [hins] at hst
    rcases Finset.mem_insert.mp hst with rfl | hst'
    · exact hstate
    · exact hall st hst'
  · rw [hins]
    exact Finset.card_insert_of_not_mem hseen

/-- The seen-set holds pairwise distinct well-formed canonical states over
the finite universe, so its size never exceeds the number of subsets of the
universe. -/
theorem seen_card_bound {R : Finset ((Nat × Nat) × Int)} {st : RunState}
    (hg : GoodState R st) : st.seen_states.card ≤ 2 ^ (universeOf R).card := by
  have hb : st.seen_states.card ≤ (universeOf R).powerset.card := by
    apply Finset.card_le_card_of_injOn (fun s => relE s.edge_labels)
    · intro s hs
      exact Finset.mem_powerset.mpr (hg.2.2 s hs).2
    · intro s₁ hs₁ s₂ hs₂ heq
      have h₁ := hg.2.2 s₁ (Finset.mem_coe.mp hs₁)
      have h₂ := hg.2.2 s₂ (Finset.mem_coe.mp hs₂)
      have heq' : s₁.edge_labels = s₂.edge_labels := edges_eq_of_relE_eq h₁.1 h₂.1 heq
      cases s₁
      cases s₂
      exact congrArg GraphState.mk heq'
  rw [Finset.card_powerset] at hb
  exact hb

theorem runAux_done_of_enough_fuel {R : Finset ((Nat × Nat) × Int)}
    (cfg : MinimizationConfig) :
    ∀ (fuel : Nat) (st : RunState), GoodState R st →
      2 ^ (universeOf R).card + 1 ≤ fuel + st.seen_states.card →
      ∃ r, runAux cfg fuel st = .done r := by
  intro fuel
  induction fuel with
  | zero =>
    intro st hg hb
    have hcb := seen_card_bound hg
    omega
  | succ fuel ih =>
    intro st hg hb
    rw [runAux]
    cases hiter : runIter cfg st with
    | terminal r => exact ⟨r, rfl⟩
    | panicked =>
      exfalso
      obtain ⟨u, v, w, x, t, hfw, hfm, hmut⟩ := runIter_panicked hiter
      obtain ⟨g₃, n, hsome⟩ := iterMutation_safe hg.1 hfw hfm
      rw [hmut] at hsome
      simp at hsome
    | next s' =>
      obtain ⟨hg', hcard⟩ := runIter_next_good hiter hg
      exact ih s' hg' (by omega)

/-- C10: for every well-formed input graph the run terminates even without
an iteration cap.  A non-terminal iteration keeps the graph's label relation
inside the finite universe built from the endpoints and label values already
present, and inserts a previously-unseen canonical state into the seen-set;
since distinct recorded states have distinct label relations, the seen-set
is bounded by the subsets of the universe, and fuel equal to that bound
makes the loop reach one of the code's own terminal outcomes. -/
theorem run_terminates_spec :
    (∀ (cfg : MinimizationConfig) (s s' : RunState),
      runIter cfg s = IterOutcome.next s' → WFedges s.graph.edges →
        relE s'.graph.edges ⊆ universeOf (relE s.graph.edges) ∧
        s'.graph.to_state ∉ s.seen_states ∧
        s'.seen_states = insert s'.graph.to_state s.seen_states ∧
        s'.seen_states.card = s.seen_states.card + 1) ∧
    (∀ (cfg : MinimizationConfig) (g : TemporalGraph), g.WF →
      ∃ r, run cfg (2 ^ (universeOf (relE g.edges)).card) g = RunOutcome.done r) := by
  constructor
  · intro cfg s s' h hwf
    obtain ⟨u, v, w, x, t, g₃, n, hfw, hfm, hmut, hgraph, hseen, hins⟩ := runIter_next_inv h
    have hwe : w ∈ epts (relE s.graph.edges) := find_min_neighbor_epts hwf hfw hfm
    have hsub₃ : relE g₃.edges ⊆ universeOf (relE s.graph.edges) :=
      iterMutation_rel_bound hwf u v w x hwe hmut
    refine ⟨?_, ?_, ?_, ?_⟩
    · rw [hgraph]; exact hsub₃
    · rw [hgraph]; exact hseen
    · rw [hins, hgraph]
    · rw [hins]
      exact Finset.card_insert_of_not_mem hseen
  · intro cfg g hw
    have hg : GoodState (relE g.edges) ⟨g, initStats, {g.to_state}⟩ := by
      refine ⟨hw, self_subset_universeOf _, ?_⟩
      intro s hs
      rw [Finset.mem_singleton] at hs
      subst hs
      rw [to_state_eq_self hw]
      exact ⟨hw, self_subset_universeOf _⟩
    exact runAux_done_of_enough_fuel cfg (2 ^ (universeOf (relE g.edges)).card)
      ⟨g, initStats, {g.to_state}⟩ hg (by rw [Finset.card_singleton])

/-- Witness for C10: on scenario 1 the run with an unbounded iteration cap
terminates with one of the code's own outcomes within the universe-sized
fuel bound. -/
theorem run_terminates_spec_witness :
    ∃ r, run ⟨none, true, false⟩
      (2 ^ (universeOf (relE (buildGraph [(0,1,0), (0,1,10), (1,2,5)]).edges)).card)
      (buildGraph [(0,1,0), (0,1,10), (1,2,5)]) = RunOutcome.done r :=
  run_terminates_spec.2 ⟨none, true, false⟩
    (buildGraph [(0,1,0), (0,1,10), (1,2,5)]) (by decide)
